import Mathlib

/-!
Verification development for the core trait-resolution engine of the
chalk repository: the intermediate representation of types and clauses,
the inference table with union-find, universes, snapshots and rollback,
the unifier with its occurs/universe check, the query canonicalizer, the
environment elaborator, and the scoped current-program register.

The data model and the unifier, canonicalizer, elaborator and register
are translated from the repository's source files
(`src/solve/infer/unify.rs`, `src/solve/infer/query.rs`, `src/ir/tls.rs`,
`chalk-rust/src/ir/mod.rs`).  The inference-table internals
(union-find, snapshots), the fold machinery (`Shifter`, `Subst`) and the
zip traversal are not part of the provided sources; those definitions
are modelled from the specification and are marked as such in their
doc comments.
-/

namespace Chalk

/-!
`UniverseIndex { counter: usize }`, `ItemId { index: usize }`,
`KrateId { name: Identifier }` and interned `Identifier`s are all
embedded as plain natural numbers (the wrapper structs carry exactly
one such field; identifiers are interned symbols compared by
identity).  Universe 0 is the root; universe `u` can see universe `v`
iff `v ≤ u`. -/

/-- `UniverseIndex::root()`. -/
def UniverseIndex.root : Nat := 0

/-- `can_see`: universe `u` can see universe `v` iff `v ≤ u`. -/
def UniverseIndex.can_see (u v : Nat) : Bool := v ≤ u

/-- `Lifetime` — `Var(i)` (de Bruijn / inference reference) or
`ForAll(universe)` (a skolemized lifetime). -/
inductive Lifetime where
  | Var : Nat → Lifetime
  | ForAll : Nat → Lifetime
deriving DecidableEq, Repr

/-- `Krate` — `Var(i)` or `Id(name)`. -/
inductive Krate where
  | Var : Nat → Krate
  | Id : Nat → Krate
deriving DecidableEq, Repr

/-- `TypeName` — a nominal item, a skolemized type parameter
(`ForAll(universe)`), or an associated type. -/
inductive TypeName where
  | ItemId : Nat → TypeName
  | ForAll : Nat → TypeName
  | AssociatedType : Nat → TypeName
deriving DecidableEq, Repr

mutual
/-- `Ty` from `chalk-rust/src/ir/mod.rs`.  `Apply` carries the fields of
`ApplicationTy { name, parameters }`, `Projection` the fields of
`ProjectionTy { associated_ty_id, parameters }`, and `ForAll` the fields
of `QuantifiedTy { num_binders, ty }` inline (Lean mutual blocks do not
admit nested structures). -/
inductive Ty where
  | Var : Nat → Ty
  | Apply : TypeName → List Parameter → Ty
  | Projection : Nat → List Parameter → Ty
  | ForAll : Nat → Ty → Ty
deriving Repr

/-- `Parameter = ParameterKind<Ty, Lifetime, Krate>`, specialized copy
of the three-variant sum for use inside the mutual block. -/
inductive Parameter where
  | Ty : Ty → Parameter
  | Lifetime : Lifetime → Parameter
  | Krate : Krate → Parameter
deriving Repr
end

mutual
/-- Structural boolean equality on `Ty` (the derived `PartialEq`). -/
def Ty.beq : Ty → Ty → Bool
  | .Var i, .Var j => i == j
  | .Apply n ps, .Apply m qs => n == m && beqParams ps qs
  | .Projection i ps, .Projection j qs => i == j && beqParams ps qs
  | .ForAll n t, .ForAll m u => n == m && Ty.beq t u
  | _, _ => false

/-- Pointwise boolean equality on parameter lists. -/
def beqParams : List Parameter → List Parameter → Bool
  | [], [] => true
  | p :: ps, q :: qs => Parameter.beq p q && beqParams ps qs
  | _, _ => false

/-- Structural boolean equality on `Parameter`. -/
def Parameter.beq : Parameter → Parameter → Bool
  | .Ty t, .Ty u => Ty.beq t u
  | .Lifetime l, .Lifetime m => l == m
  | .Krate c, .Krate d => c == d
  | _, _ => false
end

mutual
theorem Ty.tyBeq_iff : (a b : Ty) → (Ty.beq a b = true ↔ a = b)
  | .Var i, .Var j => by simp [Ty.beq]
  | .Var _, .Apply _ _ | .Var _, .Projection _ _ | .Var _, .ForAll _ _ => by simp [Ty.beq]
  | .Apply _ _, .Var _ | .Apply _ _, .Projection _ _ | .Apply _ _, .ForAll _ _ => by
      simp [Ty.beq]
  | .Apply n ps, .Apply m qs => by simp [Ty.beq, beqParams_iff ps qs]
  | .Projection _ _, .Var _ | .Projection _ _, .Apply _ _ | .Projection _ _, .ForAll _ _ => by
      simp [Ty.beq]
  | .Projection i ps, .Projection j qs => by simp [Ty.beq, beqParams_iff ps qs]
  | .ForAll _ _, .Var _ | .ForAll _ _, .Apply _ _ | .ForAll _ _, .Projection _ _ => by
      simp [Ty.beq]
  | .ForAll n t, .ForAll m u => by simp [Ty.beq, Ty.tyBeq_iff t u]

theorem beqParams_iff : (a b : List Parameter) → (beqParams a b = true ↔ a = b)
  | [], [] => by simp [beqParams]
  | [], _ :: _ | _ :: _, [] => by simp [beqParams]
  | p :: ps, q :: qs => by
      simp [beqParams, Parameter.paramBeq_iff p q, beqParams_iff ps qs]

theorem Parameter.paramBeq_iff : (a b : Parameter) → (Parameter.beq a b = true ↔ a = b)
  | .Ty t, .Ty u => by simp [Parameter.beq, Ty.tyBeq_iff t u]
  | .Ty _, .Lifetime _ | .Ty _, .Krate _ => by simp [Parameter.beq]
  | .Lifetime _, .Ty _ | .Lifetime _, .Krate _ => by simp [Parameter.beq]
  | .Lifetime l, .Lifetime m => by simp [Parameter.beq]
  | .Krate _, .Ty _ | .Krate _, .Lifetime _ => by simp [Parameter.beq]
  | .Krate c, .Krate d => by simp [Parameter.beq]
end

instance : DecidableEq Ty := fun a b => decidable_of_iff _ (Ty.tyBeq_iff a b)

instance : DecidableEq Parameter := fun a b => decidable_of_iff _ (Parameter.paramBeq_iff a b)

/-- `QuantifiedTy { num_binders, ty }`: `for<'a...'z> X`, all binders
instantiated at once, de Bruijn indices within `ty`. -/
structure QuantifiedTy where
  num_binders : Nat
  ty : Ty
deriving DecidableEq, Repr

/-- The `Ty::ForAll` injection of a `QuantifiedTy`. -/
def QuantifiedTy.toTy (q : QuantifiedTy) : Ty := Ty.ForAll q.num_binders q.ty

/-- `ProjectionTy { associated_ty_id, parameters }`. -/
structure ProjectionTy where
  associated_ty_id : Nat
  parameters : List Parameter
deriving DecidableEq, Repr

/-- The `Ty::Projection` injection of a `ProjectionTy`. -/
def ProjectionTy.toTy (p : ProjectionTy) : Ty :=
  Ty.Projection p.associated_ty_id p.parameters

/-- The generic three-variant `ParameterKind<T, L, C>` (used with
payloads other than terms: unit kinds, universe annotations). -/
inductive ParameterKind (T L C : Type) where
  | Ty : T → ParameterKind T L C
  | Lifetime : L → ParameterKind T L C
  | Krate : C → ParameterKind T L C
deriving DecidableEq, Repr

/-- `ParameterKind<()>`: a bare kind, as stored in `Binders::binders`. -/
abbrev ParameterKindU := ParameterKind Unit Unit Unit

/-- `TraitRef { trait_id, parameters }`. -/
structure TraitRef where
  trait_id : Nat
  parameters : List Parameter
deriving DecidableEq, Repr

/-- `Normalize { projection, ty }`: the projection normalizes to `ty`. -/
structure NormalizeG where
  projection : ProjectionTy
  ty : Ty
deriving DecidableEq, Repr

/-- `WhereClause` — the positive clauses declarable in programs. -/
inductive WhereClause where
  | Implemented : TraitRef → WhereClause
  | Normalize : NormalizeG → WhereClause
deriving DecidableEq, Repr

/-- `Unify<T> { a, b }`. -/
structure UnifyG (T : Type) where
  a : T
  b : T
deriving DecidableEq, Repr

/-- `WellFormed` — `Ty(Ty)` or `TraitRef(TraitRef)`. -/
inductive WellFormed where
  | Ty : Ty → WellFormed
  | TraitRef : TraitRef → WellFormed
deriving DecidableEq, Repr

/-- `LocalTo<F> { value, krate }`. -/
structure LocalTo (F : Type) where
  value : F
  krate : Krate
deriving DecidableEq, Repr

/-- `Not<T> { predicate, krate }`. -/
structure NotG (T : Type) where
  predicate : T
  krate : Krate
deriving DecidableEq, Repr

/-- `WhereClauseGoal` — the leaf goals the solver addresses. -/
inductive WhereClauseGoal where
  | Implemented : TraitRef → WhereClauseGoal
  | Normalize : NormalizeG → WhereClauseGoal
  | UnifyTys : UnifyG Ty → WhereClauseGoal
  | UnifyKrates : UnifyG Krate → WhereClauseGoal
  | WellFormed : WellFormed → WhereClauseGoal
  | TyLocalTo : LocalTo Ty → WhereClauseGoal
  | NotImplemented : NotG TraitRef → WhereClauseGoal
  | NotNormalize : NotG NormalizeG → WhereClauseGoal
  | NotUnifyTys : NotG (UnifyG Ty) → WhereClauseGoal
deriving DecidableEq, Repr

/-- `Environment { universe, clauses }`.  Shared by reference in the
source (`Arc`); embedded by value.  The `universe` field is named
`univ` here because `universe` is a Lean keyword. -/
structure Environment where
  univ : Nat
  clauses : List WhereClause
deriving DecidableEq, Repr

/-- `Environment::new()`. -/
def Environment.new : Environment :=
  { univ := UniverseIndex.root, clauses := [] }

/-- `Environment::add_clauses`. -/
def Environment.add_clauses (env : Environment) (cs : List WhereClause) : Environment :=
  { env with clauses := env.clauses ++ cs }

/-- `Environment::new_universe`: bump the universe counter. -/
def Environment.new_universe (env : Environment) : Environment :=
  { env with univ := env.univ + 1 }

/-- `InEnvironment<G> = (environment, G)`. -/
structure InEnvironment (G : Type) where
  environment : Environment
  goal : G
deriving DecidableEq, Repr

/-- `Constraint::LifetimeEq`. -/
inductive Constraint where
  | LifetimeEq : Lifetime → Lifetime → Constraint
deriving DecidableEq, Repr

/-- `Query<T>`: a canonicalized value paired with the flat binder list
annotated by universe indices. -/
structure Query (T : Type) where
  value : T
  binders : List (ParameterKind Nat Nat Nat)
deriving DecidableEq, Repr

/-- `Binders<T> { binders, value }`: `value` is closed under
`binders.len()` parameters referenced by de Bruijn index. -/
structure Binders (T : Type) where
  binders : List ParameterKindU
  value : T
deriving DecidableEq, Repr

/-- `Binders::len`. -/
def Binders.len {T : Type} (b : Binders T) : Nat := b.binders.length

/-- `TraitDatumBound { trait_ref, where_clauses }`. -/
structure TraitDatumBound where
  trait_ref : TraitRef
  where_clauses : List WhereClause
deriving DecidableEq, Repr

/-- `TraitDatum { krate_id, binders }`. -/
structure TraitDatum where
  krate_id : Nat
  binders : Binders TraitDatumBound
deriving DecidableEq, Repr

/-- `AssociatedTyDatum { trait_id, name, parameter_kinds, where_clauses }`. -/
structure AssociatedTyDatum where
  trait_id : Nat
  name : Nat
  parameter_kinds : List (ParameterKind Nat Nat Nat)
  where_clauses : List WhereClause
deriving DecidableEq, Repr

/-- The slice of `Program` consumed by environment elaboration:
`trait_data` and `associated_ty_data`.  The source stores `HashMap`s;
embedded as association lists keyed by `ItemId` (`HashMap` indexing
that panics on a missing key is modelled as a `none` result at the
operation using it). -/
structure Program where
  trait_data : List (Nat × TraitDatum)
  associated_ty_data : List (Nat × AssociatedTyDatum)
deriving DecidableEq, Repr


/-! ## Fold machinery: shifting and substitution

Modelled from the spec (§4.1): the source file `fold.rs` is not among
the provided sources.  `Shifter(k)` increments every free index by `k`;
`Substituter(values)` replaces `Var(0)..Var(N-1)` with the given values
after shifting each value by the number of binders crossed; a free index
past the substitution is lowered by `N`.  Free and bound occurrences are
separated by the count of binders crossed, per sort. -/

/-- Modelled from the spec: `Shifter(k)` on a `Lifetime`. -/
def shiftLifetime (k : Nat) (binders : Nat) : Lifetime → Lifetime
  | .Var d => if binders ≤ d then .Var (d + k) else .Var d
  | .ForAll u => .ForAll u

/-- Modelled from the spec: `Shifter(k)` on a `Krate`. -/
def shiftKrate (k : Nat) (binders : Nat) : Krate → Krate
  | .Var d => if binders ≤ d then .Var (d + k) else .Var d
  | .Id i => .Id i

mutual
/-- Modelled from the spec: `Shifter(k)` on `Ty` under `binders` crossed
binders — every free index (`≥ binders`) is incremented by `k`. -/
def shiftTy (k : Nat) (binders : Nat) : Ty → Ty
  | .Var d => if binders ≤ d then .Var (d + k) else .Var d
  | .Apply n ps => .Apply n (shiftParams k binders ps)
  | .Projection i ps => .Projection i (shiftParams k binders ps)
  | .ForAll n t => .ForAll n (shiftTy k (binders + n) t)

/-- Modelled from the spec: `Shifter(k)` on a parameter list. -/
def shiftParams (k : Nat) (binders : Nat) : List Parameter → List Parameter
  | [] => []
  | p :: ps => shiftParam k binders p :: shiftParams k binders ps

/-- Modelled from the spec: `Shifter(k)` on a `Parameter`. -/
def shiftParam (k : Nat) (binders : Nat) : Parameter → Parameter
  | .Ty t => .Ty (shiftTy k binders t)
  | .Lifetime l => .Lifetime (shiftLifetime k binders l)
  | .Krate c => .Krate (shiftKrate k binders c)
end



/-- Modelled from the spec: `Substituter(values)` on a `Lifetime`. -/
def substLifetime (values : List Parameter) (binders : Nat) : Lifetime → Lifetime
  | .Var d =>
      if binders ≤ d then
        match values[d - binders]? with
        | some (.Lifetime l) => shiftLifetime binders 0 l
        | some _ => .Var d
        | none => .Var (d - values.length)
      else .Var d
  | .ForAll u => .ForAll u

/-- Modelled from the spec: `Substituter(values)` on a `Krate`. -/
def substKrate (values : List Parameter) (binders : Nat) : Krate → Krate
  | .Var d =>
      if binders ≤ d then
        match values[d - binders]? with
        | some (.Krate c) => c
        | some _ => .Var d
        | none => .Var (d - values.length)
      else .Var d
  | .Id i => .Id i

mutual
/-- Modelled from the spec: the `Substituter(values)` fold on `Ty`.
A free `Var(d)` with `d - binders < values.len()` is replaced by the
corresponding value shifted by `binders`; a free index past the vector
is lowered by `values.len()`; a type variable aligned with a value of a
different sort is a lowering-time kind error (the source panics) and is
left untouched here. -/
def substTy (values : List Parameter) (binders : Nat) : Ty → Ty
  | .Var d =>
      if binders ≤ d then
        match values[d - binders]? with
        | some (.Ty t) => shiftTy binders 0 t
        | some _ => .Var d
        | none => .Var (d - values.length)
      else .Var d
  | .Apply n ps => .Apply n (substParams values binders ps)
  | .Projection i ps => .Projection i (substParams values binders ps)
  | .ForAll n t => .ForAll n (substTy values (binders + n) t)

/-- Modelled from the spec: `Substituter(values)` on a parameter list. -/
def substParams (values : List Parameter) (binders : Nat) : List Parameter → List Parameter
  | [] => []
  | p :: ps => substParam values binders p :: substParams values binders ps

/-- Modelled from the spec: `Substituter(values)` on a `Parameter`. -/
def substParam (values : List Parameter) (binders : Nat) : Parameter → Parameter
  | .Ty t => .Ty (substTy values binders t)
  | .Lifetime l => .Lifetime (substLifetime values binders l)
  | .Krate c => .Krate (substKrate values binders c)
end



/-- `QuantifiedTy::subst`: substitute the quantified type's binders
en bloc (`Subst::apply` composed per §4.1; the fold itself is modelled
from the spec). -/
def QuantifiedTy.subst (q : QuantifiedTy) (parameters : List Parameter) : Ty :=
  substTy parameters 0 q.ty

/-- `Subst::apply` on a `TraitRef` (fold modelled from the spec). -/
def substTraitRef (values : List Parameter) (tr : TraitRef) : TraitRef :=
  { tr with parameters := substParams values 0 tr.parameters }

/-- `Subst::apply` on a `ProjectionTy` (fold modelled from the spec). -/
def substProjection (values : List Parameter) (p : ProjectionTy) : ProjectionTy :=
  { p with parameters := substParams values 0 p.parameters }

/-- `Subst::apply` on a `WhereClause` (fold modelled from the spec). -/
def substWhereClause (values : List Parameter) : WhereClause → WhereClause
  | .Implemented tr => .Implemented (substTraitRef values tr)
  | .Normalize n =>
      .Normalize { projection := substProjection values n.projection,
                   ty := substTy values 0 n.ty }

/-! ## Inference table

Modelled from the spec (§4.2): the table internals live in
`src/solve/infer/mod.rs` and `var.rs`, which are not among the provided
sources.  Three independent union-find tables — types, lifetimes,
crates — each key carrying an `InferenceValue`.  `unify_var_var` merges
equivalence classes, two unbound keys combining to the minimum of the
two universes; `unify_var_value` asserts a value on a root; the lookup
operations do not mutate.  Snapshots bracket groups of mutations and
restore the table state exactly on rollback. -/

/-- `InferenceValue` — `Unbound(universe)` or `Bound(term)`. -/
inductive InferenceValue (α : Type) where
  | Unbound : Nat → InferenceValue α
  | Bound : α → InferenceValue α
deriving DecidableEq, Repr

/-- Modelled from the spec: how two inference values combine when their
keys are unified (ena's `UnifyValue::unify_values`): two unbound keys
take the minimum universe, a bound value wins over an unbound key, and
two bound values are a low-level union-find inconsistency. -/
def InferenceValue.combine {α : Type} :
    InferenceValue α → InferenceValue α →
    Except (InferenceValue α × InferenceValue α) (InferenceValue α)
  | .Unbound u1, .Unbound u2 => .ok (.Unbound (min u1 u2))
  | .Unbound _, .Bound t => .ok (.Bound t)
  | .Bound t, .Unbound _ => .ok (.Bound t)
  | .Bound t1, .Bound t2 => .error (.Bound t1, .Bound t2)

/-- Modelled from the spec: one union-find table over one sort of
inference variable.  Variables are their depths (`from_depth`/`to_ty`
are identities here).  `parent` maps every created variable directly to
its representative (kept canonical by `unify_var_var`); `values` holds
the `InferenceValue` of each class at its representative's index. -/
structure UnifTable (α : Type) where
  parent : List Nat
  values : List (InferenceValue α)
deriving DecidableEq, Repr

/-- Modelled from the spec: the empty table. -/
def UnifTable.empty {α : Type} : UnifTable α := { parent := [], values := [] }

/-- Modelled from the spec: `find(v)` — the root representative of `v`
(a variable never created is its own root). -/
def UnifTable.find {α : Type} (t : UnifTable α) (v : Nat) : Nat :=
  t.parent.getD v v

/-- Modelled from the spec: the value stored for the class whose
representative is `r`.  A class never created reads as unbound in the
root universe. -/
def UnifTable.root_value {α : Type} (t : UnifTable α) (r : Nat) : InferenceValue α :=
  t.values.getD r (.Unbound UniverseIndex.root)

/-- Modelled from the spec: `probe_value(v)` — the value of `v`'s class,
without mutating. -/
def UnifTable.probe_value {α : Type} (t : UnifTable α) (v : Nat) : InferenceValue α :=
  t.root_value (t.find v)

/-- Modelled from the spec: whether two variables are in one class. -/
def UnifTable.unioned {α : Type} (t : UnifTable α) (a b : Nat) : Bool :=
  t.find a == t.find b

/-- Modelled from the spec: `new_variable(universe)` — create the next
variable, unbound in the given universe; returns its index. -/
def UnifTable.new_variable {α : Type} (t : UnifTable α) (u : Nat) :
    Nat × UnifTable α :=
  (t.parent.length,
   { parent := t.parent ++ [t.parent.length], values := t.values ++ [.Unbound u] })

/-- Modelled from the spec: `unify_var_var(a, b)` — merge the two
classes; the combined value is `InferenceValue.combine` of the two root
values, the surviving representative the smaller root index. -/
def UnifTable.unify_var_var {α : Type} (t : UnifTable α) (a b : Nat) :
    Except (InferenceValue α × InferenceValue α) (UnifTable α) :=
  let ra := t.find a
  let rb := t.find b
  if ra = rb then .ok t
  else
    match (t.root_value ra).combine (t.root_value rb) with
    | .error e => .error e
    | .ok v =>
        let r := min ra rb
        .ok { parent := t.parent.map (fun p => if p = ra ∨ p = rb then r else p),
              values := t.values.set r v }

/-- Modelled from the spec: `unify_var_value(v, value)` — combine the
given value onto `v`'s class. -/
def UnifTable.unify_var_value {α : Type} (t : UnifTable α) (v : Nat)
    (value : InferenceValue α) :
    Except (InferenceValue α × InferenceValue α) (UnifTable α) :=
  match (t.root_value (t.find v)).combine value with
  | .error e => .error e
  | .ok v' => .ok { t with values := t.values.set (t.find v) v' }

/-- The inference table: three independent union-find tables, one per
sort (modelled from the spec, §4.2 and the design note in §9). -/
structure InferenceTable where
  ty_unify : UnifTable Ty
  lifetime_unify : UnifTable Lifetime
  krate_unify : UnifTable Krate
deriving DecidableEq, Repr

/-- `InferenceTable::new()` (modelled from the spec). -/
def InferenceTable.new : InferenceTable :=
  { ty_unify := .empty, lifetime_unify := .empty, krate_unify := .empty }

/-- `new_variable(universe)` for the type sort (modelled from the
spec); returns the new variable's depth. -/
def InferenceTable.new_variable (t : InferenceTable) (u : Nat) :
    Nat × InferenceTable :=
  let (v, tu) := t.ty_unify.new_variable u
  (v, { t with ty_unify := tu })

/-- `new_lifetime_variable(universe)` (modelled from the spec). -/
def InferenceTable.new_lifetime_variable (t : InferenceTable) (u : Nat) :
    Nat × InferenceTable :=
  let (v, tu) := t.lifetime_unify.new_variable u
  (v, { t with lifetime_unify := tu })

/-- `new_krate_variable(universe)` (modelled from the spec). -/
def InferenceTable.new_krate_variable (t : InferenceTable) (u : Nat) :
    Nat × InferenceTable :=
  let (v, tu) := t.krate_unify.new_variable u
  (v, { t with krate_unify := tu })

/-- `probe_var(v)`: the bound value of a type variable, if any
(modelled from the spec). -/
def InferenceTable.probe_var (t : InferenceTable) (v : Nat) : Option Ty :=
  match t.ty_unify.probe_value v with
  | .Bound ty => some ty
  | .Unbound _ => none

/-- `probe_lifetime_var(v)` (modelled from the spec). -/
def InferenceTable.probe_lifetime_var (t : InferenceTable) (v : Nat) : Option Lifetime :=
  match t.lifetime_unify.probe_value v with
  | .Bound l => some l
  | .Unbound _ => none

/-- `probe_krate_var(v)` (modelled from the spec). -/
def InferenceTable.probe_krate_var (t : InferenceTable) (v : Nat) : Option Krate :=
  match t.krate_unify.probe_value v with
  | .Bound k => some k
  | .Unbound _ => none

/-- `normalize_shallow(ty)`: one-step resolution of a top-level type
variable to its bound term, if any (modelled from the spec). -/
def InferenceTable.normalize_shallow (t : InferenceTable) : Ty → Option Ty
  | .Var d => t.probe_var d
  | _ => none

/-- `normalize_lifetime` (modelled from the spec). -/
def InferenceTable.normalize_lifetime (t : InferenceTable) : Lifetime → Option Lifetime
  | .Var d => t.probe_lifetime_var d
  | .ForAll _ => none

/-- `normalize_krate` (modelled from the spec). -/
def InferenceTable.normalize_krate (t : InferenceTable) : Krate → Option Krate
  | .Var d => t.probe_krate_var d
  | .Id _ => none

/-- `InferenceSnapshot` (modelled from the spec): rollback restores
byte-equal table state, so a snapshot is the entire table state. -/
abbrev InferenceSnapshot := InferenceTable

/-- `snapshot()` (modelled from the spec). -/
def InferenceTable.snapshot (t : InferenceTable) : InferenceSnapshot := t

/-- `commit(s)` (modelled from the spec): keep the mutations made since
the snapshot; the current state survives. -/
def InferenceTable.commit (_s : InferenceSnapshot) (cur : InferenceTable) :
    InferenceTable := cur

/-- `rollback_to(s)` (modelled from the spec): restore the table state
recorded by the snapshot exactly, discarding the current state. -/
def InferenceTable.rollback_to (s : InferenceSnapshot) (_cur : InferenceTable) :
    InferenceTable := s


/-! ## The unifier (`src/solve/infer/unify.rs`)

Functions below are translated from the source.  Rust `Result` errors
(`bail!`) and panics (`panic!`, `unreachable!`, `.expect`, `.unwrap`)
are distinguished by the two constructors of `RustErr`.  Recursion
through shallow normalization is not structural, so every function
consumes one unit of fuel per call; `none` means the fuel ran out. -/

/-- A Rust-level failure: an `Err` result or a panic. -/
inductive RustErr where
  | err : String → RustErr
  | rpanic : String → RustErr
deriving DecidableEq, Repr

/-- `UnificationResult { goals, constraints }`. -/
structure UnificationResult where
  goals : List (InEnvironment WhereClauseGoal)
  constraints : List (InEnvironment Constraint)
deriving DecidableEq, Repr

/-- The mutable state of a `Unifier`: the borrowed inference table and
the accumulated sub-goals and region constraints.  (The snapshot field
is taken at `InferenceTable::unify`; the environment is passed as an
argument.) -/
structure UnifierS where
  table : InferenceTable
  goals : List (InEnvironment WhereClauseGoal)
  constraints : List (InEnvironment Constraint)
deriving DecidableEq, Repr

/-- `TypeName::universe_index`: nominal and associated types live in the
root universe; a skolemized name carries its own universe.  (The
source's `assert!(universe.counter > 0)` is elided.) -/
def TypeName.universe_index : TypeName → Nat
  | .ItemId _ => UniverseIndex.root
  | .AssociatedType _ => UniverseIndex.root
  | .ForAll u => u

/-- `OccursCheck::universe_check`: fail iff the variable's universe is
smaller than the application's universe. -/
def OccursCheck.universe_check (ui app_ui : Nat) : Except RustErr Unit :=
  if ui < app_ui then .error (.err "incompatible universes") else .ok ()

mutual
/-- `OccursCheck::check_ty` — `var` is the variable being bound, `ui`
its universe, `binders` the crossed-binder count. -/
def OccursCheck.check_ty (fuel : Nat) (var : Nat) (ui : Nat)
    (binders : Nat) (s : UnifierS) (t : Ty) :
    Option (Except RustErr Unit × UnifierS) :=
  match fuel with
  | 0 => none
  | fuel + 1 =>
    match s.table.normalize_shallow t with
    | some n_t => OccursCheck.check_ty fuel var ui binders s n_t
    | none =>
      match t with
      | .Apply name ps => OccursCheck.check_apply fuel var ui binders s name ps
      | .ForAll n t' => OccursCheck.check_ty fuel var ui (binders + n) s t'
      | .Var depth =>
          let v := depth - binders
          match s.table.ty_unify.probe_value v with
          | .Bound _ => some (.error (.rpanic "expected `parameter` to be normalized"), s)
          | .Unbound uj =>
              if s.table.ty_unify.unioned v var then
                some (.error (.err "cycle during unification"), s)
              else if ui < uj then
                match s.table.ty_unify.unify_var_value v (.Unbound ui) with
                | .ok tu =>
                    some (.ok (), { s with table := { s.table with ty_unify := tu } })
                | .error _ =>
                    some (.error (.rpanic "called `Result::unwrap()` on an `Err` value"), s)
              else some (.ok (), s)
      | .Projection _ ps => OccursCheck.check_params fuel var ui binders s ps
termination_by structural fuel

/-- `OccursCheck::check_apply`: universe-check the application's name,
then check its parameters. -/
def OccursCheck.check_apply (fuel : Nat) (var : Nat) (ui : Nat)
    (binders : Nat) (s : UnifierS) (name : TypeName) (ps : List Parameter) :
    Option (Except RustErr Unit × UnifierS) :=
  match fuel with
  | 0 => none
  | fuel + 1 =>
    match OccursCheck.universe_check ui name.universe_index with
    | .error e => some (.error e, s)
    | .ok () => OccursCheck.check_params fuel var ui binders s ps
termination_by structural fuel

/-- The parameter loop of `check_apply` / the `Ty::Projection` arm. -/
def OccursCheck.check_params (fuel : Nat) (var : Nat) (ui : Nat)
    (binders : Nat) (s : UnifierS) (ps : List Parameter) :
    Option (Except RustErr Unit × UnifierS) :=
  match fuel with
  | 0 => none
  | fuel + 1 =>
    match ps with
    | [] => some (.ok (), s)
    | p :: ps' =>
      match OccursCheck.check_parameter fuel var ui binders s p with
      | none => none
      | some (.error e, s') => some (.error e, s')
      | some (.ok (), s') => OccursCheck.check_params fuel var ui binders s' ps'
termination_by structural fuel

/-- `OccursCheck::check_parameter`: types recurse, lifetimes pass, a
crate parameter to a type is a panic. -/
def OccursCheck.check_parameter (fuel : Nat) (var : Nat) (ui : Nat)
    (binders : Nat) (s : UnifierS) (p : Parameter) :
    Option (Except RustErr Unit × UnifierS) :=
  match fuel with
  | 0 => none
  | fuel + 1 =>
    match p with
    | .Ty t => OccursCheck.check_ty fuel var ui binders s t
    | .Lifetime _ => some (.ok (), s)
    | .Krate _ => some (.error (.rpanic "krate used as parameter to a type"), s)
termination_by structural fuel
end

/-- `Unifier::unify_var_ty`: read the unbound variable's universe, run
the occurs/universe check, then bind `var := ty`. -/
def Unifier.unify_var_ty (fuel : Nat) (s : UnifierS) (var : Nat) (ty : Ty) :
    Option (Except RustErr Unit × UnifierS) :=
  match s.table.ty_unify.probe_value var with
  | .Bound _ => some (.error (.rpanic "`unify_var_apply` invoked on bound var"), s)
  | .Unbound ui =>
    match OccursCheck.check_ty fuel var ui 0 s ty with
    | none => none
    | some (.error e, s') => some (.error e, s')
    | some (.ok (), s') =>
      match s'.table.ty_unify.unify_var_value var (.Bound ty) with
      | .ok tu => some (.ok (), { s' with table := { s'.table with ty_unify := tu } })
      | .error _ =>
          some (.error (.rpanic "called `Result::unwrap()` on an `Err` value"), s')

/-- The per-binder loop of `unify_forall_tys` / `unify_forall_apply`:
advance the environment into a new universe for each binder on the
left, producing the skolem lifetime of each new universe. -/
def advanceUniverses (env : Environment) : Nat → Environment × List Parameter
  | 0 => (env, [])
  | n + 1 =>
      let env1 := env.new_universe
      let (env', rest) := advanceUniverses env1 n
      (env', .Lifetime (.ForAll env1.univ) :: rest)

/-- The right-binder loop of `unify_forall_tys`: create `n` fresh
lifetime inference variables in universe `u`, in creation order. -/
def newLifetimeVars (t : InferenceTable) (u : Nat) :
    Nat → List Nat × InferenceTable
  | 0 => ([], t)
  | n + 1 =>
      let (v, t1) := t.new_lifetime_variable u
      let (vs, t2) := newLifetimeVars t1 u n
      (v :: vs, t2)

/-- `Unifier::unify_forall_tys`: open both quantifiers — fresh skolem
lifetimes from new universes for the left binders, fresh lifetime
inference variables in the resulting universe for the right binders —
substitute, and enqueue `Unify { a, b }` in the enriched environment. -/
def Unifier.unify_forall_tys (env : Environment) (s : UnifierS)
    (ty1 ty2 : QuantifiedTy) : Except RustErr Unit × UnifierS :=
  let (env', lifetimes1) := advanceUniverses env ty1.num_binders
  let (vs, table') := newLifetimeVars s.table env'.univ ty2.num_binders
  let lifetimes2 : List Parameter := vs.map (fun v => .Lifetime (.Var v))
  let a := ty1.subst lifetimes1
  let b := ty2.subst lifetimes2
  let goal : InEnvironment WhereClauseGoal := ⟨env', .UnifyTys ⟨a, b⟩⟩
  (.ok (), { table := table', goals := s.goals ++ [goal], constraints := s.constraints })

/-- `Unifier::unify_forall_apply`: open the quantifier into fresh
skolem universes and enqueue the inner equality. -/
def Unifier.unify_forall_apply (env : Environment) (s : UnifierS)
    (ty1 : QuantifiedTy) (ty2 : Ty) : Except RustErr Unit × UnifierS :=
  let (env', lifetimes1) := advanceUniverses env ty1.num_binders
  let a := ty1.subst lifetimes1
  let goal : InEnvironment WhereClauseGoal := ⟨env', .UnifyTys ⟨a, ty2⟩⟩
  (.ok (), { s with goals := s.goals ++ [goal] })

/-- `Unifier::unify_projection_ty`: defer as a `Normalize` sub-goal. -/
def Unifier.unify_projection_ty (env : Environment) (s : UnifierS)
    (proj : ProjectionTy) (ty : Ty) : Except RustErr Unit × UnifierS :=
  (.ok (), { s with goals := s.goals ++ [⟨env, .Normalize ⟨proj, ty⟩⟩] })

/-- `Unifier::unify_projection_tys`: invent a fresh type variable in
the current universe and normalize both projections to it. -/
def Unifier.unify_projection_tys (env : Environment) (s : UnifierS)
    (proj1 proj2 : ProjectionTy) : Except RustErr Unit × UnifierS :=
  let (v, table') := s.table.new_variable env.univ
  let var := Ty.Var v
  let s1 := { s with table := table' }
  let (_, s2) := Unifier.unify_projection_ty env s1 proj1 var
  Unifier.unify_projection_ty env s2 proj2 var

/-- `Unifier::unify_krate_krate`. -/
def Unifier.unify_krate_krate (fuel : Nat) (env : Environment) (s : UnifierS)
    (a b : Krate) : Option (Except RustErr Unit × UnifierS) :=
  match fuel with
  | 0 => none
  | fuel + 1 =>
    match s.table.normalize_krate a with
    | some n_a => Unifier.unify_krate_krate fuel env s n_a b
    | none =>
    match s.table.normalize_krate b with
    | some n_b => Unifier.unify_krate_krate fuel env s a n_b
    | none =>
      match a, b with
      | .Var depth_a, .Var depth_b =>
          match s.table.krate_unify.unify_var_var depth_a depth_b with
          | .ok tu => some (.ok (), { s with table := { s.table with krate_unify := tu } })
          | .error _ => some (.error (.err "cannot unify krates"), s)
      | .Var depth, .Id i | .Id i, .Var depth =>
          match s.table.krate_unify.unify_var_value depth (.Bound (.Id i)) with
          | .ok tu => some (.ok (), { s with table := { s.table with krate_unify := tu } })
          | .error _ => some (.error (.err "cannot unify krates"), s)
      | .Id a_id, .Id b_id =>
          if a_id = b_id then some (.ok (), s)
          else some (.error (.err "krate not equal"), s)

/-- `Unifier::unify_lifetime_lifetime`. -/
def Unifier.unify_lifetime_lifetime (fuel : Nat) (env : Environment) (s : UnifierS)
    (a b : Lifetime) : Option (Except RustErr Unit × UnifierS) :=
  match fuel with
  | 0 => none
  | fuel + 1 =>
    match s.table.normalize_lifetime a with
    | some n_a => Unifier.unify_lifetime_lifetime fuel env s n_a b
    | none =>
    match s.table.normalize_lifetime b with
    | some n_b => Unifier.unify_lifetime_lifetime fuel env s a n_b
    | none =>
      match a, b with
      | .Var depth_a, .Var depth_b =>
          match s.table.lifetime_unify.unify_var_var depth_a depth_b with
          | .ok tu => some (.ok (), { s with table := { s.table with lifetime_unify := tu } })
          | .error _ =>
              some (.error (.rpanic "called `Result::unwrap()` on an `Err` value"), s)
      | .Var depth, .ForAll ui | .ForAll ui, .Var depth =>
          match s.table.lifetime_unify.probe_value depth with
          | .Bound _ => some (.error (.rpanic "bound var survived normalization"), s)
          | .Unbound var_ui =>
              if UniverseIndex.can_see var_ui ui then
                match s.table.lifetime_unify.unify_var_value depth (.Bound (.ForAll ui)) with
                | .ok tu =>
                    some (.ok (), { s with table := { s.table with lifetime_unify := tu } })
                | .error _ =>
                    some (.error (.rpanic "called `Result::unwrap()` on an `Err` value"), s)
              else
                some (.ok (), { s with constraints :=
                  s.constraints ++ [⟨env, .LifetimeEq a b⟩] })
      | .ForAll _, .ForAll _ =>
          if a ≠ b then
            some (.ok (), { s with constraints := s.constraints ++ [⟨env, .LifetimeEq a b⟩] })
          else some (.ok (), s)

mutual
/-- `Unifier::unify_ty_ty`: shallow-normalize both sides, then dispatch
on the variant pair exactly as the source `match`. -/
def Unifier.unify_ty_ty (fuel : Nat) (env : Environment) (s : UnifierS) (a b : Ty) :
    Option (Except RustErr Unit × UnifierS) :=
  match fuel with
  | 0 => none
  | fuel + 1 =>
    match s.table.normalize_shallow a with
    | some n_a => Unifier.unify_ty_ty fuel env s n_a b
    | none =>
    match s.table.normalize_shallow b with
    | some n_b => Unifier.unify_ty_ty fuel env s a n_b
    | none =>
      match a, b with
      | .Var depth1, .Var depth2 =>
          match s.table.ty_unify.unify_var_var depth1 depth2 with
          | .ok tu => some (.ok (), { s with table := { s.table with ty_unify := tu } })
          | .error _ =>
              some (.error (.rpanic "unification of two unbound variables cannot fail"), s)
      | .Var depth, .Apply name ps | .Apply name ps, .Var depth =>
          Unifier.unify_var_ty fuel s depth (.Apply name ps)
      | .Var depth, .ForAll n t | .ForAll n t, .Var depth =>
          Unifier.unify_var_ty fuel s depth (.ForAll n t)
      | .ForAll n1 t1, .ForAll n2 t2 =>
          some (Unifier.unify_forall_tys env s ⟨n1, t1⟩ ⟨n2, t2⟩)
      | .ForAll n1 t1, .Apply name ps | .Apply name ps, .ForAll n1 t1 =>
          some (Unifier.unify_forall_apply env s ⟨n1, t1⟩ (.Apply name ps))
      | .Apply name1 ps1, .Apply name2 ps2 =>
          Unifier.zip_application_tys fuel env s name1 ps1 name2 ps2
      | .Projection i1 ps1, .Projection i2 ps2 =>
          some (Unifier.unify_projection_tys env s ⟨i1, ps1⟩ ⟨i2, ps2⟩)
      | .Projection i ps, x | x, .Projection i ps =>
          some (Unifier.unify_projection_ty env s ⟨i, ps⟩ x)

/-- The zipper on `ApplicationTy` (zip modelled from the spec, §4.1:
structural mismatch fails immediately with `NoMatch`): equal names,
then the parameters in lockstep. -/
def Unifier.zip_application_tys (fuel : Nat) (env : Environment) (s : UnifierS)
    (name1 : TypeName) (ps1 : List Parameter) (name2 : TypeName)
    (ps2 : List Parameter) : Option (Except RustErr Unit × UnifierS) :=
  match fuel with
  | 0 => none
  | fuel + 1 =>
    if name1 = name2 then Unifier.zip_params fuel env s ps1 ps2
    else some (.error (.err "cannot zip: application names differ"), s)

/-- The zipper on parameter lists (modelled from the spec, §4.1):
lockstep descent, delegating per-sort comparisons to the unifier. -/
def Unifier.zip_params (fuel : Nat) (env : Environment) (s : UnifierS)
    (psa psb : List Parameter) : Option (Except RustErr Unit × UnifierS) :=
  match fuel with
  | 0 => none
  | fuel + 1 =>
    match psa, psb with
    | [], [] => some (.ok (), s)
    | p :: ps, q :: qs =>
      (match p, q with
       | .Ty t1, .Ty t2 =>
           match Unifier.unify_ty_ty fuel env s t1 t2 with
           | none => none
           | some (.error e, s') => some (.error e, s')
           | some (.ok (), s') => Unifier.zip_params fuel env s' ps qs
       | .Lifetime l1, .Lifetime l2 =>
           match Unifier.unify_lifetime_lifetime fuel env s l1 l2 with
           | none => none
           | some (.error e, s') => some (.error e, s')
           | some (.ok (), s') => Unifier.zip_params fuel env s' ps qs
       | .Krate k1, .Krate k2 =>
           match Unifier.unify_krate_krate fuel env s k1 k2 with
           | none => none
           | some (.error e, s') => some (.error e, s')
           | some (.ok (), s') => Unifier.zip_params fuel env s' ps qs
       | _, _ => some (.error (.err "cannot zip: parameter kinds differ"), s))
    | _, _ => some (.error (.err "cannot zip: parameter lists differ in length"), s)
end

/-- `InferenceTable::unify`: record a snapshot, walk both terms, and
either commit (returning the accumulated sub-goals and region
constraints) or roll back to the snapshot. -/
def InferenceTable.unify (fuel : Nat) (env : Environment) (tbl : InferenceTable)
    (a b : Ty) : Option (Except RustErr UnificationResult × InferenceTable) :=
  let snap := tbl.snapshot
  match Unifier.unify_ty_ty fuel env { table := tbl, goals := [], constraints := [] } a b with
  | none => none
  | some (.ok (), s) =>
      some (.ok { goals := s.goals, constraints := s.constraints },
            InferenceTable.commit snap s.table)
  | some (.error e, s) =>
      some (.error e, InferenceTable.rollback_to snap s.table)


/-! ## Query canonicalization (`src/solve/infer/query.rs`)

The `Querifier` folder: bound variables are replaced by the (recursively
canonicalized, binder-shifted) bound value; unbound variables are
replaced by a canonical variable of the same sort whose de Bruijn depth
is the position of the variable's union-find root in the per-sort
first-appearance list, plus the crossed-binder count.  The generic
`fold_with` plumbing (free/bound dispatch by crossed-binder count) is
modelled from the spec, §4.1; the hooks are translated from the
source. -/

/-- `QueryBinders<T, L, C>`: one list per sort (the struct itself is
declared outside the provided sources; its shape — the three per-sort
lists in the fixed order tys, lifetimes, krates — is modelled from the
spec, §4.4, and from its use in `query.rs`). -/
structure QueryBinders (T L C : Type) where
  tys : List T
  lifetimes : List L
  krates : List C
deriving DecidableEq, Repr

/-- The `Querifier`'s free-variable state: per sort, the union-find
roots already seen, in order of first appearance. -/
abbrev QState := QueryBinders Nat Nat Nat

/-- The empty `Querifier` state (`QueryBinders::default()`). -/
def QState.empty : QState := ⟨[], [], []⟩

/-- `find_idx` inside `Querifier::add`: the position of `v` in the
list, appending it if absent. -/
def findIdx : List Nat → Nat → Nat × List Nat
  | [], v => (0, [v])
  | x :: xs, v =>
    if x = v then (0, x :: xs)
    else
      let r := findIdx xs v
      (r.1 + 1, x :: r.2)

mutual
/-- `Querifier::fold_free_var` together with the defaulted traversal of
`fold_with`: `Var(d)` under fewer than `d` crossed binders is free; a
bound free variable folds to its value shifted back under the crossed
binders; an unbound one to the canonical index of its root. -/
def canon_ty (fuel : Nat) (tbl : InferenceTable) (st : QState) (binders : Nat) :
    Ty → Option (QState × Ty)
  | .Var depth =>
    (match fuel with
     | 0 => none
     | fuel + 1 =>
       if depth < binders then some (st, .Var depth)
       else
         let var := depth - binders
         match tbl.probe_var var with
         | some ty =>
             match canon_ty fuel tbl st 0 ty with
             | none => none
             | some (st', t') => some (st', shiftTy binders 0 t')
         | none =>
             let r := findIdx st.tys (tbl.ty_unify.find var)
             some ({ st with tys := r.2 }, .Var (r.1 + binders)))
  | .Apply name ps =>
    (match fuel with
     | 0 => none
     | fuel + 1 =>
       match canon_params fuel tbl st binders ps with
       | none => none
       | some (st', ps') => some (st', .Apply name ps'))
  | .Projection i ps =>
    (match fuel with
     | 0 => none
     | fuel + 1 =>
       match canon_params fuel tbl st binders ps with
       | none => none
       | some (st', ps') => some (st', .Projection i ps'))
  | .ForAll n t =>
    (match fuel with
     | 0 => none
     | fuel + 1 =>
       match canon_ty fuel tbl st (binders + n) t with
       | none => none
       | some (st', t') => some (st', .ForAll n t'))
termination_by structural fuel

/-- The parameter-list traversal of the `Querifier` fold. -/
def canon_params (fuel : Nat) (tbl : InferenceTable) (st : QState) (binders : Nat) :
    List Parameter → Option (QState × List Parameter)
  | [] =>
    (match fuel with
     | 0 => none
     | _ + 1 => some (st, []))
  | p :: ps =>
    (match fuel with
     | 0 => none
     | fuel + 1 =>
       match canon_param fuel tbl st binders p with
       | none => none
       | some (st', p') =>
         match canon_params fuel tbl st' binders ps with
         | none => none
         | some (st'', ps') => some (st'', p' :: ps'))
termination_by structural fuel

/-- The per-parameter dispatch of the `Querifier` fold. -/
def canon_param (fuel : Nat) (tbl : InferenceTable) (st : QState) (binders : Nat) :
    Parameter → Option (QState × Parameter)
  | .Ty t =>
    (match fuel with
     | 0 => none
     | fuel + 1 =>
       match canon_ty fuel tbl st binders t with
       | none => none
       | some (st', t') => some (st', .Ty t'))
  | .Lifetime l =>
    (match fuel with
     | 0 => none
     | fuel + 1 =>
       match canon_lifetime fuel tbl st binders l with
       | none => none
       | some (st', l') => some (st', .Lifetime l'))
  | .Krate c =>
    (match fuel with
     | 0 => none
     | fuel + 1 =>
       match canon_krate fuel tbl st binders c with
       | none => none
       | some (st', c') => some (st', .Krate c'))
termination_by structural fuel

/-- `Querifier::fold_free_lifetime_var` with the `fold_with` plumbing. -/
def canon_lifetime (fuel : Nat) (tbl : InferenceTable) (st : QState) (binders : Nat) :
    Lifetime → Option (QState × Lifetime)
  | .Var depth =>
    (match fuel with
     | 0 => none
     | fuel + 1 =>
       if depth < binders then some (st, .Var depth)
       else
         let var := depth - binders
         match tbl.probe_lifetime_var var with
         | some l =>
             match canon_lifetime fuel tbl st 0 l with
             | none => none
             | some (st', l') => some (st', shiftLifetime binders 0 l')
         | none =>
             let r := findIdx st.lifetimes (tbl.lifetime_unify.find var)
             some ({ st with lifetimes := r.2 }, .Var (r.1 + binders)))
  | .ForAll u =>
    (match fuel with
     | 0 => none
     | _ + 1 => some (st, .ForAll u))
termination_by structural fuel

/-- `Querifier::fold_free_krate_var` with the `fold_with` plumbing. -/
def canon_krate (fuel : Nat) (tbl : InferenceTable) (st : QState) (binders : Nat) :
    Krate → Option (QState × Krate)
  | .Var depth =>
    (match fuel with
     | 0 => none
     | fuel + 1 =>
       if depth < binders then some (st, .Var depth)
       else
         let var := depth - binders
         match tbl.probe_krate_var var with
         | some k =>
             match canon_krate fuel tbl st 0 k with
             | none => none
             | some (st', k') => some (st', shiftKrate binders 0 k')
         | none =>
             let r := findIdx st.krates (tbl.krate_unify.find var)
             some ({ st with krates := r.2 }, .Var (r.1 + binders)))
  | .Id i =>
    (match fuel with
     | 0 => none
     | _ + 1 => some (st, .Id i))
termination_by structural fuel
end

/-- The per-sort probe loop of `Querifier::into_binders`: each seen
root must still be unbound (otherwise the source panics with
"free var now bound"); record its universe. -/
def unboundUniverses {α : Type} (t : UnifTable α) : List Nat → Option (List Nat)
  | [] => some []
  | v :: vs =>
    match t.probe_value v with
    | .Bound _ => none
    | .Unbound ui =>
      match unboundUniverses t vs with
      | none => none
      | some us => some (ui :: us)

/-- `Querifier::into_binders`: the universes of the seen roots, per
sort, in order of first appearance. -/
def into_binders (tbl : InferenceTable) (st : QState) :
    Option (QueryBinders Nat Nat Nat) :=
  match unboundUniverses tbl.ty_unify st.tys with
  | none => none
  | some tys =>
    match unboundUniverses tbl.lifetime_unify st.lifetimes with
    | none => none
    | some lifetimes =>
      match unboundUniverses tbl.krate_unify st.krates with
      | none => none
      | some krates => some ⟨tys, lifetimes, krates⟩

/-- Modelled from the spec (§4.4): the single flat binder sequence —
first all ty universes in appearance order, then all lifetime
universes, then all crate universes, each wrapped in the corresponding
`ParameterKind<UniverseIndex>`. -/
def QueryBinders.flatten (qb : QueryBinders Nat Nat Nat) :
    List (ParameterKind Nat Nat Nat) :=
  qb.tys.map .Ty ++ qb.lifetimes.map .Lifetime ++ qb.krates.map .Krate

/-- `InferenceTable::make_query` at `T = Ty`: fold the value with an
empty free-variable state, then read off the binders. -/
def InferenceTable.make_query (fuel : Nat) (tbl : InferenceTable) (t : Ty) :
    Option (Query Ty) :=
  match canon_ty fuel tbl QState.empty 0 t with
  | none => none
  | some (st, v) =>
    match into_binders tbl st with
    | none => none
    | some qb => some ⟨v, qb.flatten⟩

/-- `InferenceTable::new_with_vars` (modelled from the spec, §6.2):
reconstruct a table from a `Query`'s binders — one fresh unbound
variable per binder, of its sort, in its universe, in order. -/
def InferenceTable.new_with_vars
    (binders : List (ParameterKind Nat Nat Nat)) :
    InferenceTable :=
  binders.foldl
    (fun tbl pk =>
      match pk with
      | .Ty u => (tbl.new_variable u).2
      | .Lifetime u => (tbl.new_lifetime_variable u).2
      | .Krate u => (tbl.new_krate_variable u).2)
    InferenceTable.new

/-! ## Environment elaboration (`chalk-rust/src/ir/mod.rs`) -/

/-- `Program::split_projection`: split a projection's parameters into
the trailing trait parameters and the leading others (`HashMap`
indexing on a missing key is modelled as `none`). -/
def Program.split_projection (prog : Program) (proj : ProjectionTy) :
    Option (AssociatedTyDatum × List Parameter × List Parameter) :=
  match prog.associated_ty_data.lookup proj.associated_ty_id with
  | none => none
  | some atd =>
    match prog.trait_data.lookup atd.trait_id with
    | none => none
    | some td =>
      let trait_num_params := td.binders.len
      let split_point := proj.parameters.length - trait_num_params
      let other_params := proj.parameters.take split_point
      let trait_params := proj.parameters.drop split_point
      some (atd, trait_params, other_params)

/-- The `push_clause` closure of `elaborated_clauses`: insert into the
set and schedule on the stack unless already present. -/
def pushClause (set stack : List WhereClause) (c : WhereClause) :
    List WhereClause × List WhereClause :=
  if c ∈ set then (set, stack) else (set ++ [c], c :: stack)

/-- The `for where_clause in ... { push_clause(...) }` loop of the
`WhereClause::Implemented` arm: fold `push_clause` of the substituted
where-clauses over the set/stack pair. -/
def elabFold (vals : List Parameter) (ws : List WhereClause)
    (p : List WhereClause × List WhereClause) :
    List WhereClause × List WhereClause :=
  ws.foldl (fun p w => pushClause p.1 p.2 (substWhereClause vals w)) p

/-- The worklist loop of `Environment::elaborated_clauses`.  The
`HashSet` is a duplicate-free list read by membership; the `Vec` stack
pops from the head here (the source pops from the tail — the choice
affects only processing order, not the resulting set).  `none` models
a missing `HashMap` key (a panic in the source) or exhausted fuel. -/
def elabLoop (prog : Program) : Nat → List WhereClause → List WhereClause →
    Option (List WhereClause)
  | 0, _, _ => none
  | _fuel + 1, set, [] => some set
  | fuel + 1, set, clause :: stack =>
    match clause with
    | .Implemented trait_ref =>
      match prog.trait_data.lookup trait_ref.trait_id with
      | none => none
      | some trait_datum =>
        let pushed := elabFold trait_ref.parameters
          trait_datum.binders.value.where_clauses (set, stack)
        elabLoop prog fuel pushed.1 pushed.2
    | .Normalize n =>
      match prog.split_projection n.projection with
      | none => none
      | some (atd, trait_params, _) =>
        let pushed := pushClause set stack (.Implemented ⟨atd.trait_id, trait_params⟩)
        elabLoop prog fuel pushed.1 pushed.2
termination_by structural fuel => fuel

theorem elabLoop_zero (prog : Program) (set stack : List WhereClause) :
    elabLoop prog 0 set stack = none := rfl

theorem elabLoop_nil (prog : Program) (fuel : Nat) (set : List WhereClause) :
    elabLoop prog (fuel + 1) set [] = some set := rfl

theorem elabLoop_cons (prog : Program) (fuel : Nat) (set : List WhereClause)
    (clause : WhereClause) (stack : List WhereClause) :
    elabLoop prog (fuel + 1) set (clause :: stack) =
      match clause with
      | .Implemented trait_ref =>
        match prog.trait_data.lookup trait_ref.trait_id with
        | none => none
        | some trait_datum =>
          let pushed := elabFold trait_ref.parameters
            trait_datum.binders.value.where_clauses (set, stack)
          elabLoop prog fuel pushed.1 pushed.2
      | .Normalize n =>
        match prog.split_projection n.projection with
        | none => none
        | some (atd, trait_params, _) =>
          let pushed := pushClause set stack (.Implemented ⟨atd.trait_id, trait_params⟩)
          elabLoop prog fuel pushed.1 pushed.2 := rfl

/-- `Environment::elaborated_clauses`: seed the set and the stack with
the environment's clauses and run the worklist to a fixed point. -/
def Environment.elaborated_clauses (env : Environment) (prog : Program) (fuel : Nat) :
    Option (List WhereClause) :=
  let base := env.clauses.dedup
  elabLoop prog fuel base base

/-! ## The current-program register (`src/ir/tls.rs`)

The source declares the register with `thread_local!`: every thread of
the process owns one independent cell.  The register state is embedded
as a map from thread identifiers to cell contents, and the body of
`set_current_program` runs its operation as a transformer of that state
(so the operation can observe the register, call
`with_current_program`, or nest further scopes). -/

/-- The state of the `thread_local! { static PROGRAM }` register: one
`RefCell<Option<Arc<Program>>>` per thread. -/
def TlsState := Nat → Option Program

/-- The all-`None` initial register state. -/
def TlsState.init : TlsState := fun _ => none

/-- Write one thread's cell. -/
def TlsState.set (tls : TlsState) (tid : Nat) (v : Option Program) : TlsState :=
  fun t => if t = tid then v else tls t

/-- `with_current_program(op)`, executed by thread `tid`: apply `op` to
the borrowed contents of that thread's cell. -/
def with_current_program {R : Type} (tid : Nat) (tls : TlsState)
    (op : Option Program → R) : R :=
  op (tls tid)

/-- `set_current_program(p, op)`, executed by thread `tid`: store
`Some(p)` in that thread's cell, run `op`, then store `None` back and
return `op`'s result. -/
def set_current_program {R : Type} (tid : Nat) (p : Program)
    (op : TlsState → R × TlsState) (tls : TlsState) : R × TlsState :=
  let tls1 := tls.set tid (some p)
  let (r, tls2) := op tls1
  (r, tls2.set tid none)


/-! ## Supporting lemmas -/

/-- `advanceUniverses` advances the environment by `n` universes and
produces the skolem lifetimes of the `n` freshly entered universes, in
order. -/
theorem advanceUniverses_spec (env : Environment) (n : Nat) :
    advanceUniverses env n =
      ({ env with univ := env.univ + n },
       (List.range n).map (fun i => .Lifetime (.ForAll (env.univ + i + 1)))) := by
  induction n generalizing env with
  | zero => simp [advanceUniverses]
  | succ n ih =>
      simp only [advanceUniverses, Environment.new_universe, ih, List.range_succ_eq_map,
        List.map_cons, List.map_map, Prod.mk.injEq]
      refine ⟨?_, ?_⟩
      · simp only [Environment.mk.injEq]
        exact ⟨by omega, trivial⟩
      · simp only [List.cons.injEq]
        refine ⟨by simp, ?_⟩
        apply List.map_congr_left
        intro i _
        simp only [Function.comp_apply, Parameter.Lifetime.injEq, Lifetime.ForAll.injEq]
        omega

/-- `newLifetimeVars` appends `n` fresh unbound lifetime variables with
consecutive indices and returns them in creation order. -/
theorem newLifetimeVars_spec (t : InferenceTable) (u : Nat) (n : Nat) :
    newLifetimeVars t u n =
      (List.range' t.lifetime_unify.parent.length n,
       { t with lifetime_unify :=
          { parent := t.lifetime_unify.parent ++
              List.range' t.lifetime_unify.parent.length n,
            values := t.lifetime_unify.values ++
              List.replicate n (.Unbound u) } }) := by
  induction n generalizing t with
  | zero => simp [newLifetimeVars]
  | succ n ih =>
      simp only [newLifetimeVars, InferenceTable.new_lifetime_variable,
        UnifTable.new_variable, ih]
      simp [List.range'_succ, List.replicate_succ, List.append_assoc]
/-! ## Claim theorems -/

/-- C1: `InferenceTable::unify` is transactional.  It records a
snapshot on entry; when the walk fails, the returned table is rolled
back to the snapshot, i.e. equals the table at the moment of the call;
when it succeeds, the walked table is committed and the returned
`UnificationResult` carries exactly the sub-goals and region
constraints accumulated by the walk (which starts from empty lists). -/
theorem C1_unify_transactional (fuel : Nat) (env : Environment)
    (tbl : InferenceTable) (a b : Ty) :
    (∀ e tbl', InferenceTable.unify fuel env tbl a b = some (.error e, tbl') →
        tbl' = tbl) ∧
    (∀ res tbl', InferenceTable.unify fuel env tbl a b = some (.ok res, tbl') →
        ∃ s', Unifier.unify_ty_ty fuel env ⟨tbl, [], []⟩ a b = some (.ok (), s') ∧
          res.goals = s'.goals ∧ res.constraints = s'.constraints ∧ tbl' = s'.table) := by
  constructor
  · intro e tbl' h
    unfold InferenceTable.unify at h
    rcases hz : Unifier.unify_ty_ty fuel env ⟨tbl, [], []⟩ a b with _ | ⟨r, s'⟩
    · rw [hz] at h; exact Option.noConfusion h
    · rw [hz] at h
      cases r with
      | ok u =>
          cases u
          simp only [InferenceTable.commit, Option.some.injEq, Prod.mk.injEq] at h
          exact absurd h.1 (by simp)
      | error e' =>
          simp only [InferenceTable.rollback_to, InferenceTable.snapshot,
            Option.some.injEq, Prod.mk.injEq] at h
          exact h.2.symm
  · intro res tbl' h
    unfold InferenceTable.unify at h
    rcases hz : Unifier.unify_ty_ty fuel env ⟨tbl, [], []⟩ a b with _ | ⟨r, s'⟩
    · rw [hz] at h; exact Option.noConfusion h
    · rw [hz] at h
      cases r with
      | ok u =>
          cases u
          simp only [InferenceTable.commit, Option.some.injEq, Prod.mk.injEq,
            Except.ok.injEq] at h
          obtain ⟨hres, htbl⟩ := h
          subst hres
          subst htbl
          exact ⟨s', rfl, rfl, rfl, rfl⟩
      | error e' =>
          simp only [InferenceTable.rollback_to, InferenceTable.snapshot,
            Option.some.injEq, Prod.mk.injEq] at h
          exact absurd h.1 (by simp)

/-- Witness for C1: a failing unification (two different nominal types)
returns the entry table unchanged, and a succeeding one returns the
walk's accumulated (here empty) sub-goals and constraints. -/
theorem C1_unify_transactional_witness :
    InferenceTable.new = InferenceTable.new ∧
    (∃ s', Unifier.unify_ty_ty 4 Environment.new ⟨InferenceTable.new, [], []⟩
            (Ty.Apply (.ItemId 1) []) (Ty.Apply (.ItemId 1) []) = some (.ok (), s') ∧
          (UnificationResult.mk [] []).goals = s'.goals ∧
          (UnificationResult.mk [] []).constraints = s'.constraints ∧
          InferenceTable.new = s'.table) :=
  ⟨(C1_unify_transactional 4 Environment.new InferenceTable.new
      (.Apply (.ItemId 1) []) (.Apply (.ItemId 2) [])).1
      (.err "cannot zip: application names differ") InferenceTable.new rfl,
   (C1_unify_transactional 4 Environment.new InferenceTable.new
      (.Apply (.ItemId 1) []) (.Apply (.ItemId 1) [])).2
      ⟨[], []⟩ InferenceTable.new rfl⟩

/-- C4: `unify_forall_tys` opens both quantifiers: for each binder of
the left quantified type the environment is advanced by one universe
and the skolem lifetime of that new universe is substituted; each
binder of the right quantified type is substituted with a fresh
lifetime inference variable created in the resulting universe; exactly
one deferred `Unify { a, b }` sub-goal in the enriched environment is
appended to the goal list; the call succeeds, and the only table
change is the freshly created (unbound) lifetime variables — no
variable of any sort is bound. -/
theorem C4_unify_forall_tys_opens_both (env : Environment) (s : UnifierS)
    (ty1 ty2 : QuantifiedTy) :
    Unifier.unify_forall_tys env s ty1 ty2 =
      (.ok (),
       { table :=
           { s.table with lifetime_unify :=
              { parent := s.table.lifetime_unify.parent ++
                  List.range' s.table.lifetime_unify.parent.length ty2.num_binders,
                values := s.table.lifetime_unify.values ++
                  List.replicate ty2.num_binders (.Unbound (env.univ + ty1.num_binders)) } },
         goals := s.goals ++
           [⟨{ env with univ := env.univ + ty1.num_binders },
             .UnifyTys
               ⟨ty1.subst ((List.range ty1.num_binders).map
                   (fun i => .Lifetime (.ForAll (env.univ + i + 1)))),
                ty2.subst ((List.range' s.table.lifetime_unify.parent.length
                   ty2.num_binders).map (fun v => .Lifetime (.Var v)))⟩⟩],
         constraints := s.constraints }) := by
  simp only [Unifier.unify_forall_tys, advanceUniverses_spec, newLifetimeVars_spec]

/-- C8 counterexample: the register is declared `thread_local!`, so it
is not process-wide — while `set_current_program(p, op)` runs on
thread 0, `with_current_program` executed from thread 1 observes
`None`, not `Some(p)` as the claim asserts for "any context in the
process". -/
theorem C8_counterexample :
    (set_current_program 0 ⟨[], []⟩
        (fun tls => (with_current_program 1 tls id, tls)) TlsState.init).1 = none ∧
    some (⟨[], []⟩ : Program) ≠ none := by
  exact ⟨rfl, by simp⟩

/-- C8 (amended): the current-program register is thread-local and
scoped: while `op` runs, the register state it receives shows `Some(p)`
to the calling thread; on exit from the scope — unconditionally in the
result of `op`, hence also when `op` returns an error value — the
calling thread's cell is cleared, so `with_current_program` on that
thread observes `None` afterwards. -/
theorem C8_register_thread_local_scoped {R : Type} (tid : Nat) (p : Program)
    (op : TlsState → R × TlsState) (tls : TlsState) :
    with_current_program tid (tls.set tid (some p)) id = some p ∧
    (set_current_program tid p op tls).2 tid = none ∧
    (set_current_program tid p op tls).1 = (op (tls.set tid (some p))).1 := by
  rcases hop : op (tls.set tid (some p)) with ⟨r, tls2⟩
  refine ⟨?_, ?_, ?_⟩
  · simp [with_current_program, TlsState.set]
  · simp [set_current_program, hop, TlsState.set]
  · simp [set_current_program, hop]

/-- C9: when both sides of `unify_ty_ty` are still `Ty::Var` after
shallow normalization — so both resolve to unbound classes — the
union-find `unify_var_var` cannot fail, and the call returns `Ok`
having at most merged the two classes; the `expect` panic branch is
unreachable. -/
theorem C9_unify_var_var_no_panic (fuel : Nat) (env : Environment) (s : UnifierS)
    (d1 d2 : Nat)
    (h1 : s.table.normalize_shallow (.Var d1) = none)
    (h2 : s.table.normalize_shallow (.Var d2) = none) :
    ∃ tu, s.table.ty_unify.unify_var_var d1 d2 = .ok tu ∧
      Unifier.unify_ty_ty (fuel + 1) env s (.Var d1) (.Var d2) =
        some (.ok (), { s with table := { s.table with ty_unify := tu } }) := by
  simp only [InferenceTable.normalize_shallow, InferenceTable.probe_var] at h1 h2
  rcases hv1 : s.table.ty_unify.probe_value d1 with u1 | t1
  case Bound => rw [hv1] at h1; exact Option.noConfusion h1
  rcases hv2 : s.table.ty_unify.probe_value d2 with u2 | t2
  case Bound => rw [hv2] at h2; exact Option.noConfusion h2
  rw [UnifTable.probe_value] at hv1 hv2
  have hok : ∃ tu, s.table.ty_unify.unify_var_var d1 d2 = .ok tu := by
    unfold UnifTable.unify_var_var
    by_cases he : s.table.ty_unify.find d1 = s.table.ty_unify.find d2
    · exact ⟨_, by rw [if_pos he]⟩
    · rw [if_neg he, hv1, hv2]
      exact ⟨_, rfl⟩
  obtain ⟨tu, htu⟩ := hok
  refine ⟨tu, htu, ?_⟩
  have hn1 : s.table.normalize_shallow (.Var d1) = none := by
    simp [InferenceTable.normalize_shallow, InferenceTable.probe_var,
      UnifTable.probe_value, hv1]
  have hn2 : s.table.normalize_shallow (.Var d2) = none := by
    simp [InferenceTable.normalize_shallow, InferenceTable.probe_var,
      UnifTable.probe_value, hv2]
  rw [Unifier.unify_ty_ty, hn1, hn2, htu]

/-- Witness for C9: two unbound variables in a two-variable table unify
without a panic. -/
theorem C9_unify_var_var_no_panic_witness :
    ∃ tu, (UnifTable.mk [0, 1] [.Unbound 0, .Unbound 1] : UnifTable Ty).unify_var_var
            0 1 = .ok tu ∧
      Unifier.unify_ty_ty 1 Environment.new
          ⟨⟨⟨[0, 1], [.Unbound 0, .Unbound 1]⟩, .empty, .empty⟩, [], []⟩
          (.Var 0) (.Var 1) =
        some (.ok (), ⟨⟨tu, .empty, .empty⟩, [], []⟩) :=
  C9_unify_var_var_no_panic 0 Environment.new
    ⟨⟨⟨[0, 1], [.Unbound 0, .Unbound 1]⟩, .empty, .empty⟩, [], []⟩ 0 1 rfl rfl
/-! ### One-step unfolding equations for the fueled occurs check -/

theorem check_ty_zero (var ui b : Nat) (s : UnifierS) (t : Ty) :
    OccursCheck.check_ty 0 var ui b s t = none := rfl

theorem check_ty_succ (fuel var ui b : Nat) (s : UnifierS) (t : Ty) :
    OccursCheck.check_ty (fuel + 1) var ui b s t =
      (match s.table.normalize_shallow t with
       | some n_t => OccursCheck.check_ty fuel var ui b s n_t
       | none =>
         match t with
         | .Apply name ps => OccursCheck.check_apply fuel var ui b s name ps
         | .ForAll n t' => OccursCheck.check_ty fuel var ui (b + n) s t'
         | .Var depth =>
             match s.table.ty_unify.probe_value (depth - b) with
             | .Bound _ =>
                 some (.error (.rpanic "expected `parameter` to be normalized"), s)
             | .Unbound uj =>
                 if s.table.ty_unify.unioned (depth - b) var then
                   some (.error (.err "cycle during unification"), s)
                 else if ui < uj then
                   match s.table.ty_unify.unify_var_value (depth - b) (.Unbound ui) with
                   | .ok tu =>
                       some (.ok (), { s with table := { s.table with ty_unify := tu } })
                   | .error _ =>
                       some (.error
                         (.rpanic "called `Result::unwrap()` on an `Err` value"), s)
                 else some (.ok (), s)
         | .Projection _ ps => OccursCheck.check_params fuel var ui b s ps) := rfl

theorem check_apply_zero (var ui b : Nat) (s : UnifierS) (name : TypeName)
    (ps : List Parameter) :
    OccursCheck.check_apply 0 var ui b s name ps = none := rfl

theorem check_apply_succ (fuel var ui b : Nat) (s : UnifierS) (name : TypeName)
    (ps : List Parameter) :
    OccursCheck.check_apply (fuel + 1) var ui b s name ps =
      (match OccursCheck.universe_check ui name.universe_index with
       | .error e => some (.error e, s)
       | .ok () => OccursCheck.check_params fuel var ui b s ps) := rfl

theorem check_params_zero (var ui b : Nat) (s : UnifierS) (ps : List Parameter) :
    OccursCheck.check_params 0 var ui b s ps = none := rfl

theorem check_params_succ (fuel var ui b : Nat) (s : UnifierS) (ps : List Parameter) :
    OccursCheck.check_params (fuel + 1) var ui b s ps =
      (match ps with
       | [] => some (.ok (), s)
       | p :: ps' =>
         match OccursCheck.check_parameter fuel var ui b s p with
         | none => none
         | some (.error e, s') => some (.error e, s')
         | some (.ok (), s') => OccursCheck.check_params fuel var ui b s' ps') := rfl

theorem check_parameter_zero (var ui b : Nat) (s : UnifierS) (p : Parameter) :
    OccursCheck.check_parameter 0 var ui b s p = none := rfl

theorem check_parameter_succ (fuel var ui b : Nat) (s : UnifierS) (p : Parameter) :
    OccursCheck.check_parameter (fuel + 1) var ui b s p =
      (match p with
       | .Ty t => OccursCheck.check_ty fuel var ui b s t
       | .Lifetime _ => some (.ok (), s)
       | .Krate _ => some (.error (.rpanic "krate used as parameter to a type"), s)) := rfl

/-! ## Table-evolution lemmas for the occurs check -/

theorem UnifTable.root_value_set {α : Type} (t : UnifTable α) (r : Nat)
    (w : InferenceValue α) (x : Nat) :
    (UnifTable.mk t.parent (t.values.set r w)).root_value x =
      if x = r ∧ r < t.values.length then w else t.root_value x := by
  unfold UnifTable.root_value
  by_cases hx : x = r
  · subst hx
    by_cases hlen : x < t.values.length
    · simp [List.getD_eq_getElem?_getD, List.getElem?_set_eq_of_lt, hlen]
    · have : t.values.set x w = t.values := List.set_eq_of_length_le (by omega)
      simp [this, hlen]
  · simp only [List.getD_eq_getElem?_getD, List.getElem?_set_ne (by omega : r ≠ x)]
    simp [hx]

theorem UnifTable.unify_var_value_ok {α : Type} {t : UnifTable α} {v : Nat}
    {val : InferenceValue α} {tu : UnifTable α}
    (h : t.unify_var_value v val = .ok tu) :
    ∃ w, (t.root_value (t.find v)).combine val = .ok w ∧
      tu = ⟨t.parent, t.values.set (t.find v) w⟩ := by
  unfold UnifTable.unify_var_value at h
  rcases hc : (t.root_value (t.find v)).combine val with e | w
  · rw [hc] at h; exact Except.noConfusion h
  · rw [hc] at h
    exact ⟨w, rfl, (Except.ok.injEq _ _).mp h.symm⟩

/-- What the occurs check may do to the unifier state: it never touches
the goals, the constraints, the lifetime or crate tables, or the type
union-find structure; it only rewrites values of type classes, turning
unbound classes into (possibly promoted) unbound classes and leaving
bound classes exactly as they were. -/
def OccursPreserved (s s' : UnifierS) : Prop :=
  s'.table.ty_unify.parent = s.table.ty_unify.parent ∧
  s'.table.lifetime_unify = s.table.lifetime_unify ∧
  s'.table.krate_unify = s.table.krate_unify ∧
  s'.goals = s.goals ∧
  s'.constraints = s.constraints ∧
  (∀ x t, s.table.ty_unify.probe_value x = .Bound t ↔
      s'.table.ty_unify.probe_value x = .Bound t) ∧
  (∀ x u, s.table.ty_unify.probe_value x = .Unbound u →
      ∃ u', s'.table.ty_unify.probe_value x = .Unbound u')

theorem occursPreserved_refl (s : UnifierS) : OccursPreserved s s :=
  ⟨rfl, rfl, rfl, rfl, rfl, fun _ _ => Iff.rfl, fun _ u h => ⟨u, h⟩⟩

theorem occursPreserved_trans {s1 s2 s3 : UnifierS}
    (h12 : OccursPreserved s1 s2) (h23 : OccursPreserved s2 s3) :
    OccursPreserved s1 s3 := by
  obtain ⟨a1, b1, c1, d1, e1, f1, g1⟩ := h12
  obtain ⟨a2, b2, c2, d2, e2, f2, g2⟩ := h23
  refine ⟨a2.trans a1, b2.trans b1, c2.trans c1, d2.trans d1, e2.trans e1,
    fun x t => (f1 x t).trans (f2 x t), fun x u h => ?_⟩
  obtain ⟨u', h'⟩ := g1 x u h
  exact g2 x u' h'

theorem occursPreserved_write {s : UnifierS} {v ui : Nat} {tu : UnifTable Ty}
    (h : s.table.ty_unify.unify_var_value v (.Unbound ui) = .ok tu)
    (hv : ∃ uj, s.table.ty_unify.probe_value v = .Unbound uj) :
    OccursPreserved s { s with table := { s.table with ty_unify := tu } } := by
  obtain ⟨w, hw, htu⟩ := UnifTable.unify_var_value_ok h
  obtain ⟨uj, hj⟩ := hv
  have hroot : s.table.ty_unify.root_value (s.table.ty_unify.find v) = .Unbound uj := hj
  rw [hroot] at hw
  have hwv : w = .Unbound (min uj ui) := by
    simpa [InferenceValue.combine] using hw.symm
  subst hwv
  subst htu
  have hfind : ∀ x,
      (UnifTable.mk s.table.ty_unify.parent
        (s.table.ty_unify.values.set (s.table.ty_unify.find v) (.Unbound (min uj ui)))
          : UnifTable Ty).find x = s.table.ty_unify.find x := by
    intro x; rfl
  refine ⟨rfl, rfl, rfl, rfl, rfl, ?_, ?_⟩
  · intro x t
    show s.table.ty_unify.probe_value x = .Bound t ↔
      (UnifTable.mk s.table.ty_unify.parent _).root_value _ = .Bound t
    rw [hfind, UnifTable.root_value_set]
    split
    · rename_i hc
      constructor
      · intro hb
        rw [UnifTable.probe_value, hc.1] at hb
        rw [hb] at hroot; exact InferenceValue.noConfusion hroot
      · intro hb; exact absurd hb (by simp)
    · exact Iff.rfl
  · intro x u hu
    show ∃ u', (UnifTable.mk s.table.ty_unify.parent _).root_value _ = .Unbound u'
    rw [hfind, UnifTable.root_value_set]
    split
    · exact ⟨min uj ui, rfl⟩
    · exact ⟨u, hu⟩
/-- The occurs check, whatever its verdict, preserves the unifier state
in the sense of `OccursPreserved`: its only mutation is universe
promotion of unbound type classes. -/
theorem occurs_check_preserves (fuel : Nat) :
    (∀ var ui b s t r s', OccursCheck.check_ty fuel var ui b s t = some (r, s') →
        OccursPreserved s s') ∧
    (∀ var ui b s name ps r s',
        OccursCheck.check_apply fuel var ui b s name ps = some (r, s') →
        OccursPreserved s s') ∧
    (∀ var ui b s ps r s', OccursCheck.check_params fuel var ui b s ps = some (r, s') →
        OccursPreserved s s') ∧
    (∀ var ui b s p r s', OccursCheck.check_parameter fuel var ui b s p = some (r, s') →
        OccursPreserved s s') := by
  induction fuel with
  | zero =>
      refine ⟨?_, ?_, ?_, ?_⟩
      · intro var ui b s t r s' h
        rw [check_ty_zero] at h; exact Option.noConfusion h
      · intro var ui b s name ps r s' h
        rw [check_apply_zero] at h; exact Option.noConfusion h
      · intro var ui b s ps r s' h
        rw [check_params_zero] at h; exact Option.noConfusion h
      · intro var ui b s p r s' h
        rw [check_parameter_zero] at h; exact Option.noConfusion h
  | succ fuel ih =>
      obtain ⟨ihT, ihA, ihPs, ihP⟩ := ih
      refine ⟨?_, ?_, ?_, ?_⟩
      · intro var ui b s t r s' h
        rw [check_ty_succ] at h
        split at h
        next n_t hn => exact ihT var ui b s n_t r s' h
        next hn =>
          split at h
          next name ps => exact ihA var ui b s name ps r s' h
          next n t' => exact ihT var ui (b + n) s t' r s' h
          next depth =>
            split at h
            next t0 hv =>
              simp only [Option.some.injEq, Prod.mk.injEq] at h
              rw [← h.2]; exact occursPreserved_refl s
            next uj hv =>
              split at h
              next hb =>
                simp only [Option.some.injEq, Prod.mk.injEq] at h
                rw [← h.2]; exact occursPreserved_refl s
              next hb =>
                split at h
                next hlt =>
                  split at h
                  next tu hw =>
                    simp only [Option.some.injEq, Prod.mk.injEq] at h
                    rw [← h.2]
                    exact occursPreserved_write hw ⟨uj, hv⟩
                  next e hw =>
                    simp only [Option.some.injEq, Prod.mk.injEq] at h
                    rw [← h.2]; exact occursPreserved_refl s
                next hlt =>
                  simp only [Option.some.injEq, Prod.mk.injEq] at h
                  rw [← h.2]; exact occursPreserved_refl s
          next i ps => exact ihPs var ui b s ps r s' h
      · intro var ui b s name ps r s' h
        rw [check_apply_succ] at h
        split at h
        next e hu =>
          simp only [Option.some.injEq, Prod.mk.injEq] at h
          rw [← h.2]; exact occursPreserved_refl s
        next hu => exact ihPs var ui b s ps r s' h
      · intro var ui b s ps r s' h
        rw [check_params_succ] at h
        split at h
        next =>
          simp only [Option.some.injEq, Prod.mk.injEq] at h
          rw [← h.2]; exact occursPreserved_refl s
        next p ps' =>
          split at h
          next hp => exact Option.noConfusion h
          next e s1 hp =>
            simp only [Option.some.injEq, Prod.mk.injEq] at h
            rw [← h.2]
            exact ihP var ui b s p _ s1 hp
          next s1 hp =>
            exact occursPreserved_trans (ihP var ui b s p _ s1 hp)
              (ihPs var ui b s1 ps' r s' h)
      · intro var ui b s p r s' h
        rw [check_parameter_succ] at h
        split at h
        next t => exact ihT var ui b s t r s' h
        next l =>
          simp only [Option.some.injEq, Prod.mk.injEq] at h
          rw [← h.2]; exact occursPreserved_refl s
        next c =>
          simp only [Option.some.injEq, Prod.mk.injEq] at h
          rw [← h.2]; exact occursPreserved_refl s

/-! ### Occurrences of an unbound inference variable in a term -/

mutual
/-- A free occurrence, surviving shallow normalization, of the type
inference variable `dv` in a term walked under `b` crossed binders:
the occurrence `Var(dv + b)` refers to `dv` after the crossed-binder
shift, and the probed variable `dv + b` is unbound so the walk reaches
the `Ty::Var` arm rather than normalizing the node away. -/
inductive VarOccurs (tbl : InferenceTable) (dv : Nat) : Nat → Ty → Prop where
  | var (b : Nat) (hpv : tbl.probe_var (dv + b) = none) :
      VarOccurs tbl dv b (.Var (dv + b))
  | applyMem (b : Nat) (name : TypeName) (ps : List Parameter) (p : Parameter)
      (hmem : p ∈ ps) (hp : VarOccursParam tbl dv b p) :
      VarOccurs tbl dv b (.Apply name ps)
  | projMem (b : Nat) (i : Nat) (ps : List Parameter) (p : Parameter)
      (hmem : p ∈ ps) (hp : VarOccursParam tbl dv b p) :
      VarOccurs tbl dv b (.Projection i ps)
  | forAllB (b n : Nat) (t : Ty) (hp : VarOccurs tbl dv (b + n) t) :
      VarOccurs tbl dv b (.ForAll n t)

/-- A free occurrence of `dv` inside a parameter (only type parameters
are walked by the occurs check). -/
inductive VarOccursParam (tbl : InferenceTable) (dv : Nat) : Nat → Parameter → Prop where
  | ty (b : Nat) (t : Ty) (hp : VarOccurs tbl dv b t) : VarOccursParam tbl dv b (.Ty t)
end

mutual
theorem varOccurs_mono {tbl tbl' : InferenceTable}
    (hp : ∀ x, tbl.probe_var x = none → tbl'.probe_var x = none) :
    ∀ {dv b t}, VarOccurs tbl dv b t → VarOccurs tbl' dv b t
  | _, _, _, .var b hpv => .var b (hp _ hpv)
  | _, _, _, .applyMem b name ps p hmem h0 =>
      .applyMem b name ps p hmem (varOccursParam_mono hp h0)
  | _, _, _, .projMem b i ps p hmem h0 =>
      .projMem b i ps p hmem (varOccursParam_mono hp h0)
  | _, _, _, .forAllB b n t h0 => .forAllB b n t (varOccurs_mono hp h0)

theorem varOccursParam_mono {tbl tbl' : InferenceTable}
    (hp : ∀ x, tbl.probe_var x = none → tbl'.probe_var x = none) :
    ∀ {dv b p}, VarOccursParam tbl dv b p → VarOccursParam tbl' dv b p
  | _, _, _, .ty b t h0 => .ty b t (varOccurs_mono hp h0)
end

theorem OccursPreserved.probe_var_none {s s' : UnifierS} (h : OccursPreserved s s') :
    ∀ x, s.table.probe_var x = none → s'.table.probe_var x = none := by
  intro x hx
  unfold InferenceTable.probe_var at hx ⊢
  rcases hv : s.table.ty_unify.probe_value x with u | t
  · obtain ⟨u', hu'⟩ := h.2.2.2.2.2.2 x u hv
    rw [hu']
  · rw [hv] at hx; exact Option.noConfusion hx

theorem OccursPreserved.unioned_eq {s s' : UnifierS} (h : OccursPreserved s s') :
    ∀ a c, s'.table.ty_unify.unioned a c = s.table.ty_unify.unioned a c := by
  intro a c
  unfold UnifTable.unioned UnifTable.find
  rw [h.1]

/-- The effect of one universe promotion on subsequent probes: every
variable of the promoted class reads the promoted universe, every other
variable is untouched, and the union-find structure is unchanged. -/
theorem probe_after_promote {t : UnifTable Ty} {v ui uj : Nat} {tu : UnifTable Ty}
    (hv : t.probe_value v = .Unbound uj)
    (hw : t.unify_var_value v (.Unbound ui) = .ok tu) :
    (∀ x, t.find x = t.find v → tu.probe_value x = .Unbound (min uj ui)) ∧
    (∀ x, t.find x ≠ t.find v → tu.probe_value x = t.probe_value x) ∧
    tu.parent = t.parent := by
  obtain ⟨w, hwc, htu⟩ := UnifTable.unify_var_value_ok hw
  have hroot : t.root_value (t.find v) = .Unbound uj := hv
  rw [hroot] at hwc
  have hwv : w = .Unbound (min uj ui) := by
    simpa [InferenceValue.combine] using hwc.symm
  subst hwv
  subst htu
  have hfind : ∀ x,
      (UnifTable.mk t.parent (t.values.set (t.find v) (.Unbound (min uj ui)))
        : UnifTable Ty).find x = t.find x := fun _ => rfl
  refine ⟨?_, ?_, rfl⟩
  · intro x hx
    show (UnifTable.mk t.parent _).root_value _ = _
    rw [hfind, hx, UnifTable.root_value_set]
    split
    · rfl
    · rename_i hc
      by_cases hlen : t.find v < t.values.length
      · exact absurd ⟨rfl, hlen⟩ hc
      · have h2 : t.root_value (t.find v) = .Unbound 0 := by
          unfold UnifTable.root_value
          rw [List.getD_eq_getElem?_getD, List.getElem?_eq_none (by omega)]
          rfl
        rw [hroot] at h2
        have h0 : uj = 0 := (InferenceValue.Unbound.injEq _ _).mp h2
        subst h0
        rw [hroot, Nat.zero_min]
  · intro x hx
    show (UnifTable.mk t.parent _).root_value _ = _
    rw [hfind, UnifTable.root_value_set]
    rw [if_neg (by intro hc; exact hx hc.1)]
    rfl
/-- Promotion behaviour of the occurs check.  For every variable `dv`
unbound at universe `u` on entry, a successful check leaves `dv`
unbound at `u` or at `min u ui` (promotion only); and when `dv` has a
free occurrence in the checked term, the check can only have succeeded
because `dv` is not unioned with the bound variable, and `dv`'s
universe afterwards is exactly `min u ui`. -/
theorem occurs_check_promotion (fuel : Nat) :
    (∀ var ui b s t s', OccursCheck.check_ty fuel var ui b s t = some (.ok (), s') →
      ∀ dv u, s.table.ty_unify.probe_value dv = .Unbound u →
        (s'.table.ty_unify.probe_value dv = .Unbound u ∨
         s'.table.ty_unify.probe_value dv = .Unbound (min u ui)) ∧
        (VarOccurs s.table dv b t →
           s.table.ty_unify.unioned dv var = false ∧
           s'.table.ty_unify.probe_value dv = .Unbound (min u ui))) ∧
    (∀ var ui b s name ps s',
      OccursCheck.check_apply fuel var ui b s name ps = some (.ok (), s') →
      ∀ dv u, s.table.ty_unify.probe_value dv = .Unbound u →
        (s'.table.ty_unify.probe_value dv = .Unbound u ∨
         s'.table.ty_unify.probe_value dv = .Unbound (min u ui)) ∧
        ((∃ p ∈ ps, VarOccursParam s.table dv b p) →
           s.table.ty_unify.unioned dv var = false ∧
           s'.table.ty_unify.probe_value dv = .Unbound (min u ui))) ∧
    (∀ var ui b s ps s', OccursCheck.check_params fuel var ui b s ps = some (.ok (), s') →
      ∀ dv u, s.table.ty_unify.probe_value dv = .Unbound u →
        (s'.table.ty_unify.probe_value dv = .Unbound u ∨
         s'.table.ty_unify.probe_value dv = .Unbound (min u ui)) ∧
        ((∃ p ∈ ps, VarOccursParam s.table dv b p) →
           s.table.ty_unify.unioned dv var = false ∧
           s'.table.ty_unify.probe_value dv = .Unbound (min u ui))) ∧
    (∀ var ui b s p s', OccursCheck.check_parameter fuel var ui b s p = some (.ok (), s') →
      ∀ dv u, s.table.ty_unify.probe_value dv = .Unbound u →
        (s'.table.ty_unify.probe_value dv = .Unbound u ∨
         s'.table.ty_unify.probe_value dv = .Unbound (min u ui)) ∧
        (VarOccursParam s.table dv b p →
           s.table.ty_unify.unioned dv var = false ∧
           s'.table.ty_unify.probe_value dv = .Unbound (min u ui))) := by
  induction fuel with
  | zero =>
      refine ⟨?_, ?_, ?_, ?_⟩
      · intro var ui b s t s' h; rw [check_ty_zero] at h; exact Option.noConfusion h
      · intro var ui b s name ps s' h
        rw [check_apply_zero] at h; exact Option.noConfusion h
      · intro var ui b s ps s' h; rw [check_params_zero] at h; exact Option.noConfusion h
      · intro var ui b s p s' h
        rw [check_parameter_zero] at h; exact Option.noConfusion h
  | succ fuel ih =>
      obtain ⟨ihT, ihA, ihPs, ihP⟩ := ih
      refine ⟨?_, ?_, ?_, ?_⟩
      · intro var ui b s t s' h
        rw [check_ty_succ] at h
        intro dv u hu
        split at h
        next n_t hn =>
          refine ⟨(ihT var ui b s n_t s' h dv u hu).1, ?_⟩
          intro hocc
          exfalso
          cases hocc with
          | var b hpv => simp [InferenceTable.normalize_shallow, hpv] at hn
          | applyMem b name ps p hmem hp =>
              simp [InferenceTable.normalize_shallow] at hn
          | projMem b i ps p hmem hp =>
              simp [InferenceTable.normalize_shallow] at hn
          | forAllB b n t hp => simp [InferenceTable.normalize_shallow] at hn
        next hn =>
          split at h
          next name ps =>
            have := ihA var ui b s name ps s' h dv u hu
            refine ⟨this.1, ?_⟩
            intro hocc
            cases hocc with
            | applyMem b name ps p hmem hp => exact this.2 ⟨p, hmem, hp⟩
          next n t' =>
            have := ihT var ui (b + n) s t' s' h dv u hu
            refine ⟨this.1, ?_⟩
            intro hocc
            cases hocc with
            | forAllB b n t hp => exact this.2 hp
          next depth =>
            split at h
            next t0 hv => simp at h
            next uj hv =>
              split at h
              next hb => simp at h
              next hb =>
                split at h
                next hlt =>
                  split at h
                  next tu hw =>
                    simp only [Option.some.injEq, Prod.mk.injEq] at h
                    obtain ⟨-, hs'⟩ := h
                    obtain ⟨hsame, hother, hpar⟩ := probe_after_promote hv hw
                    constructor
                    · by_cases hfe : s.table.ty_unify.find dv =
                          s.table.ty_unify.find (depth - b)
                      · have hud : s.table.ty_unify.probe_value dv =
                            s.table.ty_unify.probe_value (depth - b) := by
                          unfold UnifTable.probe_value
                          rw [hfe]
                        rw [hud, hv] at hu
                        have huj : u = uj := (InferenceValue.Unbound.injEq _ _).mp hu.symm
                        subst huj
                        right
                        rw [← hs']
                        exact hsame dv hfe
                      · left
                        rw [← hs']
                        show tu.probe_value dv = _
                        rw [hother dv hfe]
                        exact hu
                    · intro hocc
                      cases hocc with
                      | var b hpv =>
                        have hdb : dv + b - b = dv := by omega
                        rw [hdb] at hv hb hw hsame
                        have huj : u = uj := by
                          rw [hu] at hv
                          exact (InferenceValue.Unbound.injEq _ _).mp hv
                        subst huj
                        refine ⟨by simpa using hb, ?_⟩
                        rw [← hs']
                        exact hsame dv rfl
                  next e hw => simp at h
                next hlt =>
                  simp only [Option.some.injEq, Prod.mk.injEq] at h
                  obtain ⟨-, hs'⟩ := h
                  subst hs'
                  constructor
                  · left; exact hu
                  · intro hocc
                    cases hocc with
                    | var b hpv =>
                      have hdb : dv + b - b = dv := by omega
                      rw [hdb] at hv hb
                      have huj : u = uj := by
                        rw [hu] at hv
                        exact (InferenceValue.Unbound.injEq _ _).mp hv
                      subst huj
                      have hmin : min u ui = u := Nat.min_eq_left (Nat.le_of_not_lt hlt)
                      rw [hmin]
                      exact ⟨by simpa using hb, hu⟩
          next i ps =>
            have := ihPs var ui b s ps s' h dv u hu
            refine ⟨this.1, ?_⟩
            intro hocc
            cases hocc with
            | projMem b i ps p hmem hp => exact this.2 ⟨p, hmem, hp⟩
      · intro var ui b s name ps s' h
        rw [check_apply_succ] at h
        intro dv u hu
        split at h
        next e hck => simp at h
        next hck => exact ihPs var ui b s ps s' h dv u hu
      · intro var ui b s ps s' h
        rw [check_params_succ] at h
        intro dv u hu
        split at h
        next =>
          simp only [Option.some.injEq, Prod.mk.injEq] at h
          obtain ⟨-, hs'⟩ := h
          subst hs'
          exact ⟨Or.inl hu, fun hocc => absurd hocc (by simp)⟩
        next p ps' =>
          split at h
          next hp => exact Option.noConfusion h
          next e s1 hp => simp at h
          next s1 hp =>
            have pres1 : OccursPreserved s s1 :=
              (occurs_check_preserves fuel).2.2.2 var ui b s p _ s1 hp
            have hminmin : min (min u ui) ui = min u ui := by omega
            constructor
            · rcases (ihP var ui b s p s1 hp dv u hu).1 with h1 | h1
              · rcases (ihPs var ui b s1 ps' s' h dv u h1).1 with h2 | h2
                · exact Or.inl h2
                · exact Or.inr h2
              · rcases (ihPs var ui b s1 ps' s' h dv (min u ui) h1).1 with h2 | h2
                · exact Or.inr h2
                · rw [hminmin] at h2
                  exact Or.inr h2
            · rintro ⟨p0, hmem, hocc⟩
              rcases List.mem_cons.mp hmem with hh | htail
              · subst hh
                obtain ⟨hun, hprobe1⟩ := (ihP var ui b s p0 s1 hp dv u hu).2 hocc
                refine ⟨hun, ?_⟩
                rcases (ihPs var ui b s1 ps' s' h dv (min u ui) hprobe1).1 with h2 | h2
                · exact h2
                · rw [hminmin] at h2
                  exact h2
              · have hocc1 : VarOccursParam s1.table dv b p0 :=
                  varOccursParam_mono pres1.probe_var_none hocc
                rcases (ihP var ui b s p s1 hp dv u hu).1 with h1 | h1
                · obtain ⟨hun1, hprobe⟩ :=
                    (ihPs var ui b s1 ps' s' h dv u h1).2 ⟨p0, htail, hocc1⟩
                  refine ⟨?_, hprobe⟩
                  rw [← pres1.unioned_eq dv var]
                  exact hun1
                · obtain ⟨hun1, hprobe⟩ :=
                    (ihPs var ui b s1 ps' s' h dv (min u ui) h1).2 ⟨p0, htail, hocc1⟩
                  refine ⟨?_, ?_⟩
                  · rw [← pres1.unioned_eq dv var]
                    exact hun1
                  · rw [hminmin] at hprobe
                    exact hprobe
      · intro var ui b s p s' h
        rw [check_parameter_succ] at h
        intro dv u hu
        split at h
        next t =>
          have := ihT var ui b s t s' h dv u hu
          refine ⟨this.1, ?_⟩
          intro hocc
          cases hocc with
          | ty b t hp => exact this.2 hp
        next l =>
          simp only [Option.some.injEq, Prod.mk.injEq] at h
          obtain ⟨-, hs'⟩ := h
          subst hs'
          exact ⟨Or.inl hu, fun hocc => by cases hocc⟩
        next c => simp at h
/-- C2: universe promotion on the occurs check.  When `unify_var_ty`
successfully binds an unbound variable `v` of universe `ui` to a type
`t`, every unbound variable `w` with a free occurrence in `t` (after
shallow normalization) that is not unioned with `v` and whose universe
`uj` satisfies `ui < uj` ends with its universe set to `ui` — indeed
the occurrence forces `w` not to be unioned with `v`, else the check
would have failed with the cycle error.  In particular, unifying
`?A = Foo(?B)` with `universe(?A) = 0, universe(?B) = 1` succeeds,
commits, and leaves `universe(?B) = 0`; and unifying `?A = Foo(?A)`
fails with "cycle during unification", rolling the table back. -/
theorem C2_universe_promotion :
    (∀ fuel s var ty s' ui dv uj,
        Unifier.unify_var_ty fuel s var ty = some (.ok (), s') →
        s.table.ty_unify.probe_value var = .Unbound ui →
        VarOccurs s.table dv 0 ty →
        s.table.ty_unify.probe_value dv = .Unbound uj →
        ui < uj →
        s.table.ty_unify.unioned dv var = false ∧
        s'.table.ty_unify.probe_value dv = .Unbound ui) ∧
    (InferenceTable.unify 8 Environment.new
        ⟨⟨[0, 1], [.Unbound 0, .Unbound 1]⟩, .empty, .empty⟩
        (.Var 0) (.Apply (.ItemId 100) [.Ty (.Var 1)]) =
      some (.ok ⟨[], []⟩,
        ⟨⟨[0, 1], [.Bound (.Apply (.ItemId 100) [.Ty (.Var 1)]), .Unbound 0]⟩,
          .empty, .empty⟩)) ∧
    (InferenceTable.unify 8 Environment.new
        ⟨⟨[0, 1], [.Unbound 0, .Unbound 1]⟩, .empty, .empty⟩
        (.Var 0) (.Apply (.ItemId 100) [.Ty (.Var 0)]) =
      some (.error (.err "cycle during unification"),
        ⟨⟨[0, 1], [.Unbound 0, .Unbound 1]⟩, .empty, .empty⟩)) := by
  refine ⟨?_, rfl, rfl⟩
  intro fuel s var ty s' ui dv uj h hvar hocc hdv hlt
  rw [Unifier.unify_var_ty] at h
  rw [hvar] at h
  simp only [] at h
  split at h
  next hck => exact Option.noConfusion h
  next e s1 hck => simp at h
  next s1 hck =>
    have pres1 : OccursPreserved s s1 :=
      (occurs_check_preserves fuel).1 var ui 0 s ty _ s1 hck
    obtain ⟨hun, hprobe1⟩ :=
      ((occurs_check_promotion fuel).1 var ui 0 s ty s1 hck dv uj hdv).2 hocc
    have hmin : min uj ui = ui := Nat.min_eq_right (Nat.le_of_lt hlt)
    rw [hmin] at hprobe1
    refine ⟨hun, ?_⟩
    split at h
    next tu hw =>
      simp only [Option.some.injEq, Prod.mk.injEq] at h
      obtain ⟨-, hs'⟩ := h
      subst hs'
      obtain ⟨w, hwc, htu⟩ := UnifTable.unify_var_value_ok hw
      subst htu
      have hne : s1.table.ty_unify.find dv ≠ s1.table.ty_unify.find var := by
        have hu1 : s1.table.ty_unify.unioned dv var = false := by
          rw [pres1.unioned_eq dv var]; exact hun
        unfold UnifTable.unioned at hu1
        simpa using hu1
      show (UnifTable.mk s1.table.ty_unify.parent _).probe_value dv = _
      unfold UnifTable.probe_value
      have hfind : (UnifTable.mk s1.table.ty_unify.parent
          (s1.table.ty_unify.values.set (s1.table.ty_unify.find var) w)
            : UnifTable Ty).find dv = s1.table.ty_unify.find dv := rfl
      rw [hfind, UnifTable.root_value_set, if_neg (by intro hc; exact hne hc.1)]
      exact hprobe1
    next e hw => simp at h

/-- Witness for C2: the general promotion statement applied to the
concrete scenario `?A = Foo(?B)` with `universe(?A) = 0`,
`universe(?B) = 1`: `?B` is not unioned with `?A` and ends at
universe 0. -/
theorem C2_universe_promotion_witness :
    (⟨⟨⟨[0, 1], [.Unbound 0, .Unbound 1]⟩, .empty, .empty⟩, [], []⟩
        : UnifierS).table.ty_unify.unioned 1 0 = false ∧
    (⟨⟨⟨[0, 1], [.Bound (.Apply (.ItemId 100) [.Ty (.Var 1)]), .Unbound 0]⟩,
        .empty, .empty⟩, [], []⟩
        : UnifierS).table.ty_unify.probe_value 1 = .Unbound 0 :=
  C2_universe_promotion.1 8
    ⟨⟨⟨[0, 1], [.Unbound 0, .Unbound 1]⟩, .empty, .empty⟩, [], []⟩
    0 (.Apply (.ItemId 100) [.Ty (.Var 1)])
    ⟨⟨⟨[0, 1], [.Bound (.Apply (.ItemId 100) [.Ty (.Var 1)]), .Unbound 0]⟩,
        .empty, .empty⟩, [], []⟩
    0 1 1 rfl rfl
    (VarOccurs.applyMem 0 (.ItemId 100) [.Ty (.Var 1)] (.Ty (.Var 1))
      (List.mem_singleton.mpr rfl)
      (VarOccursParam.ty 0 (.Var 1) (VarOccurs.var 0 rfl)))
    rfl (by decide)
/-! ### Skolem type names occurring in a term -/

/-- The universes of a skolemized application head. -/
def nameSkolems : TypeName → List Nat
  | .ForAll u => [u]
  | .ItemId _ => []
  | .AssociatedType _ => []

mutual
/-- All universes of skolem type names (`TypeName::ForAll`) occurring
anywhere in a type, including under quantifiers and inside projection
parameters. -/
def tySkolems : Ty → List Nat
  | .Var _ => []
  | .Apply name ps => nameSkolems name ++ paramsSkolems ps
  | .Projection _ ps => paramsSkolems ps
  | .ForAll _ t => tySkolems t

/-- Skolem type names in a parameter list. -/
def paramsSkolems : List Parameter → List Nat
  | [] => []
  | p :: ps => paramSkolems p ++ paramsSkolems ps

/-- Skolem type names in a parameter. -/
def paramSkolems : Parameter → List Nat
  | .Ty t => tySkolems t
  | .Lifetime _ => []
  | .Krate _ => []
end

/-- A successful occurs check bounds every skolem type name of the
checked term by the bound variable's universe. -/
theorem occurs_check_skolems (fuel : Nat) :
    (∀ var ui b s t s', OccursCheck.check_ty fuel var ui b s t = some (.ok (), s') →
        ∀ u ∈ tySkolems t, u ≤ ui) ∧
    (∀ var ui b s name ps s',
        OccursCheck.check_apply fuel var ui b s name ps = some (.ok (), s') →
        ∀ u ∈ nameSkolems name ++ paramsSkolems ps, u ≤ ui) ∧
    (∀ var ui b s ps s', OccursCheck.check_params fuel var ui b s ps = some (.ok (), s') →
        ∀ u ∈ paramsSkolems ps, u ≤ ui) ∧
    (∀ var ui b s p s', OccursCheck.check_parameter fuel var ui b s p = some (.ok (), s') →
        ∀ u ∈ paramSkolems p, u ≤ ui) := by
  induction fuel with
  | zero =>
      refine ⟨?_, ?_, ?_, ?_⟩
      · intro var ui b s t s' h; rw [check_ty_zero] at h; exact Option.noConfusion h
      · intro var ui b s name ps s' h
        rw [check_apply_zero] at h; exact Option.noConfusion h
      · intro var ui b s ps s' h; rw [check_params_zero] at h; exact Option.noConfusion h
      · intro var ui b s p s' h
        rw [check_parameter_zero] at h; exact Option.noConfusion h
  | succ fuel ih =>
      obtain ⟨ihT, ihA, ihPs, ihP⟩ := ih
      refine ⟨?_, ?_, ?_, ?_⟩
      · intro var ui b s t s' h
        rw [check_ty_succ] at h
        split at h
        next n_t hn =>
          cases t with
          | Var depth => intro u hu; simp [tySkolems] at hu
          | Apply name ps => simp [InferenceTable.normalize_shallow] at hn
          | Projection i ps => simp [InferenceTable.normalize_shallow] at hn
          | ForAll n t' => simp [InferenceTable.normalize_shallow] at hn
        next hn =>
          split at h
          next name ps => exact ihA var ui b s name ps s' h
          next n t' => exact ihT var ui (b + n) s t' s' h
          next depth => intro u hu; simp [tySkolems] at hu
          next i ps => exact ihPs var ui b s ps s' h
      · intro var ui b s name ps s' h
        rw [check_apply_succ] at h
        split at h
        next e hck => simp at h
        next hck =>
          intro u hu
          rcases List.mem_append.mp hu with hn | hp
          · unfold OccursCheck.universe_check at hck
            split at hck
            · exact Except.noConfusion hck
            · rename_i hle
              cases name with
              | ForAll u' =>
                  simp only [nameSkolems, List.mem_singleton] at hn
                  subst hn
                  simpa [TypeName.universe_index] using Nat.le_of_not_lt hle
              | ItemId i => simp [nameSkolems] at hn
              | AssociatedType i => simp [nameSkolems] at hn
          · exact ihPs var ui b s ps s' h u hp
      · intro var ui b s ps s' h
        rw [check_params_succ] at h
        split at h
        next => intro u hu; simp [paramsSkolems] at hu
        next p ps' =>
          split at h
          next hp => exact Option.noConfusion h
          next e s1 hp => simp at h
          next s1 hp =>
            intro u hu
            rcases List.mem_append.mp hu with h1 | h1
            · exact ihP var ui b s p s1 hp u h1
            · exact ihPs var ui b s1 ps' s' h u h1
      · intro var ui b s p s' h
        rw [check_parameter_succ] at h
        split at h
        next t => exact ihT var ui b s t s' h
        next l => intro u hu; simp [paramSkolems] at hu
        next c => simp at h

/-- C3 counterexample: the claim asserts that unifying a type inference
variable `?A` of universe 0 with `forall<'a> Foo('a)` fails with a
`UniverseViolation`; on the code it succeeds — the occurs check never
inspects lifetime positions, quantified types bind only lifetimes, and
`?A` is simply bound to the quantified type. -/
theorem C3_counterexample :
    InferenceTable.unify 8 Environment.new
        ⟨⟨[0], [.Unbound 0]⟩, .empty, .empty⟩
        (.Var 0) (.ForAll 1 (.Apply (.ItemId 100) [.Lifetime (.Var 0)])) =
      some (.ok ⟨[], []⟩,
        ⟨⟨[0], [.Bound (.ForAll 1 (.Apply (.ItemId 100) [.Lifetime (.Var 0)]))]⟩,
          .empty, .empty⟩) := rfl

/-- C3 (amended): after any successful `unify_var_ty` binding of a
variable of universe `ui` to `t`, every skolem *type name*
`TypeName::ForAll(u)` occurring in `t` satisfies `u ≤ ui` (skolem
lifetimes are not occurs-checked); the failing mirror of universe
promotion is the skolem-type case: unifying `?A` of universe 0 with the
skolemized application `ForAll(1)` fails with the incompatible-universes
error, rolling the table back. -/
theorem C3_occurs_universe_type_skolems :
    (∀ fuel s var ty s' ui,
        Unifier.unify_var_ty fuel s var ty = some (.ok (), s') →
        s.table.ty_unify.probe_value var = .Unbound ui →
        ∀ u ∈ tySkolems ty, u ≤ ui) ∧
    (InferenceTable.unify 8 Environment.new
        ⟨⟨[0], [.Unbound 0]⟩, .empty, .empty⟩
        (.Var 0) (.Apply (.ForAll 1) []) =
      some (.error (.err "incompatible universes"),
        ⟨⟨[0], [.Unbound 0]⟩, .empty, .empty⟩)) := by
  refine ⟨?_, rfl⟩
  intro fuel s var ty s' ui h hvar
  rw [Unifier.unify_var_ty] at h
  rw [hvar] at h
  simp only [] at h
  split at h
  next hck => exact Option.noConfusion h
  next e s1 hck => simp at h
  next s1 hck => exact (occurs_check_skolems fuel).1 var ui 0 s ty s1 hck

/-- Witness for C3: binding `?A` of universe 2 to the skolemized
application `ForAll(1)` succeeds, and the skolem bound `1 ≤ 2` follows
from the amended theorem. -/
theorem C3_occurs_universe_type_skolems_witness :
    Unifier.unify_var_ty 8
        ⟨⟨⟨[0], [.Unbound 2]⟩, .empty, .empty⟩, [], []⟩ 0 (.Apply (.ForAll 1) []) =
      some (.ok (),
        ⟨⟨⟨[0], [.Bound (.Apply (.ForAll 1) [])]⟩, .empty, .empty⟩, [], []⟩) ∧
    (1 : Nat) ≤ 2 :=
  ⟨rfl,
   C3_occurs_universe_type_skolems.1 8
     ⟨⟨⟨[0], [.Unbound 2]⟩, .empty, .empty⟩, [], []⟩ 0 (.Apply (.ForAll 1) [])
     ⟨⟨⟨[0], [.Bound (.Apply (.ForAll 1) [])]⟩, .empty, .empty⟩, [], []⟩ 2
     rfl rfl 1 (by decide)⟩
/-! ### Crate parameters inside type applications -/

mutual
/-- No `ParameterKind::Krate` occurs in the parameters of any
application or projection inside the type. -/
def tyKrateClean : Ty → Bool
  | .Var _ => true
  | .Apply _ ps => paramsKrateClean ps
  | .Projection _ ps => paramsKrateClean ps
  | .ForAll _ t => tyKrateClean t

/-- Crate-cleanliness of a parameter list. -/
def paramsKrateClean : List Parameter → Bool
  | [] => true
  | p :: ps => paramKrateClean p && paramsKrateClean ps

/-- Crate-cleanliness of a parameter. -/
def paramKrateClean : Parameter → Bool
  | .Ty t => tyKrateClean t
  | .Lifetime _ => true
  | .Krate _ => false
end

/-- Every type bound in the table is crate-clean (the occurs check
walks bound values through shallow normalization, so their cleanliness
matters as much as the input's). -/
def tableKrateClean (tbl : InferenceTable) : Prop :=
  ∀ v t, tbl.ty_unify.probe_value v = .Bound t → tyKrateClean t = true

theorem tableKrateClean_preserved {s s' : UnifierS} (h : OccursPreserved s s')
    (hc : tableKrateClean s.table) : tableKrateClean s'.table := by
  intro v t ht
  exact hc v t ((h.2.2.2.2.2.1 v t).mpr ht)

/-- The krate panic of `check_parameter` is unreachable when both the
checked term and every bound value in the table are crate-clean. -/
theorem occurs_check_no_krate_panic (fuel : Nat) :
    (∀ var ui b s t e s', OccursCheck.check_ty fuel var ui b s t = some (.error e, s') →
        tyKrateClean t = true → tableKrateClean s.table →
        e ≠ .rpanic "krate used as parameter to a type") ∧
    (∀ var ui b s name ps e s',
        OccursCheck.check_apply fuel var ui b s name ps = some (.error e, s') →
        paramsKrateClean ps = true → tableKrateClean s.table →
        e ≠ .rpanic "krate used as parameter to a type") ∧
    (∀ var ui b s ps e s',
        OccursCheck.check_params fuel var ui b s ps = some (.error e, s') →
        paramsKrateClean ps = true → tableKrateClean s.table →
        e ≠ .rpanic "krate used as parameter to a type") ∧
    (∀ var ui b s p e s',
        OccursCheck.check_parameter fuel var ui b s p = some (.error e, s') →
        paramKrateClean p = true → tableKrateClean s.table →
        e ≠ .rpanic "krate used as parameter to a type") := by
  induction fuel with
  | zero =>
      refine ⟨?_, ?_, ?_, ?_⟩
      · intro var ui b s t e s' h; rw [check_ty_zero] at h; exact Option.noConfusion h
      · intro var ui b s name ps e s' h
        rw [check_apply_zero] at h; exact Option.noConfusion h
      · intro var ui b s ps e s' h
        rw [check_params_zero] at h; exact Option.noConfusion h
      · intro var ui b s p e s' h
        rw [check_parameter_zero] at h; exact Option.noConfusion h
  | succ fuel ih =>
      obtain ⟨ihT, ihA, ihPs, ihP⟩ := ih
      refine ⟨?_, ?_, ?_, ?_⟩
      · intro var ui b s t e s' h hclean htbl
        rw [check_ty_succ] at h
        split at h
        next n_t hn =>
          cases t with
          | Var depth =>
              have hb : s.table.ty_unify.probe_value depth = .Bound n_t := by
                simp only [InferenceTable.normalize_shallow,
                  InferenceTable.probe_var] at hn
                rcases hv : s.table.ty_unify.probe_value depth with u | t0
                · rw [hv] at hn; exact Option.noConfusion hn
                · rw [hv] at hn
                  rw [(Option.some.injEq _ _).mp hn]
              exact ihT var ui b s n_t e s' h (htbl depth n_t hb) htbl
          | Apply name ps => simp [InferenceTable.normalize_shallow] at hn
          | Projection i ps => simp [InferenceTable.normalize_shallow] at hn
          | ForAll n t' => simp [InferenceTable.normalize_shallow] at hn
        next hn =>
          split at h
          next name ps =>
              exact ihA var ui b s name ps e s' h (by simpa [tyKrateClean] using hclean) htbl
          next n t' =>
              exact ihT var ui (b + n) s t' e s' h (by simpa [tyKrateClean] using hclean) htbl
          next depth =>
            split at h
            next t0 hv =>
              simp only [Option.some.injEq, Prod.mk.injEq, Except.error.injEq] at h
              rw [← h.1]; simp
            next uj hv =>
              split at h
              next hb =>
                simp only [Option.some.injEq, Prod.mk.injEq, Except.error.injEq] at h
                rw [← h.1]; simp
              next hb =>
                split at h
                next hlt =>
                  split at h
                  next tu hw => simp at h
                  next e1 hw =>
                    simp only [Option.some.injEq, Prod.mk.injEq, Except.error.injEq] at h
                    rw [← h.1]; simp
                next hlt => simp at h
          next i ps =>
              exact ihPs var ui b s ps e s' h (by simpa [tyKrateClean] using hclean) htbl
      · intro var ui b s name ps e s' h hclean htbl
        rw [check_apply_succ] at h
        split at h
        next e1 hck =>
          simp only [Option.some.injEq, Prod.mk.injEq, Except.error.injEq] at h
          rw [← h.1]
          unfold OccursCheck.universe_check at hck
          split at hck
          · rw [← (Except.error.injEq _ _).mp hck]; simp
          · exact Except.noConfusion hck
        next hck => exact ihPs var ui b s ps e s' h hclean htbl
      · intro var ui b s ps e s' h hclean htbl
        rw [check_params_succ] at h
        split at h
        next => simp at h
        next p ps' =>
          have hcp : paramKrateClean p = true ∧ paramsKrateClean ps' = true := by
            simpa [paramsKrateClean] using hclean
          split at h
          next hp => exact Option.noConfusion h
          next e1 s1 hp =>
            simp only [Option.some.injEq, Prod.mk.injEq, Except.error.injEq] at h
            rw [← h.1]
            exact ihP var ui b s p e1 s1 hp hcp.1 htbl
          next s1 hp =>
            have pres1 : OccursPreserved s s1 :=
              (occurs_check_preserves fuel).2.2.2 var ui b s p _ s1 hp
            exact ihPs var ui b s1 ps' e s' h hcp.2
              (tableKrateClean_preserved pres1 htbl)
      · intro var ui b s p e s' h hclean htbl
        rw [check_parameter_succ] at h
        split at h
        next t => exact ihT var ui b s t e s' h (by simpa [paramKrateClean] using hclean) htbl
        next l => simp at h
        next c => simp [paramKrateClean] at hclean

/-- C10 counterexample: with a crate-clean *input* but a table whose
bound value for `?0` carries a crate parameter inside a type
application, `unify_var_ty` still reaches the
"krate used as parameter to a type" panic through shallow
normalization — the stated precondition on the input alone does not
make the panic unreachable. -/
theorem C10_counterexample :
    tyKrateClean (.Var 0) = true ∧
    Unifier.unify_var_ty 8
        ⟨⟨⟨[0, 1], [.Bound (.Apply (.ItemId 100) [.Krate (.Id 0)]), .Unbound 0]⟩,
          .empty, .empty⟩, [], []⟩ 1 (.Var 0) =
      some (.error (.rpanic "krate used as parameter to a type"),
        ⟨⟨⟨[0, 1], [.Bound (.Apply (.ItemId 100) [.Krate (.Id 0)]), .Unbound 0]⟩,
          .empty, .empty⟩, [], []⟩) :=
  ⟨rfl, rfl⟩

/-- C10 (amended): when neither the proposed bound type nor any type
bound in the inference table carries a `ParameterKind::Krate` inside an
`ApplicationTy` or `ProjectionTy` parameter list, the
"krate used as parameter to a type" panic of
`OccursCheck::check_parameter` is unreachable from `unify_var_ty`. -/
theorem C10_krate_panic_unreachable (fuel : Nat) (s : UnifierS) (var : Nat)
    (ty : Ty) (e : RustErr) (s' : UnifierS)
    (hclean : tyKrateClean ty = true)
    (htbl : tableKrateClean s.table)
    (h : Unifier.unify_var_ty fuel s var ty = some (.error e, s')) :
    e ≠ .rpanic "krate used as parameter to a type" := by
  rw [Unifier.unify_var_ty] at h
  split at h
  next hbd =>
    simp only [Option.some.injEq, Prod.mk.injEq, Except.error.injEq] at h
    rw [← h.1]; simp
  next ui hun =>
    split at h
    next hck => exact Option.noConfusion h
    next e1 s1 hck =>
      simp only [Option.some.injEq, Prod.mk.injEq, Except.error.injEq] at h
      rw [← h.1]
      exact (occurs_check_no_krate_panic fuel).1 var ui 0 s ty e1 s1 hck hclean htbl
    next s1 hck =>
      split at h
      next tu hw => simp at h
      next e1 hw =>
        simp only [Option.some.injEq, Prod.mk.injEq, Except.error.injEq] at h
        rw [← h.1]; simp

/-- Witness for C10: a crate-clean cyclic unification errors with the
cycle message, which is not the krate panic. -/
theorem C10_krate_panic_unreachable_witness :
    tyKrateClean (.Apply (.ItemId 100) [.Ty (.Var 0)]) = true ∧
    (RustErr.err "cycle during unification") ≠
      .rpanic "krate used as parameter to a type" :=
  ⟨rfl,
   C10_krate_panic_unreachable 8 ⟨⟨⟨[0], [.Unbound 0]⟩, .empty, .empty⟩, [], []⟩ 0
     (.Apply (.ItemId 100) [.Ty (.Var 0)]) (.err "cycle during unification")
     ⟨⟨⟨[0], [.Unbound 0]⟩, .empty, .empty⟩, [], []⟩ rfl
     (by
       intro v t ht
       have hgd : ∀ n : Nat,
           ([(.Unbound 0 : InferenceValue Ty)]).getD n (.Unbound UniverseIndex.root) =
             .Unbound 0 := by
         intro n
         match n with
         | 0 => rfl
         | n + 1 => rfl
       have := hgd ((⟨[0], [.Unbound 0]⟩ : UnifTable Ty).find v)
       rw [UnifTable.probe_value, UnifTable.root_value] at ht
       rw [this] at ht
       exact InferenceValue.noConfusion ht)
     rfl⟩
/-! ## Environment elaboration: the least-closure property -/

mutual
theorem shiftTy_zero (b : Nat) : (t : Ty) → shiftTy 0 b t = t
  | .Var d => by simp [shiftTy]
  | .Apply n ps => by simp [shiftTy, shiftParams_zero b ps]
  | .Projection i ps => by simp [shiftTy, shiftParams_zero b ps]
  | .ForAll n t => by simp [shiftTy, shiftTy_zero (b + n) t]

theorem shiftParams_zero (b : Nat) : (ps : List Parameter) → shiftParams 0 b ps = ps
  | [] => by simp [shiftParams]
  | p :: ps => by simp [shiftParams, shiftParam_zero b p, shiftParams_zero b ps]

theorem shiftParam_zero (b : Nat) : (p : Parameter) → shiftParam 0 b p = p
  | .Ty t => by simp [shiftParam, shiftTy_zero b t]
  | .Lifetime l => by cases l <;> simp [shiftParam, shiftLifetime]
  | .Krate c => by cases c <;> simp [shiftParam, shiftKrate]
end

/-- Derivability of a clause from a base set under the program's two
elaboration rules (trait-implied clauses and projection-implies-impl):
the inductive closure that `elaborated_clauses` is claimed to
compute. -/
inductive ElabDeriv (prog : Program) (base : List WhereClause) : WhereClause → Prop where
  | base (c : WhereClause) (hc : c ∈ base) : ElabDeriv prog base c
  | trait_implied (tr : TraitRef) (td : TraitDatum) (w : WhereClause)
      (hd : ElabDeriv prog base (.Implemented tr))
      (hl : prog.trait_data.lookup tr.trait_id = some td)
      (hw : w ∈ td.binders.value.where_clauses) :
      ElabDeriv prog base (substWhereClause tr.parameters w)
  | proj_impl (n : NormalizeG) (atd : AssociatedTyDatum)
      (tps ops : List Parameter)
      (hd : ElabDeriv prog base (.Normalize n))
      (hs : prog.split_projection n.projection = some (atd, tps, ops)) :
      ElabDeriv prog base (.Implemented ⟨atd.trait_id, tps⟩)

/-- One clause of the set is saturated: both elaboration rules applied
to it land inside the set. -/
def succClosed (prog : Program) (set : List WhereClause) : WhereClause → Prop
  | .Implemented tr => ∀ td, prog.trait_data.lookup tr.trait_id = some td →
      ∀ w ∈ td.binders.value.where_clauses, substWhereClause tr.parameters w ∈ set
  | .Normalize n => ∀ atd tps ops,
      prog.split_projection n.projection = some (atd, tps, ops) →
      WhereClause.Implemented ⟨atd.trait_id, tps⟩ ∈ set

theorem succClosed_mono {prog : Program} {s1 s2 : List WhereClause}
    (hs : ∀ x ∈ s1, x ∈ s2) (c : WhereClause) (h : succClosed prog s1 c) :
    succClosed prog s2 c := by
  cases c with
  | Implemented tr =>
      intro td hl w hw
      exact hs _ (h td hl w hw)
  | Normalize n =>
      intro atd tps ops hsp
      exact hs _ (h atd tps ops hsp)

theorem pushClause_spec (set stack : List WhereClause) (c : WhereClause) :
    (∀ x, x ∈ (pushClause set stack c).1 ↔ (x ∈ set ∨ x = c)) ∧
    (∀ x, x ∈ (pushClause set stack c).2 → x ∈ stack ∨ x = c) ∧
    (∀ x, x ∈ stack → x ∈ (pushClause set stack c).2) ∧
    (∀ x, x ∈ (pushClause set stack c).1 → x ∈ set ∨ x ∈ (pushClause set stack c).2) := by
  unfold pushClause
  by_cases hc : c ∈ set
  · rw [if_pos hc]
    refine ⟨?_, ?_, ?_, ?_⟩
    · intro x
      constructor
      · exact Or.inl
      · rintro (hx | rfl)
        · exact hx
        · exact hc
    · intro x hx; exact Or.inl hx
    · intro x hx; exact hx
    · intro x hx; exact Or.inl hx
  · rw [if_neg hc]
    refine ⟨?_, ?_, ?_, ?_⟩
    · intro x
      simp [List.mem_append]
    · intro x hx
      rcases List.mem_cons.mp hx with rfl | hx
      · exact Or.inr rfl
      · exact Or.inl hx
    · intro x hx; exact List.mem_cons_of_mem _ hx
    · intro x hx
      rcases List.mem_append.mp hx with hx | hx
      · exact Or.inl hx
      · simp only [List.mem_singleton] at hx
        rw [hx]
        exact Or.inr (List.mem_cons_self _ _)
theorem elabFold_spec (vals : List Parameter) :
    ∀ (ws : List WhereClause) (set stack : List WhereClause),
      (∀ x, x ∈ (elabFold vals ws (set, stack)).1 ↔
        (x ∈ set ∨ ∃ w ∈ ws, x = substWhereClause vals w)) ∧
      (∀ x, x ∈ (elabFold vals ws (set, stack)).2 →
        x ∈ stack ∨ ∃ w ∈ ws, x = substWhereClause vals w) ∧
      (∀ x, x ∈ stack → x ∈ (elabFold vals ws (set, stack)).2) ∧
      (∀ x, x ∈ (elabFold vals ws (set, stack)).1 →
        x ∈ set ∨ x ∈ (elabFold vals ws (set, stack)).2) := by
  intro ws
  induction ws with
  | nil =>
      intro set stack
      refine ⟨?_, ?_, ?_, ?_⟩
      · intro x; simp [elabFold]
      · intro x hx; simp only [elabFold, List.foldl_nil] at hx; exact Or.inl hx
      · intro x hx; simpa [elabFold] using hx
      · intro x hx; simp only [elabFold, List.foldl_nil] at hx; exact Or.inl hx
  | cons w0 ws ih =>
      intro set stack
      have hstep : elabFold vals (w0 :: ws) (set, stack) =
          elabFold vals ws (pushClause set stack (substWhereClause vals w0)) := by
        simp [elabFold]
      obtain ⟨p1, p2, p3, p4⟩ := pushClause_spec set stack (substWhereClause vals w0)
      rcases hpp : pushClause set stack (substWhereClause vals w0) with ⟨set1, stack1⟩
      rw [hpp] at p1 p2 p3 p4
      obtain ⟨i1, i2, i3, i4⟩ := ih set1 stack1
      rw [hstep, hpp]
      refine ⟨?_, ?_, ?_, ?_⟩
      · intro x
        rw [i1 x]
        constructor
        · rintro (hx | hw)
          · rcases (p1 x).mp hx with hx | rfl
            · exact Or.inl hx
            · exact Or.inr ⟨w0, List.mem_cons_self _ _, rfl⟩
          · obtain ⟨w, hw, rfl⟩ := hw
            exact Or.inr ⟨w, List.mem_cons_of_mem _ hw, rfl⟩
        · rintro (hx | ⟨w, hw, rfl⟩)
          · exact Or.inl ((p1 x).mpr (Or.inl hx))
          · rcases List.mem_cons.mp hw with rfl | hw
            · exact Or.inl ((p1 _).mpr (Or.inr rfl))
            · exact Or.inr ⟨w, hw, rfl⟩
      · intro x hx
        rcases i2 x hx with hx | ⟨w, hw, rfl⟩
        · rcases p2 x hx with hx | rfl
          · exact Or.inl hx
          · exact Or.inr ⟨w0, List.mem_cons_self _ _, rfl⟩
        · exact Or.inr ⟨w, List.mem_cons_of_mem _ hw, rfl⟩
      · intro x hx
        exact i3 x (p3 x hx)
      · intro x hx
        rcases i4 x hx with hx | hx
        · rcases p4 x hx with hx | hx
          · exact Or.inl hx
          · exact Or.inr (i3 x hx)
        · exact Or.inr hx

/-- The worklist invariant of `elaborated_clauses`. -/
def ElabInv (prog : Program) (base set stack : List WhereClause) : Prop :=
  (∀ c ∈ base, c ∈ set) ∧
  (∀ c ∈ stack, c ∈ set) ∧
  (∀ c ∈ set, ElabDeriv prog base c) ∧
  (∀ c ∈ set, c ∈ stack ∨ succClosed prog set c)

theorem elabLoop_correct (prog : Program) (base : List WhereClause) :
    ∀ fuel set stack S, ElabInv prog base set stack →
      elabLoop prog fuel set stack = some S →
      (∀ c ∈ base, c ∈ S) ∧ (∀ c ∈ S, succClosed prog S c) ∧
      (∀ c ∈ S, ElabDeriv prog base c) := by
  intro fuel
  induction fuel with
  | zero => intro set stack S _ h; rw [elabLoop_zero] at h; exact Option.noConfusion h
  | succ fuel ih =>
      intro set stack S hinv h
      obtain ⟨hbase, hstack, hderiv, hclosed⟩ := hinv
      cases stack with
      | nil =>
          rw [elabLoop_nil] at h
          have hS : S = set := ((Option.some.injEq _ _).mp h).symm
          subst hS
          refine ⟨hbase, ?_, hderiv⟩
          intro c hc
          rcases hclosed c hc with hfalse | hcl
          · exact absurd hfalse (by simp)
          · exact hcl
      | cons clause rest =>
          rw [elabLoop_cons] at h
          cases clause with
          | Implemented tr =>
              simp only [] at h
              rcases hl : prog.trait_data.lookup tr.trait_id with _ | td
              · rw [hl] at h; exact Option.noConfusion h
              · rw [hl] at h
                simp only [] at h
                obtain ⟨f1, f2, f3, f4⟩ :=
                  elabFold_spec tr.parameters td.binders.value.where_clauses set rest
                have hderivImp : ElabDeriv prog base (.Implemented tr) :=
                  hderiv _ (hstack _ (List.mem_cons_self _ _))
                apply ih _ _ S ?_ h
                refine ⟨?_, ?_, ?_, ?_⟩
                · intro c hc
                  exact (f1 c).mpr (Or.inl (hbase c hc))
                · intro c hc
                  rcases f2 c hc with hc | ⟨w, hw, rfl⟩
                  · exact (f1 c).mpr (Or.inl (hstack c (List.mem_cons_of_mem _ hc)))
                  · exact (f1 _).mpr (Or.inr ⟨w, hw, rfl⟩)
                · intro c hc
                  rcases (f1 c).mp hc with hc | ⟨w, hw, rfl⟩
                  · exact hderiv c hc
                  · exact ElabDeriv.trait_implied tr td w hderivImp hl hw
                · intro c hc
                  rcases f4 c hc with hcs | hcs
                  · rcases hclosed c hcs with hcst | hccl
                    · rcases List.mem_cons.mp hcst with rfl | hcr
                      · right
                        intro td' hl' w hw
                        have htd : td' = td := by
                          rw [hl] at hl'
                          exact ((Option.some.injEq _ _).mp hl').symm
                        subst htd
                        exact (f1 _).mpr (Or.inr ⟨w, hw, rfl⟩)
                      · exact Or.inl (f3 c hcr)
                    · exact Or.inr (succClosed_mono
                        (fun x hx => (f1 x).mpr (Or.inl hx)) c hccl)
                  · exact Or.inl hcs
          | Normalize n =>
              simp only [] at h
              rcases hsp : prog.split_projection n.projection with _ | ⟨atd, tps, ops⟩
              · rw [hsp] at h; exact Option.noConfusion h
              · rw [hsp] at h
                simp only [] at h
                obtain ⟨p1, p2, p3, p4⟩ :=
                  pushClause_spec set rest (.Implemented ⟨atd.trait_id, tps⟩)
                have hderivN : ElabDeriv prog base (.Normalize n) :=
                  hderiv _ (hstack _ (List.mem_cons_self _ _))
                apply ih _ _ S ?_ h
                refine ⟨?_, ?_, ?_, ?_⟩
                · intro c hc
                  exact (p1 c).mpr (Or.inl (hbase c hc))
                · intro c hc
                  rcases p2 c hc with hc | rfl
                  · exact (p1 c).mpr (Or.inl (hstack c (List.mem_cons_of_mem _ hc)))
                  · exact (p1 _).mpr (Or.inr rfl)
                · intro c hc
                  rcases (p1 c).mp hc with hc | rfl
                  · exact hderiv c hc
                  · exact ElabDeriv.proj_impl n atd tps ops hderivN hsp
                · intro c hc
                  rcases p4 c hc with hcs | hcs
                  · rcases hclosed c hcs with hcst | hccl
                    · rcases List.mem_cons.mp hcst with rfl | hcr
                      · right
                        intro atd' tps' ops' hsp'
                        have heq : atd' = atd ∧ tps' = tps ∧ ops' = ops := by
                          rw [hsp] at hsp'
                          have := (Option.some.injEq _ _).mp hsp'
                          simp only [Prod.mk.injEq] at this
                          exact ⟨this.1.symm, this.2.1.symm, this.2.2.symm⟩
                        obtain ⟨rfl, rfl, rfl⟩ := heq
                        exact (p1 _).mpr (Or.inr rfl)
                      · exact Or.inl (p3 c hcr)
                    · exact Or.inr (succClosed_mono
                        (fun x hx => (p1 x).mpr (Or.inl hx)) c hccl)
                  · exact Or.inl hcs
theorem elabDeriv_le {prog : Program} {base : List WhereClause}
    (T : WhereClause → Prop)
    (hbase : ∀ c ∈ base, T c)
    (himpl : ∀ tr td, T (.Implemented tr) →
      prog.trait_data.lookup tr.trait_id = some td →
      ∀ w ∈ td.binders.value.where_clauses, T (substWhereClause tr.parameters w))
    (hnorm : ∀ n atd tps ops, T (.Normalize n) →
      prog.split_projection n.projection = some (atd, tps, ops) →
      T (.Implemented ⟨atd.trait_id, tps⟩)) :
    ∀ c, ElabDeriv prog base c → T c := by
  intro c h
  induction h with
  | base c hc => exact hbase c hc
  | trait_implied tr td w hd hl hw ih => exact himpl tr td ih hl w hw
  | proj_impl n atd tps ops hd hs ih => exact hnorm n atd tps ops ih hs

/-- C7 nontermination example, the type constructor `Vec<_>`. -/
def vecTyC7 (t : Ty) : Ty := .Apply (.ItemId 60) [.Ty t]

/-- C7 nontermination example, the tower `Vec^k<i32>`. -/
def vecNC7 : Nat → Ty
  | 0 => .Apply (.ItemId 50) []
  | k + 1 => vecTyC7 (vecNC7 k)

/-- C7 nontermination example, the clause `Implemented(t: Foo)`. -/
def wcC7 (t : Ty) : WhereClause := .Implemented ⟨0, [.Ty t]⟩

/-- C7 nontermination example: `trait Foo where Vec<Self>: Foo`. -/
def tdC7 : TraitDatum :=
  ⟨0, ⟨[.Ty ()], ⟨⟨0, [.Ty (.Var 0)]⟩, [wcC7 (vecTyC7 (.Var 0))]⟩⟩⟩

/-- C7 nontermination example, the program holding only `tdC7`. -/
def progC7 : Program := ⟨[(0, tdC7)], []⟩

/-- The elaboration set after `k` worklist steps on `progC7`. -/
def setC7 (k : Nat) : List WhereClause :=
  (List.range (k + 1)).map (fun i => wcC7 (vecNC7 i))

theorem vecNC7_inj : ∀ m n, vecNC7 m = vecNC7 n → m = n
  | 0, 0, _ => rfl
  | 0, _ + 1, h => by simp [vecNC7, vecTyC7] at h
  | _ + 1, 0, h => by simp [vecNC7, vecTyC7] at h
  | m + 1, n + 1, h => by
      simp only [vecNC7, vecTyC7, Ty.Apply.injEq, List.cons.injEq,
        Parameter.Ty.injEq, and_true, true_and] at h
      exact congrArg Nat.succ (vecNC7_inj m n h)

theorem substC7 (t : Ty) :
    substWhereClause [.Ty t] (wcC7 (vecTyC7 (.Var 0))) = wcC7 (vecTyC7 t) := by
  simp [wcC7, vecTyC7, substWhereClause, substTraitRef, substParams, substParam,
    substTy, shiftTy_zero]

theorem wcC7_inj {s t : Ty} (h : wcC7 s = wcC7 t) : s = t := by
  simpa [wcC7] using h

theorem notMemC7 (k : Nat) : wcC7 (vecNC7 (k + 1)) ∉ setC7 k := by
  intro h
  simp only [setC7, List.mem_map, List.mem_range] at h
  obtain ⟨i, hi, heq⟩ := h
  have := vecNC7_inj _ _ (wcC7_inj heq)
  omega

theorem setC7_succ (k : Nat) :
    setC7 k ++ [wcC7 (vecNC7 (k + 1))] = setC7 (k + 1) := by
  simp [setC7, List.range_succ]

theorem elabLoop_stepC7 (fuel k : Nat) :
    elabLoop progC7 (fuel + 1) (setC7 k) [wcC7 (vecNC7 k)] =
      elabLoop progC7 fuel (setC7 (k + 1)) [wcC7 (vecNC7 (k + 1))] := by
  have h1 : elabLoop progC7 (fuel + 1) (setC7 k) [wcC7 (vecNC7 k)] =
      (let pushed := elabFold [.Ty (vecNC7 k)] [wcC7 (vecTyC7 (.Var 0))] (setC7 k, []);
       elabLoop progC7 fuel pushed.1 pushed.2) := rfl
  rw [h1]
  have h2 : elabFold [.Ty (vecNC7 k)] [wcC7 (vecTyC7 (.Var 0))] (setC7 k, []) =
      pushClause (setC7 k) [] (wcC7 (vecNC7 (k + 1))) := by
    show pushClause (setC7 k) []
        (substWhereClause [.Ty (vecNC7 k)] (wcC7 (vecTyC7 (.Var 0)))) =
      pushClause (setC7 k) [] (wcC7 (vecNC7 (k + 1)))
    rw [substC7]
    rfl
  rw [h2]
  have h3 : pushClause (setC7 k) [] (wcC7 (vecNC7 (k + 1))) =
      (setC7 (k + 1), [wcC7 (vecNC7 (k + 1))]) := by
    simp only [pushClause]
    rw [if_neg (notMemC7 k), setC7_succ]
  rw [h3]

theorem elabLoop_badC7 : ∀ fuel k,
    elabLoop progC7 fuel (setC7 k) [wcC7 (vecNC7 k)] = none := by
  intro fuel
  induction fuel with
  | zero => intro k; exact elabLoop_zero _ _ _
  | succ fuel ih => intro k; rw [elabLoop_stepC7]; exact ih (k + 1)

/-- C7 counterexample: elaborating the environment `{ Vec^0: Foo }` under
the program `trait Foo where Vec<Self>: Foo` never reaches a fixed point —
each worklist step pushes the strictly larger clause `Vec^(k+1): Foo`, so
no fuel suffices: the source worklist loops forever on this input. -/
theorem C7_counterexample :
    ¬ ∃ fuel S,
      Environment.elaborated_clauses ⟨0, [wcC7 (vecNC7 0)]⟩ progC7 fuel = some S := by
  rintro ⟨fuel, S, h⟩
  have hbase : Environment.elaborated_clauses ⟨0, [wcC7 (vecNC7 0)]⟩ progC7 fuel =
      elabLoop progC7 fuel (setC7 0) [wcC7 (vecNC7 0)] := by
    simp [Environment.elaborated_clauses, setC7, List.range_succ, List.range_zero]
  rw [hbase, elabLoop_badC7] at h
  exact Option.noConfusion h
/-- C7 (amended): whenever the worklist of `Environment::elaborated_clauses`
reaches its fixed point, the returned set `S` contains every clause of
`env.clauses`, is closed under the trait-implied rule and the
projection-implies-impl rule, and is least: every predicate containing
`env.clauses` and closed under the two rules holds of all of `S`.  The
original claim's final conjunct — termination for every finite program —
is false (see the counterexample): `trait Foo where Vec<Self>: Foo`
makes the worklist grow forever. -/
theorem C7_elaborated_clauses_least_closure
    (env : Environment) (prog : Program) (fuel : Nat) (S : List WhereClause)
    (h : env.elaborated_clauses prog fuel = some S) :
    (∀ c ∈ env.clauses, c ∈ S) ∧
    (∀ tr td, WhereClause.Implemented tr ∈ S →
      prog.trait_data.lookup tr.trait_id = some td →
      ∀ w ∈ td.binders.value.where_clauses,
        substWhereClause tr.parameters w ∈ S) ∧
    (∀ n atd tps ops, WhereClause.Normalize n ∈ S →
      prog.split_projection n.projection = some (atd, tps, ops) →
      WhereClause.Implemented ⟨atd.trait_id, tps⟩ ∈ S) ∧
    (∀ T : WhereClause → Prop,
      (∀ c ∈ env.clauses, T c) →
      (∀ tr td, T (.Implemented tr) →
        prog.trait_data.lookup tr.trait_id = some td →
        ∀ w ∈ td.binders.value.where_clauses,
          T (substWhereClause tr.parameters w)) →
      (∀ n atd tps ops, T (.Normalize n) →
        prog.split_projection n.projection = some (atd, tps, ops) →
        T (.Implemented ⟨atd.trait_id, tps⟩)) →
      ∀ c ∈ S, T c) := by
  have hloop : elabLoop prog fuel env.clauses.dedup env.clauses.dedup = some S := h
  have hinv : ElabInv prog env.clauses.dedup env.clauses.dedup env.clauses.dedup :=
    ⟨fun c hc => hc, fun c hc => hc, fun c hc => ElabDeriv.base c hc,
     fun c hc => Or.inl hc⟩
  obtain ⟨hbase, hclosed, hderiv⟩ :=
    elabLoop_correct prog env.clauses.dedup fuel env.clauses.dedup
      env.clauses.dedup S hinv hloop
  refine ⟨?_, ?_, ?_, ?_⟩
  · intro c hc
    exact hbase c (List.mem_dedup.mpr hc)
  · intro tr td hmem hl w hw
    exact hclosed _ hmem td hl w hw
  · intro n atd tps ops hmem hsp
    exact hclosed _ hmem atd tps ops hsp
  · intro T hTbase hTimpl hTnorm c hc
    refine elabDeriv_le T ?_ hTimpl hTnorm c (hderiv c hc)
    intro x hx
    exact hTbase x (List.mem_dedup.mp hx)

/-- C7 witness environment clause: `i32: Bar` for a trait `Bar` with no
where-clauses. -/
def wcW : WhereClause := .Implemented ⟨1, [.Ty (.Apply (.ItemId 50) [])]⟩

/-- C7 witness program: `trait Bar` with an empty where-clause list. -/
def progW : Program := ⟨[(1, ⟨0, ⟨[.Ty ()], ⟨⟨1, [.Ty (.Var 0)]⟩, []⟩⟩⟩)], []⟩

theorem C7_elaborated_clauses_least_closure_witness :
    wcW ∈ [wcW] :=
  (C7_elaborated_clauses_least_closure ⟨0, [wcW]⟩ progW 2 [wcW] (by rfl)).1
    wcW (List.mem_cons_self _ _)
theorem findIdx_mem : ∀ (vars : List Nat) (v : Nat), v ∈ vars →
    (findIdx vars v).1 < vars.length ∧ (findIdx vars v).2 = vars
  | x :: xs, v, h => by
      by_cases hx : x = v
      · simp [findIdx, hx]
      · have hv : v ∈ xs := by
          rcases List.mem_cons.mp h with h1 | h1
          · exact absurd h1.symm hx
          · exact h1
        obtain ⟨h1, h2⟩ := findIdx_mem xs v hv
        simp only [findIdx, if_neg hx, List.length_cons]
        exact ⟨Nat.succ_lt_succ h1, by rw [h2]⟩

theorem findIdx_not_mem : ∀ (vars : List Nat) (v : Nat), v ∉ vars →
    findIdx vars v = (vars.length, vars ++ [v])
  | [], v, _ => rfl
  | x :: xs, v, h => by
      have hx : ¬ x = v := fun he => h (he ▸ List.mem_cons_self x xs)
      have hv : v ∉ xs := fun hm => h (List.mem_cons_of_mem x hm)
      simp only [findIdx, if_neg hx, findIdx_not_mem xs v hv, List.length_cons,
        List.cons_append]

/-- The sequence of first occurrences of a list: each element at its
first appearance, later duplicates dropped. -/
def firstOcc : List Nat → List Nat
  | [] => []
  | x :: xs => x :: (firstOcc xs).filter (fun y => y != x)

theorem mem_firstOcc (y : Nat) : ∀ l : List Nat, y ∈ firstOcc l ↔ y ∈ l
  | [] => by simp [firstOcc]
  | x :: xs => by
      simp only [firstOcc, List.mem_cons, List.mem_filter, bne_iff_ne, ne_eq,
        mem_firstOcc y xs]
      by_cases h : y = x
      · simp [h]
      · simp [h]

theorem firstOcc_append_not_mem (x : Nat) :
    ∀ pre : List Nat, x ∉ pre → firstOcc (pre ++ [x]) = firstOcc pre ++ [x]
  | [], _ => rfl
  | a :: pre', h => by
      have hxa : ¬ x = a := fun he => h (he ▸ List.mem_cons_self a pre')
      have hx : x ∉ pre' := fun hm => h (List.mem_cons_of_mem a hm)
      show a :: (firstOcc (pre' ++ [x])).filter (fun y => y != a) =
        (a :: (firstOcc pre').filter (fun y => y != a)) ++ [x]
      rw [firstOcc_append_not_mem x pre' hx, List.filter_append]
      simp [List.filter_cons, bne_iff_ne, hxa]

theorem firstOcc_append_mem (x : Nat) :
    ∀ pre : List Nat, x ∈ pre → firstOcc (pre ++ [x]) = firstOcc pre
  | a :: pre', h => by
      by_cases hx : x ∈ pre'
      · show a :: (firstOcc (pre' ++ [x])).filter (fun y => y != a) =
          a :: (firstOcc pre').filter (fun y => y != a)
        rw [firstOcc_append_mem x pre' hx]
      · have hxa : x = a := by
          rcases List.mem_cons.mp h with h1 | h1
          · exact h1
          · exact absurd h1 hx
        subst hxa
        show x :: (firstOcc (pre' ++ [x])).filter (fun y => y != x) =
          x :: (firstOcc pre').filter (fun y => y != x)
        rw [firstOcc_append_not_mem x pre' hx, List.filter_append]
        simp [List.filter_cons]

/-- Free lifetime variables of a `Lifetime` under `b` crossed binders,
as shallow (binder-relative) indices. -/
def ltFree (b : Nat) : Lifetime → List Nat
  | .Var d => if b ≤ d then [d - b] else []
  | .ForAll _ => []

/-- Free crate variables of a `Krate` under `b` crossed binders. -/
def ktFree (b : Nat) : Krate → List Nat
  | .Var d => if b ≤ d then [d - b] else []
  | .Id _ => []

mutual
/-- The free variables of a `Ty` under `b` crossed binders, per sort
(types, lifetimes, crates), each as binder-relative indices in
left-to-right walk order. -/
def tyFree (b : Nat) : Ty → List Nat × List Nat × List Nat
  | .Var d => (if b ≤ d then [d - b] else [], [], [])
  | .Apply _ ps => paramsFree b ps
  | .Projection _ ps => paramsFree b ps
  | .ForAll n t => tyFree (b + n) t

/-- Per-sort free variables of a parameter list, in walk order. -/
def paramsFree (b : Nat) : List Parameter → List Nat × List Nat × List Nat
  | [] => ([], [], [])
  | p :: ps =>
    let x := paramFree b p
    let y := paramsFree b ps
    (x.1 ++ y.1, x.2.1 ++ y.2.1, x.2.2 ++ y.2.2)

/-- Per-sort free variables of a single parameter. -/
def paramFree (b : Nat) : Parameter → List Nat × List Nat × List Nat
  | .Ty t => tyFree b t
  | .Lifetime l => ([], ltFree b l, [])
  | .Krate c => ([], [], ktFree b c)
end

theorem ltFree_shift (k b : Nat) (l : Lifetime) :
    ltFree (b + k) (shiftLifetime k b l) = ltFree b l := by
  cases l with
  | Var d =>
      by_cases h : b ≤ d
      · have h2 : b + k ≤ d + k := Nat.add_le_add_right h k
        simp [shiftLifetime, ltFree, h, h2, Nat.add_sub_add_right]
      · have h2 : ¬ b + k ≤ d := fun hc => h (le_trans (Nat.le_add_right b k) hc)
        simp [shiftLifetime, ltFree, h, h2]
  | ForAll u => rfl

theorem ktFree_shift (k b : Nat) (c : Krate) :
    ktFree (b + k) (shiftKrate k b c) = ktFree b c := by
  cases c with
  | Var d =>
      by_cases h : b ≤ d
      · have h2 : b + k ≤ d + k := Nat.add_le_add_right h k
        simp [shiftKrate, ktFree, h, h2, Nat.add_sub_add_right]
      · have h2 : ¬ b + k ≤ d := fun hc => h (le_trans (Nat.le_add_right b k) hc)
        simp [shiftKrate, ktFree, h, h2]
  | Id i => rfl

mutual
theorem tyFree_shift (k : Nat) : ∀ (b : Nat) (t : Ty),
    tyFree (b + k) (shiftTy k b t) = tyFree b t
  | b, .Var d => by
      by_cases h : b ≤ d
      · have h2 : b + k ≤ d + k := Nat.add_le_add_right h k
        simp [shiftTy, tyFree, h, h2, Nat.add_sub_add_right]
      · have h2 : ¬ b + k ≤ d := fun hc => h (le_trans (Nat.le_add_right b k) hc)
        simp [shiftTy, tyFree, h, h2]
  | b, .Apply n ps => by simp [shiftTy, tyFree, paramsFree_shift k b ps]
  | b, .Projection i ps => by simp [shiftTy, tyFree, paramsFree_shift k b ps]
  | b, .ForAll n t => by
      have := tyFree_shift k (b + n) t
      simp only [shiftTy, tyFree]
      rw [show b + k + n = b + n + k by omega, this]

theorem paramsFree_shift (k : Nat) : ∀ (b : Nat) (ps : List Parameter),
    paramsFree (b + k) (shiftParams k b ps) = paramsFree b ps
  | b, [] => rfl
  | b, p :: ps => by
      simp only [shiftParams, paramsFree, paramFree_shift k b p,
        paramsFree_shift k b ps]

theorem paramFree_shift (k : Nat) : ∀ (b : Nat) (p : Parameter),
    paramFree (b + k) (shiftParam k b p) = paramFree b p
  | b, .Ty t => by simp only [shiftParam, paramFree, tyFree_shift k b t]
  | b, .Lifetime l => by simp only [shiftParam, paramFree, ltFree_shift k b l]
  | b, .Krate c => by simp only [shiftParam, paramFree, ktFree_shift k b c]
end

theorem tyFree_shift0 (k : Nat) (t : Ty) : tyFree k (shiftTy k 0 t) = tyFree 0 t := by
  have := tyFree_shift k 0 t
  rwa [Nat.zero_add] at this

theorem ltFree_shift0 (k : Nat) (l : Lifetime) :
    ltFree k (shiftLifetime k 0 l) = ltFree 0 l := by
  have := ltFree_shift k 0 l
  rwa [Nat.zero_add] at this

theorem ktFree_shift0 (k : Nat) (c : Krate) :
    ktFree k (shiftKrate k 0 c) = ktFree 0 c := by
  have := ktFree_shift k 0 c
  rwa [Nat.zero_add] at this

/-- One canonicalization step extends the seen-roots state so that, per
sort, appending the walk order of the output's free variables to any
walk history realizing a dense prefix again realizes a dense prefix. -/
def FreeStep (st st' : QState) (L : List Nat × List Nat × List Nat) : Prop :=
  ∀ preT preL preK : List Nat,
    firstOcc preT = List.range st.tys.length →
    firstOcc preL = List.range st.lifetimes.length →
    firstOcc preK = List.range st.krates.length →
    firstOcc (preT ++ L.1) = List.range st'.tys.length ∧
    firstOcc (preL ++ L.2.1) = List.range st'.lifetimes.length ∧
    firstOcc (preK ++ L.2.2) = List.range st'.krates.length

theorem freeStep_refl_nil (st : QState) : FreeStep st st ([], [], []) := by
  intro preT preL preK hT hL hK
  refine ⟨?_, ?_, ?_⟩ <;> simpa

theorem freeStep_comp {st st' st'' : QState} {L1 L2 : List Nat × List Nat × List Nat}
    (h1 : FreeStep st st' L1) (h2 : FreeStep st' st'' L2) :
    FreeStep st st'' (L1.1 ++ L2.1, L1.2.1 ++ L2.2.1, L1.2.2 ++ L2.2.2) := by
  intro preT preL preK hT hL hK
  obtain ⟨a1, a2, a3⟩ := h1 preT preL preK hT hL hK
  obtain ⟨b1, b2, b3⟩ := h2 (preT ++ L1.1) (preL ++ L1.2.1) (preK ++ L1.2.2) a1 a2 a3
  refine ⟨?_, ?_, ?_⟩
  · rw [← List.append_assoc]; exact b1
  · rw [← List.append_assoc]; exact b2
  · rw [← List.append_assoc]; exact b3

theorem freeStep_var_core (vars : List Nat) (root : Nat) (pre : List Nat)
    (hpre : firstOcc pre = List.range vars.length) :
    firstOcc (pre ++ [(findIdx vars root).1]) =
      List.range (findIdx vars root).2.length := by
  by_cases h : root ∈ vars
  · obtain ⟨hlt, heq⟩ := findIdx_mem vars root h
    rw [heq]
    have hmem : (findIdx vars root).1 ∈ pre := by
      have h1 : (findIdx vars root).1 ∈ firstOcc pre := by
        rw [hpre]; exact List.mem_range.mpr hlt
      exact (mem_firstOcc _ pre).mp h1
    rw [firstOcc_append_mem _ pre hmem, hpre]
  · rw [findIdx_not_mem vars root h]
    have hnm : vars.length ∉ pre := by
      intro hm
      have h1 := (mem_firstOcc _ pre).mpr hm
      rw [hpre] at h1
      exact absurd (List.mem_range.mp h1) (lt_irrefl _)
    rw [firstOcc_append_not_mem _ pre hnm, hpre]
    simp [List.range_succ]

theorem unboundUniverses_length {α : Type} (t : UnifTable α) :
    ∀ vs us, unboundUniverses t vs = some us → us.length = vs.length
  | [], us, h => by
      simp only [unboundUniverses, Option.some.injEq] at h
      rw [← h]
  | v :: vs, us, h => by
      simp only [unboundUniverses] at h
      split at h
      · exact Option.noConfusion h
      · split at h
        · exact Option.noConfusion h
        next us' heq =>
          simp only [Option.some.injEq] at h
          rw [← h]
          simpa using unboundUniverses_length t vs us' heq
theorem canon_ty_zero (tbl : InferenceTable) (st : QState) (binders : Nat) :
    ∀ t, canon_ty 0 tbl st binders t = none
  | .Var _ => rfl
  | .Apply _ _ => rfl
  | .Projection _ _ => rfl
  | .ForAll _ _ => rfl

theorem canon_params_zero (tbl : InferenceTable) (st : QState) (binders : Nat) :
    ∀ ps, canon_params 0 tbl st binders ps = none
  | [] => rfl
  | _ :: _ => rfl

theorem canon_param_zero (tbl : InferenceTable) (st : QState) (binders : Nat) :
    ∀ p, canon_param 0 tbl st binders p = none
  | .Ty _ => rfl
  | .Lifetime _ => rfl
  | .Krate _ => rfl

theorem canon_lifetime_zero (tbl : InferenceTable) (st : QState) (binders : Nat) :
    ∀ l, canon_lifetime 0 tbl st binders l = none
  | .Var _ => rfl
  | .ForAll _ => rfl

theorem canon_krate_zero (tbl : InferenceTable) (st : QState) (binders : Nat) :
    ∀ c, canon_krate 0 tbl st binders c = none
  | .Var _ => rfl
  | .Id _ => rfl

theorem canon_ty_var_succ (fuel : Nat) (tbl : InferenceTable) (st : QState)
    (binders d : Nat) :
    canon_ty (fuel + 1) tbl st binders (.Var d) =
      (if d < binders then some (st, .Var d)
       else
         match tbl.probe_var (d - binders) with
         | some ty =>
             match canon_ty fuel tbl st 0 ty with
             | none => none
             | some (st', t') => some (st', shiftTy binders 0 t')
         | none =>
             let r := findIdx st.tys (tbl.ty_unify.find (d - binders))
             some ({ st with tys := r.2 }, .Var (r.1 + binders))) := rfl

theorem canon_ty_apply_succ (fuel : Nat) (tbl : InferenceTable) (st : QState)
    (binders : Nat) (name : TypeName) (ps : List Parameter) :
    canon_ty (fuel + 1) tbl st binders (.Apply name ps) =
      (match canon_params fuel tbl st binders ps with
       | none => none
       | some (st', ps') => some (st', .Apply name ps')) := rfl

theorem canon_ty_proj_succ (fuel : Nat) (tbl : InferenceTable) (st : QState)
    (binders i : Nat) (ps : List Parameter) :
    canon_ty (fuel + 1) tbl st binders (.Projection i ps) =
      (match canon_params fuel tbl st binders ps with
       | none => none
       | some (st', ps') => some (st', .Projection i ps')) := rfl

theorem canon_ty_forall_succ (fuel : Nat) (tbl : InferenceTable) (st : QState)
    (binders n : Nat) (t : Ty) :
    canon_ty (fuel + 1) tbl st binders (.ForAll n t) =
      (match canon_ty fuel tbl st (binders + n) t with
       | none => none
       | some (st', t') => some (st', .ForAll n t')) := rfl

theorem canon_params_nil_succ (fuel : Nat) (tbl : InferenceTable) (st : QState)
    (binders : Nat) :
    canon_params (fuel + 1) tbl st binders [] = some (st, []) := rfl

theorem canon_params_cons_succ (fuel : Nat) (tbl : InferenceTable) (st : QState)
    (binders : Nat) (p : Parameter) (ps : List Parameter) :
    canon_params (fuel + 1) tbl st binders (p :: ps) =
      (match canon_param fuel tbl st binders p with
       | none => none
       | some (st', p') =>
         match canon_params fuel tbl st' binders ps with
         | none => none
         | some (st'', ps') => some (st'', p' :: ps')) := rfl

theorem canon_param_ty_succ (fuel : Nat) (tbl : InferenceTable) (st : QState)
    (binders : Nat) (t : Ty) :
    canon_param (fuel + 1) tbl st binders (.Ty t) =
      (match canon_ty fuel tbl st binders t with
       | none => none
       | some (st', t') => some (st', .Ty t')) := rfl

theorem canon_param_lifetime_succ (fuel : Nat) (tbl : InferenceTable) (st : QState)
    (binders : Nat) (l : Lifetime) :
    canon_param (fuel + 1) tbl st binders (.Lifetime l) =
      (match canon_lifetime fuel tbl st binders l with
       | none => none
       | some (st', l') => some (st', .Lifetime l')) := rfl

theorem canon_param_krate_succ (fuel : Nat) (tbl : InferenceTable) (st : QState)
    (binders : Nat) (c : Krate) :
    canon_param (fuel + 1) tbl st binders (.Krate c) =
      (match canon_krate fuel tbl st binders c with
       | none => none
       | some (st', c') => some (st', .Krate c')) := rfl

theorem canon_lifetime_var_succ (fuel : Nat) (tbl : InferenceTable) (st : QState)
    (binders d : Nat) :
    canon_lifetime (fuel + 1) tbl st binders (.Var d) =
      (if d < binders then some (st, .Var d)
       else
         match tbl.probe_lifetime_var (d - binders) with
         | some l =>
             match canon_lifetime fuel tbl st 0 l with
             | none => none
             | some (st', l') => some (st', shiftLifetime binders 0 l')
         | none =>
             let r := findIdx st.lifetimes (tbl.lifetime_unify.find (d - binders))
             some ({ st with lifetimes := r.2 }, .Var (r.1 + binders))) := rfl

theorem canon_lifetime_forall_succ (fuel : Nat) (tbl : InferenceTable) (st : QState)
    (binders u : Nat) :
    canon_lifetime (fuel + 1) tbl st binders (.ForAll u) = some (st, .ForAll u) := rfl

theorem canon_krate_var_succ (fuel : Nat) (tbl : InferenceTable) (st : QState)
    (binders d : Nat) :
    canon_krate (fuel + 1) tbl st binders (.Var d) =
      (if d < binders then some (st, .Var d)
       else
         match tbl.probe_krate_var (d - binders) with
         | some k =>
             match canon_krate fuel tbl st 0 k with
             | none => none
             | some (st', k') => some (st', shiftKrate binders 0 k')
         | none =>
             let r := findIdx st.krates (tbl.krate_unify.find (d - binders))
             some ({ st with krates := r.2 }, .Var (r.1 + binders))) := rfl

theorem canon_krate_id_succ (fuel : Nat) (tbl : InferenceTable) (st : QState)
    (binders i : Nat) :
    canon_krate (fuel + 1) tbl st binders (.Id i) = some (st, .Id i) := rfl
theorem canon_free_step : ∀ (fuel : Nat) (tbl : InferenceTable),
    (∀ st binders t st' t', canon_ty fuel tbl st binders t = some (st', t') →
      FreeStep st st' (tyFree binders t')) ∧
    (∀ st binders ps st' ps', canon_params fuel tbl st binders ps = some (st', ps') →
      FreeStep st st' (paramsFree binders ps')) ∧
    (∀ st binders p st' p', canon_param fuel tbl st binders p = some (st', p') →
      FreeStep st st' (paramFree binders p')) ∧
    (∀ st binders l st' l', canon_lifetime fuel tbl st binders l = some (st', l') →
      FreeStep st st' ([], ltFree binders l', [])) ∧
    (∀ st binders c st' c', canon_krate fuel tbl st binders c = some (st', c') →
      FreeStep st st' ([], [], ktFree binders c')) := by
  intro fuel
  induction fuel with
  | zero =>
      intro tbl
      refine ⟨?_, ?_, ?_, ?_, ?_⟩ <;> intro st binders x st' x' h
      · rw [canon_ty_zero] at h; exact Option.noConfusion h
      · rw [canon_params_zero] at h; exact Option.noConfusion h
      · rw [canon_param_zero] at h; exact Option.noConfusion h
      · rw [canon_lifetime_zero] at h; exact Option.noConfusion h
      · rw [canon_krate_zero] at h; exact Option.noConfusion h
  | succ fuel ih =>
      intro tbl
      obtain ⟨ihT, ihPs, ihP, ihL, ihK⟩ := ih tbl
      refine ⟨?_, ?_, ?_, ?_, ?_⟩
      · intro st binders t st' t' h
        cases t with
        | Var d =>
            rw [canon_ty_var_succ] at h
            split at h
            next hd =>
              simp only [Option.some.injEq, Prod.mk.injEq] at h
              obtain ⟨rfl, rfl⟩ := h
              have hnb : ¬ binders ≤ d := by omega
              simpa [tyFree, hnb] using freeStep_refl_nil st
            next hd =>
              split at h
              next ty hprobe =>
                split at h
                · exact Option.noConfusion h
                next st1 t1 hcanon =>
                  simp only [Option.some.injEq, Prod.mk.injEq] at h
                  obtain ⟨rfl, rfl⟩ := h
                  rw [tyFree_shift0]
                  exact ihT st 0 ty st1 t1 hcanon
              next hprobe =>
                simp only [Option.some.injEq, Prod.mk.injEq] at h
                obtain ⟨rfl, rfl⟩ := h
                intro preT preL preK hT hL hK
                have hb : binders ≤ (findIdx st.tys (tbl.ty_unify.find (d - binders))).1 + binders :=
                  Nat.le_add_left _ _
                refine ⟨?_, ?_, ?_⟩
                · simp only [tyFree, if_pos hb, Nat.add_sub_cancel]
                  exact freeStep_var_core st.tys (tbl.ty_unify.find (d - binders)) preT hT
                · simpa [tyFree] using hL
                · simpa [tyFree] using hK
        | Apply name ps =>
            rw [canon_ty_apply_succ] at h
            split at h
            · exact Option.noConfusion h
            next st1 ps1 hps =>
              simp only [Option.some.injEq, Prod.mk.injEq] at h
              obtain ⟨rfl, rfl⟩ := h
              exact ihPs st binders ps st1 ps1 hps
        | Projection i ps =>
            rw [canon_ty_proj_succ] at h
            split at h
            · exact Option.noConfusion h
            next st1 ps1 hps =>
              simp only [Option.some.injEq, Prod.mk.injEq] at h
              obtain ⟨rfl, rfl⟩ := h
              exact ihPs st binders ps st1 ps1 hps
        | ForAll n t =>
            rw [canon_ty_forall_succ] at h
            split at h
            · exact Option.noConfusion h
            next st1 t1 hc =>
              simp only [Option.some.injEq, Prod.mk.injEq] at h
              obtain ⟨rfl, rfl⟩ := h
              exact ihT st (binders + n) t st1 t1 hc
      · intro st binders ps st' ps' h
        cases ps with
        | nil =>
            rw [canon_params_nil_succ] at h
            simp only [Option.some.injEq, Prod.mk.injEq] at h
            obtain ⟨rfl, rfl⟩ := h
            exact freeStep_refl_nil st
        | cons p ps =>
            rw [canon_params_cons_succ] at h
            split at h
            · exact Option.noConfusion h
            next st1 p1 hp =>
              split at h
              · exact Option.noConfusion h
              next st2 ps1 hps =>
                simp only [Option.some.injEq, Prod.mk.injEq] at h
                obtain ⟨rfl, rfl⟩ := h
                exact freeStep_comp (ihP st binders p st1 p1 hp)
                  (ihPs st1 binders ps st2 ps1 hps)
      · intro st binders p st' p' h
        cases p with
        | Ty t =>
            rw [canon_param_ty_succ] at h
            split at h
            · exact Option.noConfusion h
            next st1 t1 hc =>
              simp only [Option.some.injEq, Prod.mk.injEq] at h
              obtain ⟨rfl, rfl⟩ := h
              exact ihT st binders t st1 t1 hc
        | Lifetime l =>
            rw [canon_param_lifetime_succ] at h
            split at h
            · exact Option.noConfusion h
            next st1 l1 hc =>
              simp only [Option.some.injEq, Prod.mk.injEq] at h
              obtain ⟨rfl, rfl⟩ := h
              exact ihL st binders l st1 l1 hc
        | Krate c =>
            rw [canon_param_krate_succ] at h
            split at h
            · exact Option.noConfusion h
            next st1 c1 hc =>
              simp only [Option.some.injEq, Prod.mk.injEq] at h
              obtain ⟨rfl, rfl⟩ := h
              exact ihK st binders c st1 c1 hc
      · intro st binders l st' l' h
        cases l with
        | Var d =>
            rw [canon_lifetime_var_succ] at h
            split at h
            next hd =>
              simp only [Option.some.injEq, Prod.mk.injEq] at h
              obtain ⟨rfl, rfl⟩ := h
              have hnb : ¬ binders ≤ d := by omega
              simpa [ltFree, hnb] using freeStep_refl_nil st
            next hd =>
              split at h
              next lt0 hprobe =>
                split at h
                · exact Option.noConfusion h
                next st1 l1 hcanon =>
                  simp only [Option.some.injEq, Prod.mk.injEq] at h
                  obtain ⟨rfl, rfl⟩ := h
                  rw [ltFree_shift0]
                  exact ihL st 0 lt0 st1 l1 hcanon
              next hprobe =>
                simp only [Option.some.injEq, Prod.mk.injEq] at h
                obtain ⟨rfl, rfl⟩ := h
                intro preT preL preK hT hL hK
                have hb : binders ≤
                    (findIdx st.lifetimes (tbl.lifetime_unify.find (d - binders))).1 + binders :=
                  Nat.le_add_left _ _
                refine ⟨?_, ?_, ?_⟩
                · simpa using hT
                · simp only [ltFree, if_pos hb, Nat.add_sub_cancel]
                  exact freeStep_var_core st.lifetimes
                    (tbl.lifetime_unify.find (d - binders)) preL hL
                · simpa using hK
        | ForAll u =>
            rw [canon_lifetime_forall_succ] at h
            simp only [Option.some.injEq, Prod.mk.injEq] at h
            obtain ⟨rfl, rfl⟩ := h
            simpa [ltFree] using freeStep_refl_nil st
      · intro st binders c st' c' h
        cases c with
        | Var d =>
            rw [canon_krate_var_succ] at h
            split at h
            next hd =>
              simp only [Option.some.injEq, Prod.mk.injEq] at h
              obtain ⟨rfl, rfl⟩ := h
              have hnb : ¬ binders ≤ d := by omega
              simpa [ktFree, hnb] using freeStep_refl_nil st
            next hd =>
              split at h
              next kt0 hprobe =>
                split at h
                · exact Option.noConfusion h
                next st1 c1 hcanon =>
                  simp only [Option.some.injEq, Prod.mk.injEq] at h
                  obtain ⟨rfl, rfl⟩ := h
                  rw [ktFree_shift0]
                  exact ihK st 0 kt0 st1 c1 hcanon
              next hprobe =>
                simp only [Option.some.injEq, Prod.mk.injEq] at h
                obtain ⟨rfl, rfl⟩ := h
                intro preT preL preK hT hL hK
                have hb : binders ≤
                    (findIdx st.krates (tbl.krate_unify.find (d - binders))).1 + binders :=
                  Nat.le_add_left _ _
                refine ⟨?_, ?_, ?_⟩
                · simpa using hT
                · simpa using hL
                · simp only [ktFree, if_pos hb, Nat.add_sub_cancel]
                  exact freeStep_var_core st.krates
                    (tbl.krate_unify.find (d - binders)) preK hK
        | Id i =>
            rw [canon_krate_id_succ] at h
            simp only [Option.some.injEq, Prod.mk.injEq] at h
            obtain ⟨rfl, rfl⟩ := h
            simpa [ktFree] using freeStep_refl_nil st
/-- C5: canonicalization shape.  Whenever `make_query` succeeds, each
sort's free variables in the canonical value — read binder-relatively,
i.e. each `Var(i + binders)` under `binders` crossed binders counts as
index `i` — form a dense prefix `0, 1, …, n-1` in order of first
appearance during the left-to-right walk (`firstOcc … = range n`), and
the query's binder list is the flat concatenation: first the type-root
universes in order of first appearance, then the lifetime ones, then
the crate ones, each count matching its sort's number of distinct
canonical variables, the universes being read off the still-unbound
union-find roots in seen order. -/
theorem C5_make_query_dense (fuel : Nat) (tbl : InferenceTable) (t : Ty)
    (q : Query Ty) (h : tbl.make_query fuel t = some q) :
    ∃ nT nL nK : Nat,
      firstOcc (tyFree 0 q.value).1 = List.range nT ∧
      firstOcc (tyFree 0 q.value).2.1 = List.range nL ∧
      firstOcc (tyFree 0 q.value).2.2 = List.range nK ∧
      ∃ ust usl usk : List Nat,
        ust.length = nT ∧ usl.length = nL ∧ usk.length = nK ∧
        q.binders = ust.map ParameterKind.Ty ++ usl.map ParameterKind.Lifetime ++
          usk.map ParameterKind.Krate ∧
        ∃ st : QState,
          canon_ty fuel tbl QState.empty 0 t = some (st, q.value) ∧
          unboundUniverses tbl.ty_unify st.tys = some ust ∧
          unboundUniverses tbl.lifetime_unify st.lifetimes = some usl ∧
          unboundUniverses tbl.krate_unify st.krates = some usk := by
  unfold InferenceTable.make_query at h
  split at h
  · exact Option.noConfusion h
  next st v hcanon =>
    unfold into_binders at h
    split at h
    · exact Option.noConfusion h
    next qb hqb =>
      simp only [Option.some.injEq] at h
      subst h
      split at hqb
      · exact Option.noConfusion hqb
      next ust hust =>
        split at hqb
        · exact Option.noConfusion hqb
        next usl husl =>
          split at hqb
          · exact Option.noConfusion hqb
          next usk husk =>
            simp only [Option.some.injEq] at hqb
            subst hqb
            have hstep := (canon_free_step fuel tbl).1 QState.empty 0 t st v hcanon
            obtain ⟨h1, h2, h3⟩ := hstep [] [] [] rfl rfl rfl
            exact ⟨st.tys.length, st.lifetimes.length, st.krates.length,
              h1, h2, h3, ust, usl, usk,
              unboundUniverses_length _ _ _ hust,
              unboundUniverses_length _ _ _ husl,
              unboundUniverses_length _ _ _ husk, rfl, st, hcanon, hust, husl, husk⟩

theorem C5_make_query_dense_witness :
    ∃ nT nL nK : Nat,
      firstOcc (tyFree 0 (Query.mk (Ty.Apply (.ItemId 7) [.Ty (.Var 0), .Ty (.Var 0)])
          [ParameterKind.Ty 0]).value).1 = List.range nT ∧
      firstOcc (tyFree 0 (Query.mk (Ty.Apply (.ItemId 7) [.Ty (.Var 0), .Ty (.Var 0)])
          [ParameterKind.Ty 0]).value).2.1 = List.range nL ∧
      firstOcc (tyFree 0 (Query.mk (Ty.Apply (.ItemId 7) [.Ty (.Var 0), .Ty (.Var 0)])
          [ParameterKind.Ty 0]).value).2.2 = List.range nK ∧
      ∃ ust usl usk : List Nat,
        ust.length = nT ∧ usl.length = nL ∧ usk.length = nK ∧
        (Query.mk (Ty.Apply (.ItemId 7) [.Ty (.Var 0), .Ty (.Var 0)])
          [ParameterKind.Ty 0]).binders =
          ust.map ParameterKind.Ty ++ usl.map ParameterKind.Lifetime ++
          usk.map ParameterKind.Krate ∧
        ∃ st : QState,
          canon_ty 5 (InferenceTable.new.new_variable 0).2 QState.empty 0
            (Ty.Apply (.ItemId 7) [.Ty (.Var 0), .Ty (.Var 0)]) =
            some (st, (Query.mk (Ty.Apply (.ItemId 7) [.Ty (.Var 0), .Ty (.Var 0)])
              [ParameterKind.Ty 0]).value) ∧
          unboundUniverses (InferenceTable.new.new_variable 0).2.ty_unify st.tys =
            some ust ∧
          unboundUniverses (InferenceTable.new.new_variable 0).2.lifetime_unify
            st.lifetimes = some usl ∧
          unboundUniverses (InferenceTable.new.new_variable 0).2.krate_unify
            st.krates = some usk :=
  C5_make_query_dense 5 (InferenceTable.new.new_variable 0).2
    (Ty.Apply (.ItemId 7) [.Ty (.Var 0), .Ty (.Var 0)])
    (Query.mk (Ty.Apply (.ItemId 7) [.Ty (.Var 0), .Ty (.Var 0)]) [ParameterKind.Ty 0])
    rfl
/-- `Dense a L b`: walking the index list `L` with `a` indices already
seen, every element is either already seen (below the running count) or
exactly the next fresh index, and the count ends at `b`. -/
def Dense : Nat → List Nat → Nat → Prop
  | a, [], b => b = a
  | a, x :: L, b => (x < a ∧ Dense a L b) ∨ (x = a ∧ Dense (a + 1) L b)

theorem Dense.append_intro : ∀ {L1 : List Nat} {a c : Nat} {L2 : List Nat} {b : Nat},
    Dense a L1 c → Dense c L2 b → Dense a (L1 ++ L2) b
  | [], a, c, L2, b, h1, h2 => by
      have hc : c = a := h1
      subst hc
      exact h2
  | x :: L1, a, c, L2, b, h1, h2 => by
      rcases h1 with ⟨hx, hd⟩ | ⟨hx, hd⟩
      · exact Or.inl ⟨hx, Dense.append_intro hd h2⟩
      · exact Or.inr ⟨hx, Dense.append_intro hd h2⟩

theorem Dense.split : ∀ {L1 : List Nat} {a : Nat} {L2 : List Nat} {b : Nat},
    Dense a (L1 ++ L2) b → ∃ c, Dense a L1 c ∧ Dense c L2 b
  | [], a, L2, b, h => ⟨a, rfl, h⟩
  | x :: L1, a, L2, b, h => by
      rcases h with ⟨hx, hd⟩ | ⟨hx, hd⟩
      · obtain ⟨c, hc1, hc2⟩ := Dense.split hd
        exact ⟨c, Or.inl ⟨hx, hc1⟩, hc2⟩
      · obtain ⟨c, hc1, hc2⟩ := Dense.split hd
        exact ⟨c, Or.inr ⟨hx, hc1⟩, hc2⟩

theorem Dense.fun_eq : ∀ {L : List Nat} {a b b' : Nat},
    Dense a L b → Dense a L b' → b = b'
  | [], a, b, b', h, h' => by
      have hb : b = a := h
      have hb' : b' = a := h'
      omega
  | x :: L, a, b, b', h, h' => by
      rcases h with ⟨hx, hd⟩ | ⟨hx, hd⟩ <;> rcases h' with ⟨hx', hd'⟩ | ⟨hx', hd'⟩
      · exact Dense.fun_eq hd hd'
      · omega
      · omega
      · exact Dense.fun_eq hd hd'

theorem dense_var_core (vars : List Nat) (root : Nat) :
    Dense vars.length [(findIdx vars root).1] (findIdx vars root).2.length := by
  by_cases h : root ∈ vars
  · obtain ⟨hlt, heq⟩ := findIdx_mem vars root h
    rw [heq]
    exact Or.inl ⟨hlt, rfl⟩
  · rw [findIdx_not_mem vars root h]
    exact Or.inr ⟨rfl, by simp [Dense]⟩

/-- The `Dense` form of one canonicalization step: per sort, the walk
of the output's free variables is dense relative to the running
seen-roots counts. -/
def DStep (st st' : QState) (L : List Nat × List Nat × List Nat) : Prop :=
  Dense st.tys.length L.1 st'.tys.length ∧
  Dense st.lifetimes.length L.2.1 st'.lifetimes.length ∧
  Dense st.krates.length L.2.2 st'.krates.length

theorem dStep_refl_nil (st : QState) : DStep st st ([], [], []) := ⟨rfl, rfl, rfl⟩

theorem dStep_comp {st st' st'' : QState} {L1 L2 : List Nat × List Nat × List Nat}
    (h1 : DStep st st' L1) (h2 : DStep st' st'' L2) :
    DStep st st'' (L1.1 ++ L2.1, L1.2.1 ++ L2.2.1, L1.2.2 ++ L2.2.2) :=
  ⟨Dense.append_intro h1.1 h2.1, Dense.append_intro h1.2.1 h2.2.1,
   Dense.append_intro h1.2.2 h2.2.2⟩

theorem canon_dense_step : ∀ (fuel : Nat) (tbl : InferenceTable),
    (∀ st binders t st' t', canon_ty fuel tbl st binders t = some (st', t') →
      DStep st st' (tyFree binders t')) ∧
    (∀ st binders ps st' ps', canon_params fuel tbl st binders ps = some (st', ps') →
      DStep st st' (paramsFree binders ps')) ∧
    (∀ st binders p st' p', canon_param fuel tbl st binders p = some (st', p') →
      DStep st st' (paramFree binders p')) ∧
    (∀ st binders l st' l', canon_lifetime fuel tbl st binders l = some (st', l') →
      DStep st st' ([], ltFree binders l', [])) ∧
    (∀ st binders c st' c', canon_krate fuel tbl st binders c = some (st', c') →
      DStep st st' ([], [], ktFree binders c')) := by
  intro fuel
  induction fuel with
  | zero =>
      intro tbl
      refine ⟨?_, ?_, ?_, ?_, ?_⟩ <;> intro st binders x st' x' h
      · rw [canon_ty_zero] at h; exact Option.noConfusion h
      · rw [canon_params_zero] at h; exact Option.noConfusion h
      · rw [canon_param_zero] at h; exact Option.noConfusion h
      · rw [canon_lifetime_zero] at h; exact Option.noConfusion h
      · rw [canon_krate_zero] at h; exact Option.noConfusion h
  | succ fuel ih =>
      intro tbl
      obtain ⟨ihT, ihPs, ihP, ihL, ihK⟩ := ih tbl
      refine ⟨?_, ?_, ?_, ?_, ?_⟩
      · intro st binders t st' t' h
        cases t with
        | Var d =>
            rw [canon_ty_var_succ] at h
            split at h
            next hd =>
              simp only [Option.some.injEq, Prod.mk.injEq] at h
              obtain ⟨rfl, rfl⟩ := h
              have hnb : ¬ binders ≤ d := by omega
              simpa [DStep, tyFree, hnb] using dStep_refl_nil st
            next hd =>
              split at h
              next ty hprobe =>
                split at h
                · exact Option.noConfusion h
                next st1 t1 hcanon =>
                  simp only [Option.some.injEq, Prod.mk.injEq] at h
                  obtain ⟨rfl, rfl⟩ := h
                  rw [tyFree_shift0]
                  exact ihT st 0 ty st1 t1 hcanon
              next hprobe =>
                simp only [Option.some.injEq, Prod.mk.injEq] at h
                obtain ⟨rfl, rfl⟩ := h
                have hb : binders ≤
                    (findIdx st.tys (tbl.ty_unify.find (d - binders))).1 + binders :=
                  Nat.le_add_left _ _
                refine ⟨?_, rfl, rfl⟩
                simp only [tyFree, if_pos hb, Nat.add_sub_cancel]
                exact dense_var_core st.tys (tbl.ty_unify.find (d - binders))
        | Apply name ps =>
            rw [canon_ty_apply_succ] at h
            split at h
            · exact Option.noConfusion h
            next st1 ps1 hps =>
              simp only [Option.some.injEq, Prod.mk.injEq] at h
              obtain ⟨rfl, rfl⟩ := h
              exact ihPs st binders ps st1 ps1 hps
        | Projection i ps =>
            rw [canon_ty_proj_succ] at h
            split at h
            · exact Option.noConfusion h
            next st1 ps1 hps =>
              simp only [Option.some.injEq, Prod.mk.injEq] at h
              obtain ⟨rfl, rfl⟩ := h
              exact ihPs st binders ps st1 ps1 hps
        | ForAll n t =>
            rw [canon_ty_forall_succ] at h
            split at h
            · exact Option.noConfusion h
            next st1 t1 hc =>
              simp only [Option.some.injEq, Prod.mk.injEq] at h
              obtain ⟨rfl, rfl⟩ := h
              exact ihT st (binders + n) t st1 t1 hc
      · intro st binders ps st' ps' h
        cases ps with
        | nil =>
            rw [canon_params_nil_succ] at h
            simp only [Option.some.injEq, Prod.mk.injEq] at h
            obtain ⟨rfl, rfl⟩ := h
            exact dStep_refl_nil st
        | cons p ps =>
            rw [canon_params_cons_succ] at h
            split at h
            · exact Option.noConfusion h
            next st1 p1 hp =>
              split at h
              · exact Option.noConfusion h
              next st2 ps1 hps =>
                simp only [Option.some.injEq, Prod.mk.injEq] at h
                obtain ⟨rfl, rfl⟩ := h
                exact dStep_comp (ihP st binders p st1 p1 hp)
                  (ihPs st1 binders ps st2 ps1 hps)
      · intro st binders p st' p' h
        cases p with
        | Ty t =>
            rw [canon_param_ty_succ] at h
            split at h
            · exact Option.noConfusion h
            next st1 t1 hc =>
              simp only [Option.some.injEq, Prod.mk.injEq] at h
              obtain ⟨rfl, rfl⟩ := h
              exact ihT st binders t st1 t1 hc
        | Lifetime l =>
            rw [canon_param_lifetime_succ] at h
            split at h
            · exact Option.noConfusion h
            next st1 l1 hc =>
              simp only [Option.some.injEq, Prod.mk.injEq] at h
              obtain ⟨rfl, rfl⟩ := h
              exact ihL st binders l st1 l1 hc
        | Krate c =>
            rw [canon_param_krate_succ] at h
            split at h
            · exact Option.noConfusion h
            next st1 c1 hc =>
              simp only [Option.some.injEq, Prod.mk.injEq] at h
              obtain ⟨rfl, rfl⟩ := h
              exact ihK st binders c st1 c1 hc
      · intro st binders l st' l' h
        cases l with
        | Var d =>
            rw [canon_lifetime_var_succ] at h
            split at h
            next hd =>
              simp only [Option.some.injEq, Prod.mk.injEq] at h
              obtain ⟨rfl, rfl⟩ := h
              have hnb : ¬ binders ≤ d := by omega
              simpa [DStep, ltFree, hnb] using dStep_refl_nil st
            next hd =>
              split at h
              next lt0 hprobe =>
                split at h
                · exact Option.noConfusion h
                next st1 l1 hcanon =>
                  simp only [Option.some.injEq, Prod.mk.injEq] at h
                  obtain ⟨rfl, rfl⟩ := h
                  rw [ltFree_shift0]
                  exact ihL st 0 lt0 st1 l1 hcanon
              next hprobe =>
                simp only [Option.some.injEq, Prod.mk.injEq] at h
                obtain ⟨rfl, rfl⟩ := h
                have hb : binders ≤
                    (findIdx st.lifetimes (tbl.lifetime_unify.find (d - binders))).1 + binders :=
                  Nat.le_add_left _ _
                refine ⟨rfl, ?_, rfl⟩
                simp only [ltFree, if_pos hb, Nat.add_sub_cancel]
                exact dense_var_core st.lifetimes (tbl.lifetime_unify.find (d - binders))
        | ForAll u =>
            rw [canon_lifetime_forall_succ] at h
            simp only [Option.some.injEq, Prod.mk.injEq] at h
            obtain ⟨rfl, rfl⟩ := h
            simpa [DStep, ltFree] using dStep_refl_nil st
      · intro st binders c st' c' h
        cases c with
        | Var d =>
            rw [canon_krate_var_succ] at h
            split at h
            next hd =>
              simp only [Option.some.injEq, Prod.mk.injEq] at h
              obtain ⟨rfl, rfl⟩ := h
              have hnb : ¬ binders ≤ d := by omega
              simpa [DStep, ktFree, hnb] using dStep_refl_nil st
            next hd =>
              split at h
              next kt0 hprobe =>
                split at h
                · exact Option.noConfusion h
                next st1 c1 hcanon =>
                  simp only [Option.some.injEq, Prod.mk.injEq] at h
                  obtain ⟨rfl, rfl⟩ := h
                  rw [ktFree_shift0]
                  exact ihK st 0 kt0 st1 c1 hcanon
              next hprobe =>
                simp only [Option.some.injEq, Prod.mk.injEq] at h
                obtain ⟨rfl, rfl⟩ := h
                have hb : binders ≤
                    (findIdx st.krates (tbl.krate_unify.find (d - binders))).1 + binders :=
                  Nat.le_add_left _ _
                refine ⟨rfl, rfl, ?_⟩
                simp only [ktFree, if_pos hb, Nat.add_sub_cancel]
                exact dense_var_core st.krates (tbl.krate_unify.find (d - binders))
        | Id i =>
            rw [canon_krate_id_succ] at h
            simp only [Option.some.injEq, Prod.mk.injEq] at h
            obtain ⟨rfl, rfl⟩ := h
            simpa [DStep, ktFree] using dStep_refl_nil st
/-- Extend a union-find table by a block of fresh unbound variables,
each its own root. -/
def UnifTable.extendUnbound {α : Type} (t : UnifTable α) (us : List Nat) :
    UnifTable α :=
  ⟨t.parent ++ List.range' t.parent.length us.length, t.values ++ us.map .Unbound⟩

theorem extendUnbound_nil {α : Type} (t : UnifTable α) :
    t.extendUnbound [] = t := by
  simp [UnifTable.extendUnbound]

theorem extendUnbound_cons {α : Type} (t : UnifTable α) (u : Nat) (us : List Nat) :
    UnifTable.extendUnbound
        ⟨t.parent ++ [t.parent.length], t.values ++ [.Unbound u]⟩ us =
      t.extendUnbound (u :: us) := by
  simp only [UnifTable.extendUnbound, List.length_append, List.length_cons,
    List.length_nil, List.map_cons, List.append_assoc, List.cons_append,
    List.nil_append, List.range'_succ]

theorem foldl_newvars_ty : ∀ (us : List Nat) (tbl : InferenceTable),
    (us.map ParameterKind.Ty).foldl
      (fun tbl pk =>
        match pk with
        | .Ty u => (tbl.new_variable u).2
        | .Lifetime u => (tbl.new_lifetime_variable u).2
        | .Krate u => (tbl.new_krate_variable u).2) tbl =
      { tbl with ty_unify := tbl.ty_unify.extendUnbound us }
  | [], tbl => by simp [extendUnbound_nil]
  | u :: us, tbl => by
      simp only [List.map_cons, List.foldl_cons]
      rw [foldl_newvars_ty us _]
      show { tbl with ty_unify := (UnifTable.extendUnbound
          (UnifTable.mk (tbl.ty_unify.parent ++ [tbl.ty_unify.parent.length])
            (tbl.ty_unify.values ++ [.Unbound u])) us) } =
        { tbl with ty_unify := tbl.ty_unify.extendUnbound (u :: us) }
      rw [extendUnbound_cons]

theorem foldl_newvars_lifetime : ∀ (us : List Nat) (tbl : InferenceTable),
    (us.map ParameterKind.Lifetime).foldl
      (fun tbl pk =>
        match pk with
        | .Ty u => (tbl.new_variable u).2
        | .Lifetime u => (tbl.new_lifetime_variable u).2
        | .Krate u => (tbl.new_krate_variable u).2) tbl =
      { tbl with lifetime_unify := tbl.lifetime_unify.extendUnbound us }
  | [], tbl => by simp [extendUnbound_nil]
  | u :: us, tbl => by
      simp only [List.map_cons, List.foldl_cons]
      rw [foldl_newvars_lifetime us _]
      show { tbl with lifetime_unify := (UnifTable.extendUnbound
          (UnifTable.mk (tbl.lifetime_unify.parent ++ [tbl.lifetime_unify.parent.length])
            (tbl.lifetime_unify.values ++ [.Unbound u])) us) } =
        { tbl with lifetime_unify := tbl.lifetime_unify.extendUnbound (u :: us) }
      rw [extendUnbound_cons]

theorem foldl_newvars_krate : ∀ (us : List Nat) (tbl : InferenceTable),
    (us.map ParameterKind.Krate).foldl
      (fun tbl pk =>
        match pk with
        | .Ty u => (tbl.new_variable u).2
        | .Lifetime u => (tbl.new_lifetime_variable u).2
        | .Krate u => (tbl.new_krate_variable u).2) tbl =
      { tbl with krate_unify := tbl.krate_unify.extendUnbound us }
  | [], tbl => by simp [extendUnbound_nil]
  | u :: us, tbl => by
      simp only [List.map_cons, List.foldl_cons]
      rw [foldl_newvars_krate us _]
      show { tbl with krate_unify := (UnifTable.extendUnbound
          (UnifTable.mk (tbl.krate_unify.parent ++ [tbl.krate_unify.parent.length])
            (tbl.krate_unify.values ++ [.Unbound u])) us) } =
        { tbl with krate_unify := tbl.krate_unify.extendUnbound (u :: us) }
      rw [extendUnbound_cons]

theorem new_with_vars_eq (ust usl usk : List Nat) :
    InferenceTable.new_with_vars
        (ust.map .Ty ++ usl.map .Lifetime ++ usk.map .Krate) =
      ⟨⟨List.range ust.length, ust.map .Unbound⟩,
       ⟨List.range usl.length, usl.map .Unbound⟩,
       ⟨List.range usk.length, usk.map .Unbound⟩⟩ := by
  unfold InferenceTable.new_with_vars
  rw [List.foldl_append, List.foldl_append, foldl_newvars_ty,
    foldl_newvars_lifetime, foldl_newvars_krate]
  simp [InferenceTable.new, UnifTable.empty, UnifTable.extendUnbound,
    List.range_eq_range']
theorem fresh_find {α : Type} (n : Nat) (vals : List (InferenceValue α)) (v : Nat) :
    (UnifTable.mk (List.range n) vals).find v = v := by
  unfold UnifTable.find
  rcases Nat.lt_or_ge v n with h | h
  · rw [List.getD_eq_getElem?_getD, List.getElem?_range h]
    rfl
  · rw [List.getD_eq_getElem?_getD, List.getElem?_eq_none (by simpa using h)]
    rfl

theorem getD_map_unbound {α : Type} : ∀ (us : List Nat) (v : Nat),
    (us.map (InferenceValue.Unbound : Nat → InferenceValue α)).getD v
        (.Unbound UniverseIndex.root) =
      .Unbound (us.getD v UniverseIndex.root)
  | [], _ => rfl
  | _ :: _, 0 => rfl
  | _ :: us, v + 1 => getD_map_unbound us v

theorem fresh_probe_value {α : Type} (us : List Nat) (v : Nat) :
    (UnifTable.mk (List.range us.length)
        (us.map InferenceValue.Unbound) : UnifTable α).probe_value v =
      .Unbound (us.getD v UniverseIndex.root) := by
  unfold UnifTable.probe_value UnifTable.root_value
  rw [fresh_find]
  exact getD_map_unbound us v

theorem findIdx_map_succ : ∀ (l : List Nat) (w : Nat),
    findIdx (l.map Nat.succ) (w + 1) = ((findIdx l w).1, (findIdx l w).2.map Nat.succ)
  | [], w => rfl
  | x :: l, w => by
      by_cases hx : x = w
      · simp [findIdx, hx]
      · have hx1 : ¬ x + 1 = w + 1 := by omega
        have hx' : ¬ Nat.succ x = w + 1 := by omega
        simp only [List.map_cons, findIdx, if_neg hx, if_neg hx', findIdx_map_succ l w]

theorem findIdx_range : ∀ (a v : Nat), v < a → findIdx (List.range a) v = (v, List.range a)
  | a + 1, 0, _ => by
      rw [List.range_succ_eq_map]
      simp [findIdx]
  | a + 1, w + 1, h => by
      rw [List.range_succ_eq_map]
      have h0 : ¬ (0 : Nat) = w + 1 := by omega
      simp only [findIdx, if_neg h0, findIdx_map_succ, findIdx_range a w (by omega)]

theorem findIdx_range_self (a : Nat) :
    findIdx (List.range a) a = (a, List.range (a + 1)) := by
  rw [findIdx_not_mem _ _ (by simp)]
  simp [List.range_succ]

theorem unboundUniverses_fresh_aux {α : Type} (us : List Nat) : ∀ vs : List Nat,
    unboundUniverses
        (UnifTable.mk (List.range us.length)
          (us.map InferenceValue.Unbound) : UnifTable α) vs =
      some (vs.map (fun v => us.getD v UniverseIndex.root))
  | [] => rfl
  | v :: vs => by
      simp only [unboundUniverses, fresh_probe_value, unboundUniverses_fresh_aux us vs,
        List.map_cons]

theorem map_getD_range : ∀ us : List Nat,
    (List.range us.length).map (fun v => us.getD v UniverseIndex.root) = us
  | [] => rfl
  | u :: us => by
      show (List.range (us.length + 1)).map
        (fun v => (u :: us).getD v UniverseIndex.root) = u :: us
      rw [List.range_succ_eq_map, List.map_cons, List.map_map]
      have h1 : ((u :: us).getD · UniverseIndex.root) ∘ Nat.succ =
          (fun v => us.getD v UniverseIndex.root) := by
        funext v
        rfl
      rw [h1, map_getD_range us]
      rfl

theorem unboundUniverses_fresh {α : Type} (us : List Nat) :
    unboundUniverses
        (UnifTable.mk (List.range us.length)
          (us.map InferenceValue.Unbound) : UnifTable α) (List.range us.length) =
      some us := by
  rw [unboundUniverses_fresh_aux, map_getD_range]
/-- A `Querifier` state whose seen-root lists are initial segments
`0, 1, …, n-1` — the states arising when canonicalizing inside a fresh
table whose variables are their own roots. -/
def RangeSt (st : QState) : Prop :=
  st.tys = List.range st.tys.length ∧
  st.lifetimes = List.range st.lifetimes.length ∧
  st.krates = List.range st.krates.length

/-- Per sort, the walk of `L` continues densely from the state's
seen counts. -/
def DenseFrom (st : QState) (L : List Nat × List Nat × List Nat) : Prop :=
  (∃ b, Dense st.tys.length L.1 b) ∧
  (∃ b, Dense st.lifetimes.length L.2.1 b) ∧
  (∃ b, Dense st.krates.length L.2.2 b)

theorem canon_replay : ∀ (fuel : Nat) (tbl : InferenceTable),
    (∀ v, tbl.probe_var v = none) →
    (∀ v, tbl.probe_lifetime_var v = none) →
    (∀ v, tbl.probe_krate_var v = none) →
    (∀ v, tbl.ty_unify.find v = v) →
    (∀ v, tbl.lifetime_unify.find v = v) →
    (∀ v, tbl.krate_unify.find v = v) →
    (∀ st binders t st' t', canon_ty fuel tbl st binders t = some (st', t') →
      RangeSt st → DenseFrom st (tyFree binders t) → t' = t ∧ RangeSt st') ∧
    (∀ st binders ps st' ps', canon_params fuel tbl st binders ps = some (st', ps') →
      RangeSt st → DenseFrom st (paramsFree binders ps) → ps' = ps ∧ RangeSt st') ∧
    (∀ st binders p st' p', canon_param fuel tbl st binders p = some (st', p') →
      RangeSt st → DenseFrom st (paramFree binders p) → p' = p ∧ RangeSt st') ∧
    (∀ st binders l st' l', canon_lifetime fuel tbl st binders l = some (st', l') →
      RangeSt st → (∃ b, Dense st.lifetimes.length (ltFree binders l) b) →
      l' = l ∧ RangeSt st') ∧
    (∀ st binders c st' c', canon_krate fuel tbl st binders c = some (st', c') →
      RangeSt st → (∃ b, Dense st.krates.length (ktFree binders c) b) →
      c' = c ∧ RangeSt st') := by
  intro fuel tbl hpt hpl hpk hft hfl hfk
  induction fuel with
  | zero =>
      refine ⟨?_, ?_, ?_, ?_, ?_⟩ <;> intro st binders x st' x' h
      · rw [canon_ty_zero] at h; exact fun _ _ => Option.noConfusion h
      · rw [canon_params_zero] at h; exact fun _ _ => Option.noConfusion h
      · rw [canon_param_zero] at h; exact fun _ _ => Option.noConfusion h
      · rw [canon_lifetime_zero] at h; exact fun _ _ => Option.noConfusion h
      · rw [canon_krate_zero] at h; exact fun _ _ => Option.noConfusion h
  | succ fuel ih =>
      obtain ⟨ihT, ihPs, ihP, ihL, ihK⟩ := ih
      refine ⟨?_, ?_, ?_, ?_, ?_⟩
      · intro st binders t st' t' h hrs hdf
        cases t with
        | Var d =>
            rw [canon_ty_var_succ] at h
            split at h
            next hd =>
              simp only [Option.some.injEq, Prod.mk.injEq] at h
              obtain ⟨rfl, rfl⟩ := h
              exact ⟨rfl, hrs⟩
            next hd =>
              split at h
              next ty hprobe =>
                rw [hpt] at hprobe
                exact Option.noConfusion hprobe
              next hprobe =>
                simp only [Option.some.injEq, Prod.mk.injEq] at h
                obtain ⟨rfl, rfl⟩ := h
                have hbd : binders ≤ d := by omega
                obtain ⟨hrT, hrL, hrK⟩ := hrs
                obtain ⟨⟨b, hdense⟩, _, _⟩ := hdf
                rw [hft]
                simp only [tyFree, if_pos hbd] at hdense
                rcases hdense with ⟨hlt, _⟩ | ⟨heq, _⟩
                · have hfi := findIdx_range st.tys.length (d - binders) hlt
                  rw [← hrT] at hfi
                  rw [hfi]
                  exact ⟨by rw [Nat.sub_add_cancel hbd], hrT, hrL, hrK⟩
                · have hfi := findIdx_range_self st.tys.length
                  rw [← hrT] at hfi
                  rw [heq, hfi]
                  refine ⟨by
                    show Ty.Var (st.tys.length + binders) = Ty.Var d
                    congr 1
                    omega, ?_, hrL, hrK⟩
                  simp
        | Apply name ps =>
            rw [canon_ty_apply_succ] at h
            split at h
            · exact Option.noConfusion h
            next st1 ps1 hps =>
              simp only [Option.some.injEq, Prod.mk.injEq] at h
              obtain ⟨rfl, rfl⟩ := h
              obtain ⟨hp, hr⟩ := ihPs st binders ps st1 ps1 hps hrs hdf
              exact ⟨by rw [hp], hr⟩
        | Projection i ps =>
            rw [canon_ty_proj_succ] at h
            split at h
            · exact Option.noConfusion h
            next st1 ps1 hps =>
              simp only [Option.some.injEq, Prod.mk.injEq] at h
              obtain ⟨rfl, rfl⟩ := h
              obtain ⟨hp, hr⟩ := ihPs st binders ps st1 ps1 hps hrs hdf
              exact ⟨by rw [hp], hr⟩
        | ForAll n t =>
            rw [canon_ty_forall_succ] at h
            split at h
            · exact Option.noConfusion h
            next st1 t1 hc =>
              simp only [Option.some.injEq, Prod.mk.injEq] at h
              obtain ⟨rfl, rfl⟩ := h
              obtain ⟨hp, hr⟩ := ihT st (binders + n) t st1 t1 hc hrs hdf
              exact ⟨by rw [hp], hr⟩
      · intro st binders ps st' ps' h hrs hdf
        cases ps with
        | nil =>
            rw [canon_params_nil_succ] at h
            simp only [Option.some.injEq, Prod.mk.injEq] at h
            obtain ⟨rfl, rfl⟩ := h
            exact ⟨rfl, hrs⟩
        | cons p ps =>
            rw [canon_params_cons_succ] at h
            split at h
            · exact Option.noConfusion h
            next st1 p1 hp =>
              split at h
              · exact Option.noConfusion h
              next st2 ps1 hps =>
                simp only [Option.some.injEq, Prod.mk.injEq] at h
                obtain ⟨rfl, rfl⟩ := h
                obtain ⟨⟨bT, hdT⟩, ⟨bL, hdL⟩, ⟨bK, hdK⟩⟩ := hdf
                obtain ⟨cT, hdT1, hdT2⟩ := Dense.split hdT
                obtain ⟨cL, hdL1, hdL2⟩ := Dense.split hdL
                obtain ⟨cK, hdK1, hdK2⟩ := Dense.split hdK
                obtain ⟨hp1, hr1⟩ := ihP st binders p st1 p1 hp hrs
                  ⟨⟨cT, hdT1⟩, ⟨cL, hdL1⟩, ⟨cK, hdK1⟩⟩
                obtain ⟨hsT, hsL, hsK⟩ :=
                  (canon_dense_step fuel tbl).2.2.1 st binders p st1 p1 hp
                rw [hp1] at hsT hsL hsK
                have hcT : cT = st1.tys.length := Dense.fun_eq hdT1 hsT
                have hcL : cL = st1.lifetimes.length := Dense.fun_eq hdL1 hsL
                have hcK : cK = st1.krates.length := Dense.fun_eq hdK1 hsK
                subst hcT; subst hcL; subst hcK
                obtain ⟨hp2, hr2⟩ := ihPs st1 binders ps st2 ps1 hps hr1
                  ⟨⟨bT, hdT2⟩, ⟨bL, hdL2⟩, ⟨bK, hdK2⟩⟩
                exact ⟨by rw [hp1, hp2], hr2⟩
      · intro st binders p st' p' h hrs hdf
        cases p with
        | Ty t =>
            rw [canon_param_ty_succ] at h
            split at h
            · exact Option.noConfusion h
            next st1 t1 hc =>
              simp only [Option.some.injEq, Prod.mk.injEq] at h
              obtain ⟨rfl, rfl⟩ := h
              obtain ⟨hp, hr⟩ := ihT st binders t st1 t1 hc hrs hdf
              exact ⟨by rw [hp], hr⟩
        | Lifetime l =>
            rw [canon_param_lifetime_succ] at h
            split at h
            · exact Option.noConfusion h
            next st1 l1 hc =>
              simp only [Option.some.injEq, Prod.mk.injEq] at h
              obtain ⟨rfl, rfl⟩ := h
              obtain ⟨hp, hr⟩ := ihL st binders l st1 l1 hc hrs hdf.2.1
              exact ⟨by rw [hp], hr⟩
        | Krate c =>
            rw [canon_param_krate_succ] at h
            split at h
            · exact Option.noConfusion h
            next st1 c1 hc =>
              simp only [Option.some.injEq, Prod.mk.injEq] at h
              obtain ⟨rfl, rfl⟩ := h
              obtain ⟨hp, hr⟩ := ihK st binders c st1 c1 hc hrs hdf.2.2
              exact ⟨by rw [hp], hr⟩
      · intro st binders l st' l' h hrs hdl
        cases l with
        | Var d =>
            rw [canon_lifetime_var_succ] at h
            split at h
            next hd =>
              simp only [Option.some.injEq, Prod.mk.injEq] at h
              obtain ⟨rfl, rfl⟩ := h
              exact ⟨rfl, hrs⟩
            next hd =>
              split at h
              next lt0 hprobe =>
                rw [hpl] at hprobe
                exact Option.noConfusion hprobe
              next hprobe =>
                simp only [Option.some.injEq, Prod.mk.injEq] at h
                obtain ⟨rfl, rfl⟩ := h
                have hbd : binders ≤ d := by omega
                obtain ⟨hrT, hrL, hrK⟩ := hrs
                obtain ⟨b, hdense⟩ := hdl
                rw [hfl]
                simp only [ltFree, if_pos hbd] at hdense
                rcases hdense with ⟨hlt, _⟩ | ⟨heq, _⟩
                · have hfi := findIdx_range st.lifetimes.length (d - binders) hlt
                  rw [← hrL] at hfi
                  rw [hfi]
                  exact ⟨by rw [Nat.sub_add_cancel hbd], hrT, hrL, hrK⟩
                · have hfi := findIdx_range_self st.lifetimes.length
                  rw [← hrL] at hfi
                  rw [heq, hfi]
                  refine ⟨by
                    show Lifetime.Var (st.lifetimes.length + binders) = Lifetime.Var d
                    congr 1
                    omega, hrT, ?_, hrK⟩
                  simp
        | ForAll u =>
            rw [canon_lifetime_forall_succ] at h
            simp only [Option.some.injEq, Prod.mk.injEq] at h
            obtain ⟨rfl, rfl⟩ := h
            exact ⟨rfl, hrs⟩
      · intro st binders c st' c' h hrs hdk
        cases c with
        | Var d =>
            rw [canon_krate_var_succ] at h
            split at h
            next hd =>
              simp only [Option.some.injEq, Prod.mk.injEq] at h
              obtain ⟨rfl, rfl⟩ := h
              exact ⟨rfl, hrs⟩
            next hd =>
              split at h
              next kt0 hprobe =>
                rw [hpk] at hprobe
                exact Option.noConfusion hprobe
              next hprobe =>
                simp only [Option.some.injEq, Prod.mk.injEq] at h
                obtain ⟨rfl, rfl⟩ := h
                have hbd : binders ≤ d := by omega
                obtain ⟨hrT, hrL, hrK⟩ := hrs
                obtain ⟨b, hdense⟩ := hdk
                rw [hfk]
                simp only [ktFree, if_pos hbd] at hdense
                rcases hdense with ⟨hlt, _⟩ | ⟨heq, _⟩
                · have hfi := findIdx_range st.krates.length (d - binders) hlt
                  rw [← hrK] at hfi
                  rw [hfi]
                  exact ⟨by rw [Nat.sub_add_cancel hbd], hrT, hrL, hrK⟩
                · have hfi := findIdx_range_self st.krates.length
                  rw [← hrK] at hfi
                  rw [heq, hfi]
                  refine ⟨by
                    show Krate.Var (st.krates.length + binders) = Krate.Var d
                    congr 1
                    omega, hrT, hrL, ?_⟩
                  simp
        | Id i =>
            rw [canon_krate_id_succ] at h
            simp only [Option.some.injEq, Prod.mk.injEq] at h
            obtain ⟨rfl, rfl⟩ := h
            exact ⟨rfl, hrs⟩
mutual
/-- Recursion-depth bound of the canonicalization walk on a `Ty`. -/
def sizeTy : Ty → Nat
  | .Var _ => 1
  | .Apply _ ps => sizeParams ps + 1
  | .Projection _ ps => sizeParams ps + 1
  | .ForAll _ t => sizeTy t + 1

/-- Recursion-depth bound on a parameter list. -/
def sizeParams : List Parameter → Nat
  | [] => 1
  | p :: ps => max (sizeParam p) (sizeParams ps) + 1

/-- Recursion-depth bound on a parameter. -/
def sizeParam : Parameter → Nat
  | .Ty t => sizeTy t + 1
  | .Lifetime _ => 2
  | .Krate _ => 2
end

theorem canon_total : ∀ (fuel : Nat) (tbl : InferenceTable),
    (∀ v, tbl.probe_var v = none) →
    (∀ v, tbl.probe_lifetime_var v = none) →
    (∀ v, tbl.probe_krate_var v = none) →
    (∀ st binders t, sizeTy t ≤ fuel →
      ∃ r, canon_ty fuel tbl st binders t = some r) ∧
    (∀ st binders ps, sizeParams ps ≤ fuel →
      ∃ r, canon_params fuel tbl st binders ps = some r) ∧
    (∀ st binders p, sizeParam p ≤ fuel →
      ∃ r, canon_param fuel tbl st binders p = some r) ∧
    (∀ st binders l, 1 ≤ fuel → ∃ r, canon_lifetime fuel tbl st binders l = some r) ∧
    (∀ st binders c, 1 ≤ fuel → ∃ r, canon_krate fuel tbl st binders c = some r) := by
  intro fuel tbl hpt hpl hpk
  induction fuel with
  | zero =>
      refine ⟨?_, ?_, ?_, ?_, ?_⟩ <;> intro st binders x hx
      · have : 1 ≤ sizeTy x := by cases x <;> simp [sizeTy]
        omega
      · have : 1 ≤ sizeParams x := by cases x <;> simp [sizeParams]
        omega
      · have : 1 ≤ sizeParam x := by cases x <;> simp [sizeParam]
        omega
      · omega
      · omega
  | succ fuel ih =>
      obtain ⟨ihT, ihPs, ihP, ihL, ihK⟩ := ih
      refine ⟨?_, ?_, ?_, ?_, ?_⟩
      · intro st binders t hsz
        cases t with
        | Var d =>
            rw [canon_ty_var_succ]
            by_cases hd : d < binders
            · exact ⟨_, by rw [if_pos hd]⟩
            · rw [if_neg hd, hpt]
              exact ⟨_, rfl⟩
        | Apply name ps =>
            have hps : sizeParams ps ≤ fuel := by simp [sizeTy] at hsz; omega
            obtain ⟨⟨st1, ps1⟩, h1⟩ := ihPs st binders ps hps
            rw [canon_ty_apply_succ, h1]
            exact ⟨_, rfl⟩
        | Projection i ps =>
            have hps : sizeParams ps ≤ fuel := by simp [sizeTy] at hsz; omega
            obtain ⟨⟨st1, ps1⟩, h1⟩ := ihPs st binders ps hps
            rw [canon_ty_proj_succ, h1]
            exact ⟨_, rfl⟩
        | ForAll n t =>
            have ht : sizeTy t ≤ fuel := by simp [sizeTy] at hsz; omega
            obtain ⟨⟨st1, t1⟩, h1⟩ := ihT st (binders + n) t ht
            rw [canon_ty_forall_succ, h1]
            exact ⟨_, rfl⟩
      · intro st binders ps hsz
        cases ps with
        | nil => exact ⟨_, canon_params_nil_succ fuel tbl st binders⟩
        | cons p ps =>
            have hp : sizeParam p ≤ fuel := by simp [sizeParams] at hsz; omega
            have hps : sizeParams ps ≤ fuel := by simp [sizeParams] at hsz; omega
            obtain ⟨⟨st1, p1⟩, h1⟩ := ihP st binders p hp
            obtain ⟨⟨st2, ps1⟩, h2⟩ := ihPs st1 binders ps hps
            refine ⟨(st2, p1 :: ps1), ?_⟩
            rw [canon_params_cons_succ, h1]
            simp only []
            rw [h2]
      · intro st binders p hsz
        cases p with
        | Ty t =>
            have ht : sizeTy t ≤ fuel := by simp [sizeParam] at hsz; omega
            obtain ⟨⟨st1, t1⟩, h1⟩ := ihT st binders t ht
            rw [canon_param_ty_succ, h1]
            exact ⟨_, rfl⟩
        | Lifetime l =>
            have hf : 1 ≤ fuel := by simp [sizeParam] at hsz; omega
            obtain ⟨⟨st1, l1⟩, h1⟩ := ihL st binders l hf
            rw [canon_param_lifetime_succ, h1]
            exact ⟨_, rfl⟩
        | Krate c =>
            have hf : 1 ≤ fuel := by simp [sizeParam] at hsz; omega
            obtain ⟨⟨st1, c1⟩, h1⟩ := ihK st binders c hf
            rw [canon_param_krate_succ, h1]
            exact ⟨_, rfl⟩
      · intro st binders l _
        cases l with
        | Var d =>
            rw [canon_lifetime_var_succ]
            by_cases hd : d < binders
            · exact ⟨_, by rw [if_pos hd]⟩
            · rw [if_neg hd, hpl]
              exact ⟨_, rfl⟩
        | ForAll u => exact ⟨_, canon_lifetime_forall_succ fuel tbl st binders u⟩
      · intro st binders c _
        cases c with
        | Var d =>
            rw [canon_krate_var_succ]
            by_cases hd : d < binders
            · exact ⟨_, by rw [if_pos hd]⟩
            · rw [if_neg hd, hpk]
              exact ⟨_, rfl⟩
        | Id i => exact ⟨_, canon_krate_id_succ fuel tbl st binders i⟩
theorem fresh_probe_var (ust usl usk : List Nat) (v : Nat) :
    (InferenceTable.mk
      ⟨List.range ust.length, ust.map .Unbound⟩
      ⟨List.range usl.length, usl.map .Unbound⟩
      ⟨List.range usk.length, usk.map .Unbound⟩).probe_var v = none := by
  show (match (UnifTable.mk (List.range ust.length)
      (ust.map InferenceValue.Unbound) : UnifTable Ty).probe_value v with
    | .Bound ty => some ty
    | .Unbound _ => none) = none
  rw [fresh_probe_value]

theorem fresh_probe_lifetime_var (ust usl usk : List Nat) (v : Nat) :
    (InferenceTable.mk
      ⟨List.range ust.length, ust.map .Unbound⟩
      ⟨List.range usl.length, usl.map .Unbound⟩
      ⟨List.range usk.length, usk.map .Unbound⟩).probe_lifetime_var v = none := by
  show (match (UnifTable.mk (List.range usl.length)
      (usl.map InferenceValue.Unbound) : UnifTable Lifetime).probe_value v with
    | .Bound l => some l
    | .Unbound _ => none) = none
  rw [fresh_probe_value]

theorem fresh_probe_krate_var (ust usl usk : List Nat) (v : Nat) :
    (InferenceTable.mk
      ⟨List.range ust.length, ust.map .Unbound⟩
      ⟨List.range usl.length, usl.map .Unbound⟩
      ⟨List.range usk.length, usk.map .Unbound⟩).probe_krate_var v = none := by
  show (match (UnifTable.mk (List.range usk.length)
      (usk.map InferenceValue.Unbound) : UnifTable Krate).probe_value v with
    | .Bound k => some k
    | .Unbound _ => none) = none
  rw [fresh_probe_value]

/-- C6 (amended): literal idempotence over the *same* table fails (see
the counterexample: re-canonicalizing a canonical value against the
original table renumbers the binder universes), but canonical values
are fixed points of canonicalization against the inference table
reconstructed from their own binders — exactly how the solver re-opens
a `Query` (`InferenceTable::new_with_vars(&q.binders)` in
`match_clause.rs`): re-running `make_query` there returns the same
query, canonical value and binder list alike. -/
theorem C6_make_query_replay (fuel : Nat) (tbl : InferenceTable) (t : Ty)
    (q : Query Ty) (h : tbl.make_query fuel t = some q) :
    ∃ fuel2,
      (InferenceTable.new_with_vars q.binders).make_query fuel2 q.value = some q := by
  unfold InferenceTable.make_query at h
  split at h
  · exact Option.noConfusion h
  next st v hcanon =>
    unfold into_binders at h
    split at h
    · exact Option.noConfusion h
    next qb hqb =>
      simp only [Option.some.injEq] at h
      subst h
      split at hqb
      · exact Option.noConfusion hqb
      next ust hust =>
        split at hqb
        · exact Option.noConfusion hqb
        next usl husl =>
          split at hqb
          · exact Option.noConfusion hqb
          next usk husk =>
            simp only [Option.some.injEq] at hqb
            subst hqb
            have hlT := unboundUniverses_length _ _ _ hust
            have hlL := unboundUniverses_length _ _ _ husl
            have hlK := unboundUniverses_length _ _ _ husk
            obtain ⟨hdT, hdL, hdK⟩ :=
              (canon_dense_step fuel tbl).1 QState.empty 0 t st v hcanon
            have hpt := fresh_probe_var ust usl usk
            have hpl := fresh_probe_lifetime_var ust usl usk
            have hpk := fresh_probe_krate_var ust usl usk
            have hft : ∀ w, (InferenceTable.mk
                ⟨List.range ust.length, ust.map .Unbound⟩
                ⟨List.range usl.length, usl.map .Unbound⟩
                ⟨List.range usk.length, usk.map .Unbound⟩).ty_unify.find w = w :=
              fun w => fresh_find _ _ w
            have hfl : ∀ w, (InferenceTable.mk
                ⟨List.range ust.length, ust.map .Unbound⟩
                ⟨List.range usl.length, usl.map .Unbound⟩
                ⟨List.range usk.length, usk.map .Unbound⟩).lifetime_unify.find w = w :=
              fun w => fresh_find _ _ w
            have hfk : ∀ w, (InferenceTable.mk
                ⟨List.range ust.length, ust.map .Unbound⟩
                ⟨List.range usl.length, usl.map .Unbound⟩
                ⟨List.range usk.length, usk.map .Unbound⟩).krate_unify.find w = w :=
              fun w => fresh_find _ _ w
            obtain ⟨⟨st2, v2⟩, hcanon2⟩ :=
              (canon_total (sizeTy v) _ hpt hpl hpk).1 QState.empty 0 v (le_refl _)
            obtain ⟨hv2, hrs2⟩ :=
              (canon_replay (sizeTy v) _ hpt hpl hpk hft hfl hfk).1
                QState.empty 0 v st2 v2 hcanon2 ⟨rfl, rfl, rfl⟩
                ⟨⟨_, hdT⟩, ⟨_, hdL⟩, ⟨_, hdK⟩⟩
            rw [hv2] at hcanon2
            obtain ⟨hdT2, hdL2, hdK2⟩ :=
              (canon_dense_step (sizeTy v) _).1 QState.empty 0 v st2 v hcanon2
            have hnT : st2.tys.length = st.tys.length := Dense.fun_eq hdT2 hdT
            have hnL : st2.lifetimes.length = st.lifetimes.length :=
              Dense.fun_eq hdL2 hdL
            have hnK : st2.krates.length = st.krates.length := Dense.fun_eq hdK2 hdK
            obtain ⟨hr1, hr2, hr3⟩ := hrs2
            have e1 : st2.tys = List.range ust.length := by rw [hr1, hnT, ← hlT]
            have e2 : st2.lifetimes = List.range usl.length := by rw [hr2, hnL, ← hlL]
            have e3 : st2.krates = List.range usk.length := by rw [hr3, hnK, ← hlK]
            refine ⟨sizeTy v, ?_⟩
            have hb : (Query.mk v (QueryBinders.flatten ⟨ust, usl, usk⟩)).binders =
                ust.map ParameterKind.Ty ++ usl.map ParameterKind.Lifetime ++
                usk.map ParameterKind.Krate := rfl
            rw [hb, new_with_vars_eq]
            show InferenceTable.make_query (sizeTy v)
              (InferenceTable.mk
                ⟨List.range ust.length, ust.map .Unbound⟩
                ⟨List.range usl.length, usl.map .Unbound⟩
                ⟨List.range usk.length, usk.map .Unbound⟩) v =
              some (Query.mk v (QueryBinders.flatten ⟨ust, usl, usk⟩))
            unfold InferenceTable.make_query
            rw [hcanon2]
            simp only []
            unfold into_binders
            simp only []
            rw [e1, unboundUniverses_fresh]
            simp only []
            rw [e2, unboundUniverses_fresh]
            simp only []
            rw [e3, unboundUniverses_fresh]
/-- C6 counterexample: same-table idempotence fails.  In a table with
two unbound type variables in universes 0 and 1, canonicalizing `?1`
yields value `Var 0` with binders `[Ty 1]`; canonicalizing that
canonical value against the *same* table yields binders `[Ty 0]` — a
different query, so `make_query(make_query(x).value) ≠ make_query(x)`
as literally claimed. -/
theorem C6_counterexample :
    (((InferenceTable.new.new_variable 0).2.new_variable 1).2.make_query 5
        (.Var 1) = some ⟨.Var 0, [.Ty 1]⟩) ∧
    (((InferenceTable.new.new_variable 0).2.new_variable 1).2.make_query 5
        (.Var 0) = some ⟨.Var 0, [.Ty 0]⟩) ∧
    some (Query.mk (Ty.Var 0) [ParameterKind.Ty 0]) ≠
      some (Query.mk (Ty.Var 0) [ParameterKind.Ty 1]) :=
  ⟨rfl, rfl, by decide⟩

theorem C6_make_query_replay_witness :
    ∃ fuel2,
      (InferenceTable.new_with_vars
          (Query.mk (Ty.Var 0) [ParameterKind.Ty 1]).binders).make_query fuel2
        (Query.mk (Ty.Var 0) [ParameterKind.Ty 1]).value =
      some (Query.mk (Ty.Var 0) [ParameterKind.Ty 1]) :=
  C6_make_query_replay 5 ((InferenceTable.new.new_variable 0).2.new_variable 1).2
    (.Var 1) (Query.mk (Ty.Var 0) [ParameterKind.Ty 1]) rfl
end Chalk
